import Mathlib

/-!
# BitVMX-CPU reference tests: SHA-3 / Keccak (`_coin/reference_tests/sha3/sha3.c`)

A shallow embedding of the compact Keccak implementation of `sha3.c` and a
verification of the properties stated for it.

Conventions of the embedding
* `u8` buffers are `List Nat`; a byte is a natural number `< 256`.
  The 200-byte sponge state `u8 s[200]` is a list of length 200.
* `u64` values are natural numbers, reduced `% 2 ^ 64` after every operation
  that can overflow (left shifts).
* `FOR(i,n) body` is `forLoop n body`, which runs `body 0`, ..., `body (n-1)`.
* The two `while` loops of `Keccak` are recursions on a fuel argument that is
  initialised with the loop variable (`inLen`, `outLen`); running out of fuel
  is the result `none`.  With a block size `R ≥ 1` the fuel always suffices.
* An input buffer `(in, inLen)` is a list `inp` with `inLen = inp.length`.
  The output of `Keccak` is the list of bytes stored to `out[0]`, `out[1]`,
  ... in this order; the instrumented variant in namespace `Traced`
  additionally records the index of every buffer access.
-/

namespace Sha3

/-! ## Loops -/

/-- `FOR(i,n) body`: runs `body 0`, then `body 1`, ..., then `body (n-1)`. -/
def forLoop {σ : Type} : Nat → (Nat → σ → σ) → σ → σ
  | 0, _, st => st
  | n + 1, body, st => body n (forLoop n body st)

/-! ## Lane access (`sha3.c`, lines 44-51) -/

/-- `int LFSR86540(u8 *R)`: returns the updated register `*R` and the result bit. -/
def LFSR86540 (R : Nat) : Nat × Nat :=
  let R1 := ((R <<< 1) ^^^ (if R &&& 0x80 ≠ 0 then 0x71 else 0)) % 256
  (R1, (R1 &&& 2) >>> 1)

/-- `#define ROL(a,o) ((((u64)a)<<o)^(((u64)a)>>(64-o)))` on 64-bit words. -/
def ROL (a o : Nat) : Nat := ((a <<< o) % 2 ^ 64) ^^^ (a >>> (64 - o))

/-- `static u64 load64(const u8 *x)` with `x = s + off`. -/
def load64 (s : List Nat) (off : Nat) : Nat :=
  forLoop 8 (fun i u => ((u <<< 8) % 2 ^ 64) ||| s.getD (off + (7 - i)) 0) 0

/-- `static void store64(u8 *x, u64 u)` with `x = s + off`. -/
def store64 (s : List Nat) (off : Nat) (u : Nat) : List Nat :=
  (forLoop 8 (fun i (p : List Nat × Nat) => (p.1.set (off + i) (p.2 % 256), p.2 >>> 8)) (s, u)).1

/-- `static void xor64(u8 *x, u64 u)` with `x = s + off`. -/
def xor64 (s : List Nat) (off : Nat) (u : Nat) : List Nat :=
  (forLoop 8 (fun i (p : List Nat × Nat) =>
    (p.1.set (off + i) (p.1.getD (off + i) 0 ^^^ (p.2 % 256)), p.2 >>> 8)) (s, u)).1

/-- `#define rL(x,y) load64((u8*)s+8*(x+5*y))`. -/
def rL (s : List Nat) (x y : Nat) : Nat := load64 s (8 * (x + 5 * y))

/-- `#define wL(x,y,l) store64((u8*)s+8*(x+5*y),l)`. -/
def wL (s : List Nat) (x y l : Nat) : List Nat := store64 s (8 * (x + 5 * y)) l

/-- `#define XL(x,y,l) xor64((u8*)s+8*(x+5*y),l)`. -/
def XL (s : List Nat) (x y l : Nat) : List Nat := xor64 s (8 * (x + 5 * y)) l

/-- Bitwise complement `~a` of a `u64`. -/
def not64 (a : Nat) : Nat := 0xFFFFFFFFFFFFFFFF - a

/-! ## The permutation (`sha3.c`, lines 52-61) -/

/-- The theta step of one round (line 56). -/
def theta (s : List Nat) : List Nat :=
  let C := (List.range 5).map fun x =>
    rL s x 0 ^^^ rL s x 1 ^^^ rL s x 2 ^^^ rL s x 3 ^^^ rL s x 4
  forLoop 5 (fun x s =>
    let D := C.getD ((x + 4) % 5) 0 ^^^ ROL (C.getD ((x + 1) % 5) 0) 1
    forLoop 5 (fun y s => XL s x y D) s) s

/-- Local variables of the rho/pi loop (line 57): the state and `x`, `y`, `r`, `D`. -/
structure RhoPi where
  s : List Nat
  x : Nat
  y : Nat
  r : Nat
  D : Nat

/-- One iteration `j` of the rho/pi loop. -/
def rhoPiStep (j : Nat) (st : RhoPi) : RhoPi :=
  let r := st.r + (j + 1)
  let Y := (2 * st.x + 3 * st.y) % 5
  let x := st.y
  let y := Y
  let C0 := rL st.s x y
  { s := wL st.s x y (ROL st.D (r % 64)), x := x, y := y, r := r, D := C0 }

/-- The rho and pi steps of one round (line 57). -/
def rhoPi (s : List Nat) : List Nat :=
  (forLoop 24 rhoPiStep { s := s, x := 1, y := 0, r := 0, D := rL s 1 0 }).s

/-- The chi step of one round (line 58). -/
def chi (s : List Nat) : List Nat :=
  forLoop 5 (fun y s =>
    let C := (List.range 5).map fun x => rL s x y
    forLoop 5 (fun x s =>
      wL s x y (C.getD x 0 ^^^ (not64 (C.getD ((x + 1) % 5) 0) &&& C.getD ((x + 2) % 5) 0))) s) s

/-- The iota step of one round (line 59), on the pair of the state and the LFSR register `R`. -/
def iota (p : List Nat × Nat) : List Nat × Nat :=
  forLoop 7 (fun j (p : List Nat × Nat) =>
    let q := LFSR86540 p.2
    (if q.2 ≠ 0 then XL p.1 0 0 (1 <<< ((1 <<< j) - 1)) else p.1, q.1)) p

/-- One round of the permutation on the pair of the state and the LFSR register. -/
def round (p : List Nat × Nat) : List Nat × Nat :=
  iota (chi (rhoPi (theta p.1)), p.2)

/-- `void KeccakF1600(void *s)`. -/
def KeccakF1600 (s : List Nat) : List Nat :=
  (forLoop 24 (fun _ p => round p) (s, 0x01)).1

/-! ## The sponge (`sha3.c`, lines 62-68) -/

/-- `R-1` in `unsigned int` arithmetic. -/
def decU32 (R : Nat) : Nat := (R + 4294967295) % 4294967296

/-- `FOR(i,b) s[i]^=in[i]`. -/
def xorIn (s inp : List Nat) (b : Nat) : List Nat :=
  forLoop b (fun i s => s.set i (s.getD i 0 ^^^ inp.getD i 0)) s

/-- The absorb loop (line 65); the result is the state and the variable `b`. -/
def absorb (R : Nat) : Nat → List Nat → List Nat → Nat → Option (List Nat × Nat)
  | 0, s, inp, b => if inp.length > 0 then none else some (s, b)
  | fuel + 1, s, inp, b =>
    if inp.length > 0 then
      let b := if inp.length < R then inp.length else R
      let s := xorIn s inp b
      let inp := inp.drop b
      if b = R then absorb R fuel (KeccakF1600 s) inp 0 else absorb R fuel s inp b
    else some (s, b)

/-- The squeeze loop (line 67); `out` is the list of bytes written so far. -/
def squeeze (R : Nat) : Nat → List Nat → Nat → List Nat → Option (List Nat)
  | 0, _, outLen, out => if outLen > 0 then none else some out
  | fuel + 1, s, outLen, out =>
    if outLen > 0 then
      let b := if outLen < R then outLen else R
      let out := forLoop b (fun i out => out ++ [s.getD i 0]) out
      let outLen := outLen - b
      if outLen > 0 then squeeze R fuel (KeccakF1600 s) outLen out
      else squeeze R fuel s outLen out
    else some out

/-- The pad step (line 66) on the state `s` and the position `b` left by the absorb loop. -/
def pad (R sfx : Nat) (s : List Nat) (b : Nat) : List Nat :=
  let s := s.set b (s.getD b 0 ^^^ sfx)
  let s := if sfx &&& 0x80 ≠ 0 ∧ b = decU32 R then KeccakF1600 s else s
  let s := s.set (decU32 R) (s.getD (decU32 R) 0 ^^^ 0x80)
  KeccakF1600 s

/-- `void Keccak(ui r, ui c, const u8 *in, u64 inLen, u8 sfx, u8 *out, u64 outLen)`. -/
def Keccak (r _c : Nat) (inp : List Nat) (sfx : Nat) (outLen : Nat) : Option (List Nat) :=
  let R := r / 8
  let s := forLoop 200 (fun i s => s.set i 0) (List.replicate 200 0)
  match absorb R inp.length s inp 0 with
  | none => none
  | some (s, b) => squeeze R outLen (pad R sfx s b) outLen []

/-! ## The facade (`sha3.c`, lines 37-42 and 70-90) -/

def FIPS202_SHAKE128 (inp : List Nat) (outLen : Nat) : Option (List Nat) :=
  Keccak 1344 256 inp 0x1F outLen

def FIPS202_SHAKE256 (inp : List Nat) (outLen : Nat) : Option (List Nat) :=
  Keccak 1088 512 inp 0x1F outLen

def FIPS202_SHA3_224 (inp : List Nat) : Option (List Nat) := Keccak 1152 448 inp 0x06 28

def FIPS202_SHA3_256 (inp : List Nat) : Option (List Nat) := Keccak 1088 512 inp 0x06 32

def FIPS202_SHA3_384 (inp : List Nat) : Option (List Nat) := Keccak 832 768 inp 0x06 48

def FIPS202_SHA3_512 (inp : List Nat) : Option (List Nat) := Keccak 576 1024 inp 0x06 64

/-- `void sha3_256_easy_hash(const void* data, size_t size, uint8_t* hash)`. -/
def sha3_256_easy_hash (data : List Nat) : Option (List Nat) := FIPS202_SHA3_256 data

/-- `const char hex_chars[] = "0123456789abcdef"`. -/
def hex_chars : List Char := "0123456789abcdef".toList

/-- `void sha3_256_to_hex(const uint8_t* hash, char* hex)`: the buffer `hex` after the call. -/
def sha3_256_to_hex (hash : List Nat) (hex : List Char) : List Char :=
  forLoop 32 (fun i hex =>
    let hex := hex.set (i * 2) (hex_chars.getD ((hash.getD i 0 >>> 4) &&& 0xF) '\x00')
    hex.set (i * 2 + 1) (hex_chars.getD (hash.getD i 0 &&& 0xF) '\x00')) hex

/-- `void sha3_256_easy_hash_hex(const void* data, size_t size, char* hex)`. -/
def sha3_256_easy_hash_hex (data : List Nat) (hex : List Char) : Option (List Char) :=
  match sha3_256_easy_hash data with
  | none => none
  | some hash => some (sha3_256_to_hex hash hex)

/-! ## The lane view of the state

The permutation accesses the state only through `rL`, `wL` and `XL`.  The
definitions of namespace `Lanes` are the steps of `KeccakF1600` with the
state represented by the list of its 25 lanes (lane `(x, y)` at index
`x + 5 * y`), related to the byte representation by `toLanes` and `ofLanes`. -/

/-- A sponge state: 200 bytes. -/
def ValidState (s : List Nat) : Prop := s.length = 200 ∧ ∀ j, s.getD j 0 < 256

/-- The 25 lanes of a state, each read by `load64`. -/
def toLanes (s : List Nat) : List Nat := (List.range 25).map fun i => load64 s (8 * i)

/-- The 200 bytes of a list of 25 lanes (little-endian). -/
def ofLanes (A : List Nat) : List Nat :=
  (List.range 200).map fun j => (A.getD (j / 8) 0 >>> (8 * (j % 8))) % 256

namespace Lanes

def rL (A : List Nat) (x y : Nat) : Nat := A.getD (x + 5 * y) 0

def wL (A : List Nat) (x y l : Nat) : List Nat := A.set (x + 5 * y) (l % 2 ^ 64)

def XL (A : List Nat) (x y l : Nat) : List Nat :=
  A.set (x + 5 * y) (A.getD (x + 5 * y) 0 ^^^ (l % 2 ^ 64))

def theta (s : List Nat) : List Nat :=
  let C := (List.range 5).map fun x =>
    rL s x 0 ^^^ rL s x 1 ^^^ rL s x 2 ^^^ rL s x 3 ^^^ rL s x 4
  forLoop 5 (fun x s =>
    let D := C.getD ((x + 4) % 5) 0 ^^^ ROL (C.getD ((x + 1) % 5) 0) 1
    forLoop 5 (fun y s => XL s x y D) s) s

def rhoPiStep (j : Nat) (st : RhoPi) : RhoPi :=
  let r := st.r + (j + 1)
  let Y := (2 * st.x + 3 * st.y) % 5
  let x := st.y
  let y := Y
  let C0 := rL st.s x y
  { s := wL st.s x y (ROL st.D (r % 64)), x := x, y := y, r := r, D := C0 }

def rhoPi (s : List Nat) : List Nat :=
  (forLoop 24 rhoPiStep { s := s, x := 1, y := 0, r := 0, D := rL s 1 0 }).s

def chi (s : List Nat) : List Nat :=
  forLoop 5 (fun y s =>
    let C := (List.range 5).map fun x => rL s x y
    forLoop 5 (fun x s =>
      wL s x y (C.getD x 0 ^^^ (not64 (C.getD ((x + 1) % 5) 0) &&& C.getD ((x + 2) % 5) 0))) s) s

def iota (p : List Nat × Nat) : List Nat × Nat :=
  forLoop 7 (fun j (p : List Nat × Nat) =>
    let q := LFSR86540 p.2
    (if q.2 ≠ 0 then XL p.1 0 0 (1 <<< ((1 <<< j) - 1)) else p.1, q.1)) p

def round (p : List Nat × Nat) : List Nat × Nat :=
  iota (chi (rhoPi (theta p.1)), p.2)

def KeccakF1600 (A : List Nat) : List Nat :=
  (forLoop 24 (fun _ p => round p) (A, 0x01)).1

end Lanes

/-! ## Evaluation of the permutation

`Eval.KeccakF1600` computes `Lanes.KeccakF1600` with theta, rho/pi and chi
written out lane by lane and with every intermediate state reduced to
numerals before the next step starts, so that the permutation of a concrete
state can be evaluated by definitional unfolding. -/

namespace Eval

/-- Apply `k` to `n` after `n` has been evaluated. -/
def forceNat {α : Type} (n : Nat) (k : Nat → α) : α :=
  match n with
  | 0 => k 0
  | m + 1 => k (m + 1)

/-- Apply `k` to `l` after all elements of `l` have been evaluated. -/
def forceList {α : Type} : List Nat → (List Nat → α) → α
  | [], k => k []
  | x :: xs, k => forceNat x fun x' => forceList xs fun xs' => k (x' :: xs')

/-- The theta step on the 25 lanes, written out. -/
def theta : List Nat → List Nat
  | [a0, a1, a2, a3, a4, a5, a6, a7, a8, a9, a10, a11, a12, a13, a14, a15, a16, a17, a18, a19, a20,
     a21, a22, a23, a24] =>
    let c0 := a0 ^^^ a5 ^^^ a10 ^^^ a15 ^^^ a20
    let c1 := a1 ^^^ a6 ^^^ a11 ^^^ a16 ^^^ a21
    let c2 := a2 ^^^ a7 ^^^ a12 ^^^ a17 ^^^ a22
    let c3 := a3 ^^^ a8 ^^^ a13 ^^^ a18 ^^^ a23
    let c4 := a4 ^^^ a9 ^^^ a14 ^^^ a19 ^^^ a24
    let d0 := c4 ^^^ ROL c1 1
    let d1 := c0 ^^^ ROL c2 1
    let d2 := c1 ^^^ ROL c3 1
    let d3 := c2 ^^^ ROL c4 1
    let d4 := c3 ^^^ ROL c0 1
    [a0 ^^^ d0 % 2 ^ 64, a1 ^^^ d1 % 2 ^ 64, a2 ^^^ d2 % 2 ^ 64, a3 ^^^ d3 % 2 ^ 64,
     a4 ^^^ d4 % 2 ^ 64, a5 ^^^ d0 % 2 ^ 64, a6 ^^^ d1 % 2 ^ 64, a7 ^^^ d2 % 2 ^ 64,
     a8 ^^^ d3 % 2 ^ 64, a9 ^^^ d4 % 2 ^ 64, a10 ^^^ d0 % 2 ^ 64, a11 ^^^ d1 % 2 ^ 64,
     a12 ^^^ d2 % 2 ^ 64, a13 ^^^ d3 % 2 ^ 64, a14 ^^^ d4 % 2 ^ 64, a15 ^^^ d0 % 2 ^ 64,
     a16 ^^^ d1 % 2 ^ 64, a17 ^^^ d2 % 2 ^ 64, a18 ^^^ d3 % 2 ^ 64, a19 ^^^ d4 % 2 ^ 64,
     a20 ^^^ d0 % 2 ^ 64, a21 ^^^ d1 % 2 ^ 64, a22 ^^^ d2 % 2 ^ 64, a23 ^^^ d3 % 2 ^ 64,
     a24 ^^^ d4 % 2 ^ 64]
  | A => A

/-- The rho and pi steps on the 25 lanes, written out. -/
def rhoPi : List Nat → List Nat
  | [a0, a1, a2, a3, a4, a5, a6, a7, a8, a9, a10, a11, a12, a13, a14, a15, a16, a17, a18, a19, a20,
     a21, a22, a23, a24] =>
    [a0, ROL a6 44 % 2 ^ 64, ROL a12 43 % 2 ^ 64, ROL a18 21 % 2 ^ 64, ROL a24 14 % 2 ^ 64,
     ROL a3 28 % 2 ^ 64, ROL a9 20 % 2 ^ 64, ROL a10 3 % 2 ^ 64, ROL a16 45 % 2 ^ 64,
     ROL a22 61 % 2 ^ 64, ROL a1 1 % 2 ^ 64, ROL a7 6 % 2 ^ 64, ROL a13 25 % 2 ^ 64,
     ROL a19 8 % 2 ^ 64, ROL a20 18 % 2 ^ 64, ROL a4 27 % 2 ^ 64, ROL a5 36 % 2 ^ 64,
     ROL a11 10 % 2 ^ 64, ROL a17 15 % 2 ^ 64, ROL a23 56 % 2 ^ 64, ROL a2 62 % 2 ^ 64,
     ROL a8 55 % 2 ^ 64, ROL a14 39 % 2 ^ 64, ROL a15 41 % 2 ^ 64, ROL a21 2 % 2 ^ 64]
  | A => A

/-- The chi step on the 25 lanes, written out. -/
def chi : List Nat → List Nat
  | [a0, a1, a2, a3, a4, a5, a6, a7, a8, a9, a10, a11, a12, a13, a14, a15, a16, a17, a18, a19, a20,
     a21, a22, a23, a24] =>
    [(a0 ^^^ (not64 a1 &&& a2)) % 2 ^ 64, (a1 ^^^ (not64 a2 &&& a3)) % 2 ^ 64,
     (a2 ^^^ (not64 a3 &&& a4)) % 2 ^ 64, (a3 ^^^ (not64 a4 &&& a0)) % 2 ^ 64,
     (a4 ^^^ (not64 a0 &&& a1)) % 2 ^ 64, (a5 ^^^ (not64 a6 &&& a7)) % 2 ^ 64,
     (a6 ^^^ (not64 a7 &&& a8)) % 2 ^ 64, (a7 ^^^ (not64 a8 &&& a9)) % 2 ^ 64,
     (a8 ^^^ (not64 a9 &&& a5)) % 2 ^ 64, (a9 ^^^ (not64 a5 &&& a6)) % 2 ^ 64,
     (a10 ^^^ (not64 a11 &&& a12)) % 2 ^ 64, (a11 ^^^ (not64 a12 &&& a13)) % 2 ^ 64,
     (a12 ^^^ (not64 a13 &&& a14)) % 2 ^ 64, (a13 ^^^ (not64 a14 &&& a10)) % 2 ^ 64,
     (a14 ^^^ (not64 a10 &&& a11)) % 2 ^ 64, (a15 ^^^ (not64 a16 &&& a17)) % 2 ^ 64,
     (a16 ^^^ (not64 a17 &&& a18)) % 2 ^ 64, (a17 ^^^ (not64 a18 &&& a19)) % 2 ^ 64,
     (a18 ^^^ (not64 a19 &&& a15)) % 2 ^ 64, (a19 ^^^ (not64 a15 &&& a16)) % 2 ^ 64,
     (a20 ^^^ (not64 a21 &&& a22)) % 2 ^ 64, (a21 ^^^ (not64 a22 &&& a23)) % 2 ^ 64,
     (a22 ^^^ (not64 a23 &&& a24)) % 2 ^ 64, (a23 ^^^ (not64 a24 &&& a20)) % 2 ^ 64,
     (a24 ^^^ (not64 a20 &&& a21)) % 2 ^ 64]
  | A => A

/-- One round, with the state evaluated after every step. -/
def round (p : List Nat × Nat) : List Nat × Nat :=
  forceList p.1 fun A0 =>
  forceList (theta A0) fun A1 =>
  forceList (rhoPi A1) fun A2 =>
  forceList (chi A2) fun A3 =>
  forceList (Lanes.iota (A3, p.2)).1 fun A4 =>
  forceNat (Lanes.iota (A3, p.2)).2 fun R => (A4, R)

/-- `n` rounds. -/
def rounds : Nat → List Nat × Nat → List Nat × Nat
  | 0, p => p
  | n + 1, p => forceList (round p).1 fun A => forceNat (round p).2 fun R => rounds n (A, R)

/-- The permutation on the 25 lanes. -/
def KeccakF1600 (A : List Nat) : List Nat := (rounds 24 (A, 0x01)).1

end Eval

/-! ## The reference sponge

The definitions of namespace `Spec` follow the description of the sponge
construction: pad the message, absorb it block by block, squeeze block by
block. -/

namespace Spec

/-- The padded message: `M`, the suffix byte, zero bytes up to the next multiple of `R`,
and `0x80` XORed into the last byte. -/
def padded (R : Nat) (M : List Nat) (sfx : Nat) : List Nat :=
  let P := M ++ [sfx] ++ List.replicate (R * (M.length / R + 1) - (M.length + 1)) 0
  P.set (P.length - 1) (P.getD (P.length - 1) 0 ^^^ 0x80)

/-- The `R`-byte blocks of `P`, in order. -/
def blocks (R : Nat) (P : List Nat) : List (List Nat) :=
  (List.range (P.length / R)).map fun i => (P.drop (R * i)).take R

/-- XOR the block `B` into the first bytes of the state `S`. -/
def xorBlock (S B : List Nat) : List Nat :=
  (List.range S.length).map fun i =>
    if i < B.length then S.getD i 0 ^^^ B.getD i 0 else S.getD i 0

/-- Absorb the blocks in order: XOR in, then permute. -/
def absorbBlocks (S : List Nat) (Bs : List (List Nat)) : List Nat :=
  Bs.foldl (fun S B => KeccakF1600 (xorBlock S B)) S

/-- The first `n` output blocks `S[0..R) ++ F(S)[0..R) ++ F(F(S))[0..R) ++ ...`. -/
def stream (R : Nat) : List Nat → Nat → List Nat
  | _, 0 => []
  | S, n + 1 => S.take R ++ stream R (KeccakF1600 S) n

/-- The sponge with block size `R` on message `M` with suffix `sfx` and output length `L`. -/
def sponge (R : Nat) (M : List Nat) (sfx L : Nat) : List Nat :=
  (stream R (absorbBlocks (List.replicate 200 0) (blocks R (padded R M sfx))) (L / R + 1)).take L

end Spec

/-! ## Auxiliary definitions for the statements -/

/-- The arguments `(r, c, sfx)` of the six calls of `Keccak` in the facade
(`sha3.c`, lines 37-42), in source order: SHAKE128, SHAKE256, SHA3-224, SHA3-256,
SHA3-384, SHA3-512. -/
def facadeArgs : List (Nat × Nat × Nat) :=
  [(1344, 256, 0x1F), (1088, 512, 0x1F), (1152, 448, 0x06), (1088, 512, 0x06),
   (832, 768, 0x06), (576, 1024, 0x06)]

/-- The pad step with the statement `if ((sfx & 0x80) && b == R-1) KeccakF1600(s)` deleted. -/
def padNoPrePermute (R sfx : Nat) (s : List Nat) (b : Nat) : List Nat :=
  let s := s.set b (s.getD b 0 ^^^ sfx)
  let s := s.set (decU32 R) (s.getD (decU32 R) 0 ^^^ 0x80)
  KeccakF1600 s

/-- The routine `Keccak` with the conditional pre-permute of the pad step deleted. -/
def KeccakNoPrePermute (r _c : Nat) (inp : List Nat) (sfx : Nat) (outLen : Nat) :
    Option (List Nat) :=
  let R := r / 8
  let s := forLoop 200 (fun i s => s.set i 0) (List.replicate 200 0)
  match absorb R inp.length s inp 0 with
  | none => none
  | some (s, b) => squeeze R outLen (padNoPrePermute R sfx s b) outLen []

/-- The routine `FIPS202_SHAKE128` with the conditional pre-permute deleted. -/
def FIPS202_SHAKE128_NoPrePermute (inp : List Nat) (outLen : Nat) : Option (List Nat) :=
  KeccakNoPrePermute 1344 256 inp 0x1F outLen

/-- The routine `FIPS202_SHAKE256` with the conditional pre-permute deleted. -/
def FIPS202_SHAKE256_NoPrePermute (inp : List Nat) (outLen : Nat) : Option (List Nat) :=
  KeccakNoPrePermute 1088 512 inp 0x1F outLen

namespace Spec

/-- The value of a hexadecimal digit: its position in `0123456789abcdef`. -/
def hexVal (c : Char) : Nat := hex_chars.indexOf c

/-- Decode a string of character pairs as base-16 numbers. -/
def hexDecode : List Char → List Nat
  | c1 :: c2 :: rest => (16 * hexVal c1 + hexVal c2) :: hexDecode rest
  | _ => []

/-- Two lower-case hexadecimal digits per byte, high nibble first. -/
def hexEncode : List Nat → List Char
  | [] => []
  | b :: bs => hex_chars.getD (b / 16) '\x00' :: hex_chars.getD (b % 16) '\x00' :: hexEncode bs

end Spec

/-! ## Instrumented semantics

The functions of namespace `Traced` are the functions above with every access to the
three buffers of `Keccak` (the state `s`, the message `in`, the output `out`) recorded.
Each one returns its result together with the list of the accesses it made, in
program order.  Indices into `in` and `out` are counted from the start of the
buffer: `ip` and `op` are the distances the pointers `in` and `out` have been
advanced. -/

namespace Traced

/-- One access to a buffer. -/
inductive Access where
  /-- A read or write of `s[i]`. -/
  | state (i : Nat)
  /-- A read of byte `i` of the message. -/
  | input (i : Nat)
  /-- A write of byte `i` of the output. -/
  | output (i : Nat)
  deriving DecidableEq

/-- The access is inside its buffer: the state has 200 bytes, the message `inLen` bytes and
the output `outLen` bytes. -/
def Access.inBounds (inLen outLen : Nat) : Access → Prop
  | .state i => i < 200
  | .input i => i < inLen
  | .output i => i < outLen

/-- The indices of the writes to the output, in program order. -/
def outputIndices : List Access → List Nat
  | [] => []
  | .output i :: l => i :: outputIndices l
  | _ :: l => outputIndices l

/-- `FOR(i,n) body`, collecting the accesses of the iterations. -/
def forLoopT {σ : Type} : Nat → (Nat → σ → σ × List Access) → σ → σ × List Access
  | 0, _, st => (st, [])
  | n + 1, body, st =>
    let p := forLoopT n body st
    let q := body n p.1
    (q.1, p.2 ++ q.2)

def load64 (s : List Nat) (off : Nat) : Nat × List Access :=
  forLoopT 8 (fun i u =>
    (((u <<< 8) % 2 ^ 64) ||| s.getD (off + (7 - i)) 0, [Access.state (off + (7 - i))])) 0

def store64 (s : List Nat) (off : Nat) (u : Nat) : List Nat × List Access :=
  let p := forLoopT 8 (fun i (p : List Nat × Nat) =>
    ((p.1.set (off + i) (p.2 % 256), p.2 >>> 8), [Access.state (off + i)])) (s, u)
  (p.1.1, p.2)

def xor64 (s : List Nat) (off : Nat) (u : Nat) : List Nat × List Access :=
  let p := forLoopT 8 (fun i (p : List Nat × Nat) =>
    ((p.1.set (off + i) (p.1.getD (off + i) 0 ^^^ (p.2 % 256)), p.2 >>> 8),
      [Access.state (off + i)])) (s, u)
  (p.1.1, p.2)

def rL (s : List Nat) (x y : Nat) : Nat × List Access := load64 s (8 * (x + 5 * y))

def wL (s : List Nat) (x y l : Nat) : List Nat × List Access := store64 s (8 * (x + 5 * y)) l

def XL (s : List Nat) (x y l : Nat) : List Nat × List Access := xor64 s (8 * (x + 5 * y)) l

/-- The loop `FOR(x,5) C[x]=rL(x,0)^rL(x,1)^rL(x,2)^rL(x,3)^rL(x,4)` of the theta step. -/
def thetaC (s : List Nat) : List Nat × List Access :=
  forLoopT 5 (fun x (C : List Nat) =>
    let r0 := rL s x 0
    let r1 := rL s x 1
    let r2 := rL s x 2
    let r3 := rL s x 3
    let r4 := rL s x 4
    (C ++ [r0.1 ^^^ r1.1 ^^^ r2.1 ^^^ r3.1 ^^^ r4.1], r0.2 ++ r1.2 ++ r2.2 ++ r3.2 ++ r4.2)) []

def theta (s : List Nat) : List Nat × List Access :=
  let C := thetaC s
  let p := forLoopT 5 (fun x s =>
    let D := C.1.getD ((x + 4) % 5) 0 ^^^ ROL (C.1.getD ((x + 1) % 5) 0) 1
    forLoopT 5 (fun y s => XL s x y D) s) s
  (p.1, C.2 ++ p.2)

def rhoPiStep (j : Nat) (st : RhoPi) : RhoPi × List Access :=
  let r := st.r + (j + 1)
  let Y := (2 * st.x + 3 * st.y) % 5
  let x := st.y
  let y := Y
  let C0 := rL st.s x y
  let w := wL st.s x y (ROL st.D (r % 64))
  ({ s := w.1, x := x, y := y, r := r, D := C0.1 }, C0.2 ++ w.2)

def rhoPi (s : List Nat) : List Nat × List Access :=
  let D := rL s 1 0
  let p := forLoopT 24 rhoPiStep { s := s, x := 1, y := 0, r := 0, D := D.1 }
  (p.1.s, D.2 ++ p.2)

/-- The loop `FOR(x,5) C[x]=rL(x,y)` of the chi step. -/
def chiC (s : List Nat) (y : Nat) : List Nat × List Access :=
  forLoopT 5 (fun x (C : List Nat) =>
    let r := rL s x y
    (C ++ [r.1], r.2)) []

def chi (s : List Nat) : List Nat × List Access :=
  forLoopT 5 (fun y s =>
    let C := chiC s y
    let p := forLoopT 5 (fun x s =>
      wL s x y (C.1.getD x 0 ^^^ (not64 (C.1.getD ((x + 1) % 5) 0) &&& C.1.getD ((x + 2) % 5) 0)))
      s
    (p.1, C.2 ++ p.2)) s

def iota (p : List Nat × Nat) : (List Nat × Nat) × List Access :=
  forLoopT 7 (fun j (p : List Nat × Nat) =>
    let q := LFSR86540 p.2
    if q.2 ≠ 0 then
      let w := XL p.1 0 0 (1 <<< ((1 <<< j) - 1))
      ((w.1, q.1), w.2)
    else ((p.1, q.1), [])) p

def round (p : List Nat × Nat) : (List Nat × Nat) × List Access :=
  let a := theta p.1
  let b := rhoPi a.1
  let c := chi b.1
  let d := iota (c.1, p.2)
  (d.1, a.2 ++ b.2 ++ c.2 ++ d.2)

def KeccakF1600 (s : List Nat) : List Nat × List Access :=
  let p := forLoopT 24 (fun _ p => round p) (s, 0x01)
  (p.1.1, p.2)

/-- `FOR(i,b) s[i]^=in[i]`, with `in` advanced by `ip` bytes. -/
def xorIn (s inp : List Nat) (ip b : Nat) : List Nat × List Access :=
  forLoopT b (fun i s =>
    (s.set i (s.getD i 0 ^^^ inp.getD i 0), [Access.state i, Access.input (ip + i)])) s

/-- The absorb loop; `inp` is the rest of the message and `ip` the number of bytes before it. -/
def absorb (R : Nat) :
    Nat → List Nat → List Nat → Nat → Nat → Option ((List Nat × Nat) × List Access)
  | 0, s, inp, _, b => if inp.length > 0 then none else some ((s, b), [])
  | fuel + 1, s, inp, ip, b =>
    if inp.length > 0 then
      let b := if inp.length < R then inp.length else R
      let x := xorIn s inp ip b
      if b = R then
        let f := KeccakF1600 x.1
        match absorb R fuel f.1 (inp.drop b) (ip + b) 0 with
        | none => none
        | some (r, log) => some (r, x.2 ++ f.2 ++ log)
      else
        match absorb R fuel x.1 (inp.drop b) (ip + b) b with
        | none => none
        | some (r, log) => some (r, x.2 ++ log)
    else some ((s, b), [])

/-- The pad step. -/
def pad (R sfx : Nat) (s : List Nat) (b : Nat) : List Nat × List Access :=
  let s1 := s.set b (s.getD b 0 ^^^ sfx)
  let f := if sfx &&& 0x80 ≠ 0 ∧ b = decU32 R then KeccakF1600 s1 else (s1, [])
  let s2 := f.1.set (decU32 R) (f.1.getD (decU32 R) 0 ^^^ 0x80)
  let g := KeccakF1600 s2
  (g.1, [Access.state b] ++ f.2 ++ [Access.state (decU32 R)] ++ g.2)

/-- The squeeze loop; `op` is the number of bytes written before. -/
def squeeze (R : Nat) :
    Nat → List Nat → Nat → Nat → List Nat → Option (List Nat × List Access)
  | 0, _, outLen, _, out => if outLen > 0 then none else some (out, [])
  | fuel + 1, s, outLen, op, out =>
    if outLen > 0 then
      let b := if outLen < R then outLen else R
      let c := forLoopT b (fun i out =>
        (out ++ [s.getD i 0], [Access.state i, Access.output (op + i)])) out
      if outLen - b > 0 then
        let f := KeccakF1600 s
        match squeeze R fuel f.1 (outLen - b) (op + b) c.1 with
        | none => none
        | some (r, log) => some (r, c.2 ++ f.2 ++ log)
      else
        match squeeze R fuel s (outLen - b) (op + b) c.1 with
        | none => none
        | some (r, log) => some (r, c.2 ++ log)
    else some (out, [])

def Keccak (r _c : Nat) (inp : List Nat) (sfx : Nat) (outLen : Nat) :
    Option (List Nat × List Access) :=
  let R := r / 8
  let z := forLoopT 200 (fun i s => (s.set i 0, [Access.state i])) (List.replicate 200 0)
  match absorb R inp.length z.1 inp 0 0 with
  | none => none
  | some ((s, b), l1) =>
    let p := pad R sfx s b
    match squeeze R outLen p.1 outLen 0 [] with
    | none => none
    | some (out, l2) => some (out, z.2 ++ l1 ++ p.2 ++ l2)

def FIPS202_SHAKE128 (inp : List Nat) (outLen : Nat) : Option (List Nat × List Access) :=
  Keccak 1344 256 inp 0x1F outLen

def FIPS202_SHAKE256 (inp : List Nat) (outLen : Nat) : Option (List Nat × List Access) :=
  Keccak 1088 512 inp 0x1F outLen

def FIPS202_SHA3_224 (inp : List Nat) : Option (List Nat × List Access) :=
  Keccak 1152 448 inp 0x06 28

def FIPS202_SHA3_256 (inp : List Nat) : Option (List Nat × List Access) :=
  Keccak 1088 512 inp 0x06 32

def FIPS202_SHA3_384 (inp : List Nat) : Option (List Nat × List Access) :=
  Keccak 832 768 inp 0x06 48

def FIPS202_SHA3_512 (inp : List Nat) : Option (List Nat × List Access) :=
  Keccak 576 1024 inp 0x06 64

end Traced

end Sha3

/-!
# ChaCha20 (`_coin/reference_tests/chacha/ChaCha20.h`)

Conventions of the embedding
* `uint32_t` values are natural numbers, reduced `% 2 ^ 32` after every addition and left
  shift; `uint8_t` buffers are `List Nat`.
* `uint32_t state[16]` and `uint32_t keystream[16]` are lists of 16 words.  The byte pointer
  `(uint8_t*)ctx->keystream` reads the words in little-endian byte order (the byte order of
  the RISC-V target): byte `k` is byte `k % 4` of word `k / 4`.
* `assert` failing is the result `none`.
-/

namespace ChaCha20

open Sha3 (forLoop)

/-- The context `ChaCha20_Ctx`. -/
structure ChaCha20_Ctx where
  /-- The field `uint32_t state[4*4]`. -/
  state : List Nat
  /-- The field `uint32_t keystream[4*4]`. -/
  keystream : List Nat
  /-- The field `uint32_t idx`. -/
  idx : Nat
  deriving DecidableEq

/-- `#define CHACHA20_CONSTANT "expand 32-byte k"`, as bytes. -/
def CHACHA20_CONSTANT : List Nat := "expand 32-byte k".toList.map Char.toNat

/-- `#define CHACHA20_ROTL(x, n) (((x) << (n)) | ((x) >> (32 - (n))))` on `uint32_t`. -/
def CHACHA20_ROTL (x n : Nat) : Nat := ((x <<< n) % 2 ^ 32) ||| (x >>> (32 - n))

/-- The macro `CHACHA20_QR(out[a], out[b], out[c], out[d])`: its twelve assignments. -/
def CHACHA20_QR (out : List Nat) (a b c d : Nat) : List Nat :=
  let out := out.set a ((out.getD a 0 + out.getD b 0) % 2 ^ 32)
  let out := out.set d (out.getD d 0 ^^^ out.getD a 0)
  let out := out.set d (CHACHA20_ROTL (out.getD d 0) 16)
  let out := out.set c ((out.getD c 0 + out.getD d 0) % 2 ^ 32)
  let out := out.set b (out.getD b 0 ^^^ out.getD c 0)
  let out := out.set b (CHACHA20_ROTL (out.getD b 0) 12)
  let out := out.set a ((out.getD a 0 + out.getD b 0) % 2 ^ 32)
  let out := out.set d (out.getD d 0 ^^^ out.getD a 0)
  let out := out.set d (CHACHA20_ROTL (out.getD d 0) 8)
  let out := out.set c ((out.getD c 0 + out.getD d 0) % 2 ^ 32)
  let out := out.set b (out.getD b 0 ^^^ out.getD c 0)
  out.set b (CHACHA20_ROTL (out.getD b 0) 7)

/-- `static uint32_t pack4(const uint8_t* a)`, called with the pointer `a + off`. -/
def pack4 (a : List Nat) (off : Nat) : Nat :=
  ((a.getD off 0 <<< (0 * 8)) % 2 ^ 32)
    ||| ((a.getD (off + 1) 0 <<< (1 * 8)) % 2 ^ 32)
    ||| ((a.getD (off + 2) 0 <<< (2 * 8)) % 2 ^ 32)
    ||| ((a.getD (off + 3) 0 <<< (3 * 8)) % 2 ^ 32)

/-- `ChaCha20_block_next(in, out, &keystream)`: the 16 words of `out` after the call.  The
first loop stores to all 16 words of `out`, so the words `out` held before do not matter and
the model starts from 16 zero words. -/
def ChaCha20_block_next (inp : List Nat) : List Nat :=
  let out := forLoop 16 (fun i out => out.set i (inp.getD i 0)) (List.replicate 16 0)
  -- Round 1/10
  let out := CHACHA20_QR out 0 4 8 12
  let out := CHACHA20_QR out 1 5 9 13
  let out := CHACHA20_QR out 2 6 10 14
  let out := CHACHA20_QR out 3 7 11 15
  let out := CHACHA20_QR out 0 5 10 15
  let out := CHACHA20_QR out 1 6 11 12
  let out := CHACHA20_QR out 2 7 8 13
  let out := CHACHA20_QR out 3 4 9 14
  -- Round 2/10
  let out := CHACHA20_QR out 0 4 8 12
  let out := CHACHA20_QR out 1 5 9 13
  let out := CHACHA20_QR out 2 6 10 14
  let out := CHACHA20_QR out 3 7 11 15
  let out := CHACHA20_QR out 0 5 10 15
  let out := CHACHA20_QR out 1 6 11 12
  let out := CHACHA20_QR out 2 7 8 13
  let out := CHACHA20_QR out 3 4 9 14
  -- Round 3/10
  let out := CHACHA20_QR out 0 4 8 12
  let out := CHACHA20_QR out 1 5 9 13
  let out := CHACHA20_QR out 2 6 10 14
  let out := CHACHA20_QR out 3 7 11 15
  let out := CHACHA20_QR out 0 5 10 15
  let out := CHACHA20_QR out 1 6 11 12
  let out := CHACHA20_QR out 2 7 8 13
  let out := CHACHA20_QR out 3 4 9 14
  -- Round 4/10
  let out := CHACHA20_QR out 0 4 8 12
  let out := CHACHA20_QR out 1 5 9 13
  let out := CHACHA20_QR out 2 6 10 14
  let out := CHACHA20_QR out 3 7 11 15
  let out := CHACHA20_QR out 0 5 10 15
  let out := CHACHA20_QR out 1 6 11 12
  let out := CHACHA20_QR out 2 7 8 13
  let out := CHACHA20_QR out 3 4 9 14
  -- Round 5/10
  let out := CHACHA20_QR out 0 4 8 12
  let out := CHACHA20_QR out 1 5 9 13
  let out := CHACHA20_QR out 2 6 10 14
  let out := CHACHA20_QR out 3 7 11 15
  let out := CHACHA20_QR out 0 5 10 15
  let out := CHACHA20_QR out 1 6 11 12
  let out := CHACHA20_QR out 2 7 8 13
  let out := CHACHA20_QR out 3 4 9 14
  -- Round 6/10
  let out := CHACHA20_QR out 0 4 8 12
  let out := CHACHA20_QR out 1 5 9 13
  let out := CHACHA20_QR out 2 6 10 14
  let out := CHACHA20_QR out 3 7 11 15
  let out := CHACHA20_QR out 0 5 10 15
  let out := CHACHA20_QR out 1 6 11 12
  let out := CHACHA20_QR out 2 7 8 13
  let out := CHACHA20_QR out 3 4 9 14
  -- Round 7/10
  let out := CHACHA20_QR out 0 4 8 12
  let out := CHACHA20_QR out 1 5 9 13
  let out := CHACHA20_QR out 2 6 10 14
  let out := CHACHA20_QR out 3 7 11 15
  let out := CHACHA20_QR out 0 5 10 15
  let out := CHACHA20_QR out 1 6 11 12
  let out := CHACHA20_QR out 2 7 8 13
  let out := CHACHA20_QR out 3 4 9 14
  -- Round 8/10
  let out := CHACHA20_QR out 0 4 8 12
  let out := CHACHA20_QR out 1 5 9 13
  let out := CHACHA20_QR out 2 6 10 14
  let out := CHACHA20_QR out 3 7 11 15
  let out := CHACHA20_QR out 0 5 10 15
  let out := CHACHA20_QR out 1 6 11 12
  let out := CHACHA20_QR out 2 7 8 13
  let out := CHACHA20_QR out 3 4 9 14
  -- Round 9/10
  let out := CHACHA20_QR out 0 4 8 12
  let out := CHACHA20_QR out 1 5 9 13
  let out := CHACHA20_QR out 2 6 10 14
  let out := CHACHA20_QR out 3 7 11 15
  let out := CHACHA20_QR out 0 5 10 15
  let out := CHACHA20_QR out 1 6 11 12
  let out := CHACHA20_QR out 2 7 8 13
  let out := CHACHA20_QR out 3 4 9 14
  -- Round 10/10
  let out := CHACHA20_QR out 0 4 8 12
  let out := CHACHA20_QR out 1 5 9 13
  let out := CHACHA20_QR out 2 6 10 14
  let out := CHACHA20_QR out 3 7 11 15
  let out := CHACHA20_QR out 0 5 10 15
  let out := CHACHA20_QR out 1 6 11 12
  let out := CHACHA20_QR out 2 7 8 13
  let out := CHACHA20_QR out 3 4 9 14
  forLoop 16 (fun i out => out.set i ((out.getD i 0 + inp.getD i 0) % 2 ^ 32)) out

/-- `ChaCha20_init(ctx, key, nonce, count)`: the context after the call.  The 16 words of
`state` are all assigned; `keystream` keeps what `ctx` held before. -/
def ChaCha20_init (ctx : ChaCha20_Ctx) (key nonce : List Nat) (count : Nat) : ChaCha20_Ctx :=
  { state :=
      [pack4 CHACHA20_CONSTANT (0 * 4), pack4 CHACHA20_CONSTANT (1 * 4),
       pack4 CHACHA20_CONSTANT (2 * 4), pack4 CHACHA20_CONSTANT (3 * 4),
       pack4 key (0 * 4), pack4 key (1 * 4), pack4 key (2 * 4), pack4 key (3 * 4),
       pack4 key (4 * 4), pack4 key (5 * 4), pack4 key (6 * 4), pack4 key (7 * 4),
       count,
       pack4 nonce (0 * 4), pack4 nonce (1 * 4), pack4 nonce (2 * 4)]
    keystream := ctx.keystream
    idx := 0 }

/-- Byte `k` of `(uint8_t*)ctx->keystream`. -/
def keystreamByte (keystream : List Nat) (k : Nat) : Nat :=
  (keystream.getD (k / 4) 0 >>> (8 * (k % 4))) % 256

/-- The little-endian 32-bit word of the bytes `a[4 * i]`, ..., `a[4 * i + 3]`. -/
def leWord (a : List Nat) (i : Nat) : Nat :=
  a.getD (4 * i) 0 + 256 * a.getD (4 * i + 1) 0 + 65536 * a.getD (4 * i + 2) 0
    + 16777216 * a.getD (4 * i + 3) 0

/-- The little-endian serialisation of a list of 32-bit words: four bytes per word, the least
significant byte first. -/
def leBytes : List Nat → List Nat
  | [] => []
  | w :: ws => w % 256 :: w / 256 % 256 :: w / 65536 % 256 :: w / 16777216 % 256 :: leBytes ws

/-- The statement `if(ctx->idx % 64 == 0) { ... }` of the loop of `ChaCha20_xor`; `none` is a
failed `assert(ctx->state[13] != 0)`. -/
def nextBlock (ctx : ChaCha20_Ctx) : Option ChaCha20_Ctx :=
  if ctx.idx % 64 = 0 then
    let keystream := ChaCha20_block_next ctx.state
    let state := ctx.state.set 12 ((ctx.state.getD 12 0 + 1) % 2 ^ 32)
    if state.getD 12 0 = 0 then
      let state := state.set 13 ((state.getD 13 0 + 1) % 2 ^ 32)
      if state.getD 13 0 ≠ 0 then some { state := state, keystream := keystream, idx := 0 }
      else none
    else some { state := state, keystream := keystream, idx := 0 }
  else some ctx

/-- The body of the loop of `ChaCha20_xor` for the index `i`. -/
def xorByte (i : Nat) (p : ChaCha20_Ctx × List Nat) : Option (ChaCha20_Ctx × List Nat) :=
  match nextBlock p.1 with
  | none => none
  | some ctx =>
    some ({ ctx with idx := (ctx.idx + 1) % 2 ^ 32 },
      p.2.set i (p.2.getD i 0 ^^^ keystreamByte ctx.keystream ctx.idx))

/-- The iterations `0, ..., n - 1` of `for(size_t i = 0; i < bufflen; i++)`. -/
def xorLoop : Nat → ChaCha20_Ctx × List Nat → Option (ChaCha20_Ctx × List Nat)
  | 0, p => some p
  | n + 1, p =>
    match xorLoop n p with
    | none => none
    | some q => xorByte n q

/-- `ChaCha20_xor(ctx, buffer, bufflen)` with `bufflen = buffer.length`: the context and the
buffer after the call. -/
def ChaCha20_xor (ctx : ChaCha20_Ctx) (buffer : List Nat) : Option (ChaCha20_Ctx × List Nat) :=
  xorLoop buffer.length (ctx, buffer)

end ChaCha20

/-!
# Fibonacci (`_coin/reference_tests/fibonacci/fibonacci.c`)

The global `cache` is passed in and returned.  C leaves the order of the two recursive calls
in `fib_memo(n - 1) + fib_memo(n - 2)` to the compiler; the argument `leftFirst` selects it.
Besides the value and the cache, `fib_memo` returns whether one of its `unsigned int`
additions exceeded `2 ^ 32 - 1`.
-/

namespace Fibonacci

open Sha3 (forLoop)

/-- `#define MAX_FIB_N 47`. -/
def MAX_FIB_N : Nat := 47

/-- The type `FibonacciTestVector`. -/
structure FibonacciTestVector where
  /-- The field `n`. -/
  n : Nat
  /-- The field `expected_result`. -/
  expected_result : Nat
  deriving DecidableEq

/-- The table `test_vectors`. -/
def test_vectors : List FibonacciTestVector :=
  [⟨1, 1⟩, ⟨2, 1⟩, ⟨5, 5⟩, ⟨10, 55⟩, ⟨20, 6765⟩, ⟨30, 832040⟩, ⟨40, 102334155⟩,
   ⟨45, 1134903170⟩, ⟨46, 1836311903⟩, ⟨47, 2971215073⟩]

/-- The result of a call: the returned value, the cache after the call, and whether an addition
wrapped around. -/
structure Result where
  /-- The returned `unsigned int`. -/
  value : Nat
  /-- The global `cache` after the call. -/
  cache : List Nat
  /-- Some addition had a sum of `2 ^ 32` or more. -/
  wrapped : Bool

/-- `unsigned int fib_memo(unsigned int n)`. -/
def fib_memo (leftFirst : Bool) : Nat → List Nat → Result
  | 0, cache => ⟨1, cache, false⟩
  | 1, cache => ⟨1, cache, false⟩
  | 2, cache => ⟨1, cache, false⟩
  | n + 3, cache =>
    if cache.getD (n + 3) 0 ≠ 0 then ⟨cache.getD (n + 3) 0, cache, false⟩
    else
      let first := if leftFirst then fib_memo leftFirst (n + 2) cache
        else fib_memo leftFirst (n + 1) cache
      let second := if leftFirst then fib_memo leftFirst (n + 1) first.cache
        else fib_memo leftFirst (n + 2) first.cache
      let result := (first.value + second.value) % 2 ^ 32
      ⟨result, second.cache.set (n + 3) result,
        first.wrapped || second.wrapped || decide (2 ^ 32 ≤ first.value + second.value)⟩

/-- `unsigned int fib(unsigned int n)`. -/
def fib (leftFirst : Bool) (n : Nat) (cache : List Nat) : Result :=
  if n = 0 then ⟨0, cache, false⟩
  else if n > MAX_FIB_N then ⟨0, cache, false⟩
  else
    let cache := forLoop (MAX_FIB_N + 1) (fun i cache => cache.set i 0) cache
    let cache := cache.set 1 1
    let cache := cache.set 2 1
    fib_memo leftFirst n cache

/-- The invariant of the cache: every entry that `fib_memo` can read is 0 (empty) or the
Fibonacci number of its index. -/
def CacheOk (cache : List Nat) : Prop :=
  ∀ k, 3 ≤ k → k ≤ 47 → cache.getD k 0 = 0 ∨ cache.getD k 0 = Nat.fib k

/-- The harness `main` of `fibonacci.c`, with the word read from `INPUT_ADDRESS` as
`test_index`: the returned status. -/
def main (leftFirst : Bool) (test_index : Nat) (cache : List Nat) : Nat :=
  if test_index ≥ test_vectors.length then 42
  else
    let selected_test := test_vectors.getD test_index ⟨0, 0⟩
    let result := (fib leftFirst selected_test.n cache).value
    if result = selected_test.expected_result then 0 else 1

end Fibonacci

namespace Sha3

/-! ## Reference descriptions of the round steps -/

namespace Spec

/-- Left rotation of a 64-bit word by `o` bits: `(a << o) | (a >> (64 - o))`, truncated to 64
bits. -/
def rotl64 (a o : Nat) : Nat := ((a <<< o) ||| (a >>> (64 - o))) % 2 ^ 64

/-- The column parity `C[x] = A[x,0] ^ A[x,1] ^ A[x,2] ^ A[x,3] ^ A[x,4]` of a state. -/
def columnParity (s : List Nat) (x : Nat) : Nat :=
  rL s x 0 ^^^ rL s x 1 ^^^ rL s x 2 ^^^ rL s x 3 ^^^ rL s x 4

/-- The walk of rho/pi: `(x_0, y_0) = (1, 0)` and
`(x_{t+1}, y_{t+1}) = (y_t, (2 * x_t + 3 * y_t) mod 5)`. -/
def walk : Nat → Nat × Nat
  | 0 => (1, 0)
  | t + 1 =>
    match walk t with
    | (x, y) => (y, (2 * x + 3 * y) % 5)

/-- The 24 round constants of iota, for the rounds `0, ..., 23`. -/
def RC : List Nat :=
  [0x1, 0x8082, 0x800000000000808a, 0x8000000080008000, 0x808b, 0x80000001,
   0x8000000080008081, 0x8000000000008009, 0x8a, 0x88, 0x80008009, 0x8000000a,
   0x8000808b, 0x800000000000008b, 0x8000000000008089, 0x8000000000008003,
   0x8000000000008002, 0x8000000000000080, 0x800a, 0x800000008000000a,
   0x8000000080008081, 0x8000000000008080, 0x80000001, 0x8000000080008008]

end Spec

/-- The loop of `iota` run on a single lane that starts as 0: the value XORed into lane `(0,0)`
by one round whose LFSR register starts as `R`, and the register after the round. -/
def iotaConst (R : Nat) : Nat × Nat :=
  forLoop 7 (fun j (p : Nat × Nat) =>
    let q := LFSR86540 p.2
    (if q.2 ≠ 0 then p.1 ^^^ (1 <<< ((1 <<< j) - 1)) else p.1, q.1)) (0, R)

/-! ## The test harness `main` of `sha3.c`

The header `test_vectors.h` is not part of the sources: the type `SHA3TestVector` with its
fields, the table `sha3_256_test_vectors` and the constant `num_sha3_256_test_vectors` are
arguments of `main`. -/

/-- `memcmp(a, b, n)` as far as `main` uses it: `0` if the first `n` bytes agree, else
nonzero. -/
def memcmp (a b : List Nat) (n : Nat) : Nat :=
  if (List.range n).all (fun i => a.getD i 0 == b.getD i 0) then 0 else 1

/-- The harness `main` of `sha3.c`, with the word read from `INPUT_ADDRESS` as `test_index`:
the returned status.  The argument `message` gives the `message_len` bytes at the field
`message` of a test vector and `expected_hash` the bytes at its field `expected_hash`.  `none`
stands for a run without a defined result (a read past the end of the table, or a hash that
does not return). -/
def main {SHA3TestVector : Type} (message expected_hash : SHA3TestVector → List Nat)
    (sha3_256_test_vectors : List SHA3TestVector) (num_sha3_256_test_vectors : Nat)
    (test_index : Nat) : Option Nat :=
  if test_index ≥ num_sha3_256_test_vectors then some 42
  else
    match sha3_256_test_vectors.get? test_index with
    | none => none
    | some selected_test =>
      match sha3_256_easy_hash (message selected_test) with
      | none => none
      | some actual_hash =>
        if 0 = memcmp actual_hash (expected_hash selected_test) 32 then some 0 else some 1

namespace Spec

/-- The bitwise complement of a 64-bit word: every one of the 64 bits flipped. -/
def compl64 (a : Nat) : Nat := a ^^^ 0xFFFFFFFFFFFFFFFF

/-- The 200-byte string that is `v` at index `k` and 0 elsewhere. -/
def unitAt (k v : Nat) : List Nat := (List.replicate 200 0).set k v

/-- The state after the full `R`-byte blocks of `M` have been absorbed (XORed in and permuted)
and the rest of `M`, shorter than a block, has been XORed in. -/
def absorbed (R : Nat) (M : List Nat) : List Nat :=
  xorBlock (absorbBlocks (List.replicate 200 0) (blocks R M)) (M.drop (R * (M.length / R)))

end Spec

/-! ## Shift counts

In C a shift of a 64-bit value by 64 or more is undefined.  The functions of namespace
`Checked` are the rotation and the steps of `KeccakF1600` that rotate, with the result `none`
as soon as one of the two shifts of `ROL` has a count that is not below 64. -/

namespace Checked

/-- The macro `ROL(a,o)`: `((u64)a) << o` needs `o < 64` and `((u64)a) >> (64-o)` needs
`64 - o < 64`. -/
def ROL (a o : Nat) : Option Nat :=
  if o < 64 ∧ 64 - o < 64 then some (Sha3.ROL a o) else none

/-- `FOR(i,n) body` with a body that can fail. -/
def forLoopM {σ : Type} : Nat → (Nat → σ → Option σ) → σ → Option σ
  | 0, _, st => some st
  | n + 1, body, st =>
    match forLoopM n body st with
    | none => none
    | some st1 => body n st1

/-- The theta step of one round (line 56). -/
def theta (s : List Nat) : Option (List Nat) :=
  let C := (List.range 5).map fun x =>
    rL s x 0 ^^^ rL s x 1 ^^^ rL s x 2 ^^^ rL s x 3 ^^^ rL s x 4
  forLoopM 5 (fun x s =>
    match ROL (C.getD ((x + 1) % 5) 0) 1 with
    | none => none
    | some rot =>
      let D := C.getD ((x + 4) % 5) 0 ^^^ rot
      some (forLoop 5 (fun y s => XL s x y D) s)) s

/-- One iteration `j` of the rho/pi loop. -/
def rhoPiStep (j : Nat) (st : RhoPi) : Option RhoPi :=
  let r := st.r + (j + 1)
  let Y := (2 * st.x + 3 * st.y) % 5
  let x := st.y
  let y := Y
  let C0 := rL st.s x y
  match ROL st.D (r % 64) with
  | none => none
  | some rot => some { s := wL st.s x y rot, x := x, y := y, r := r, D := C0 }

/-- The rho and pi steps of one round (line 57). -/
def rhoPi (s : List Nat) : Option (List Nat) :=
  (forLoopM 24 rhoPiStep { s := s, x := 1, y := 0, r := 0, D := rL s 1 0 }).map fun st => st.s

/-- One round of the permutation. -/
def round (p : List Nat × Nat) : Option (List Nat × Nat) :=
  (theta p.1).bind fun a => (rhoPi a).map fun b => iota (chi b, p.2)

/-- `void KeccakF1600(void *s)`. -/
def KeccakF1600 (s : List Nat) : Option (List Nat) :=
  (forLoopM 24 (fun _ p => round p) (s, 0x01)).map fun p => p.1

end Checked

end Sha3

namespace ChaCha20

/-- The arrays `in` and `out` after the call `ChaCha20_block_next(in, out, &keystream)`: no
statement of the function assigns to a word of `in`, and `out` holds the 16 words of
`ChaCha20_block_next`. -/
def ChaCha20_block_next_arrays (inp _out : List Nat) : List Nat × List Nat :=
  (inp, ChaCha20_block_next inp)

/-- The values that `CHACHA20_QR(a, b, c, d)` leaves in `a`, `b`, `c`, `d`. -/
def qrMacro (a b c d : Nat) : Nat × Nat × Nat × Nat :=
  let a := (a + b) % 2 ^ 32
  let d := CHACHA20_ROTL (d ^^^ a) 16
  let c := (c + d) % 2 ^ 32
  let b := CHACHA20_ROTL (b ^^^ c) 12
  let a := (a + b) % 2 ^ 32
  let d := CHACHA20_ROTL (d ^^^ a) 8
  let c := (c + d) % 2 ^ 32
  let b := CHACHA20_ROTL (b ^^^ c) 7
  (a, b, c, d)

/-- A sequence of calls `ChaCha20_xor(ctx, B, len)` on the same context, one for each buffer of
the list: the context after the last call. -/
def xorMany : ChaCha20_Ctx → List (List Nat) → Option ChaCha20_Ctx
  | ctx, [] => some ctx
  | ctx, B :: Bs =>
    match ChaCha20_xor ctx B with
    | none => none
    | some q => xorMany q.1 Bs

/-- The list `o` has the length of `s`, holds `a`, `b`, `c`, `d` at the indices `i`, `j`, `k`,
`l` and agrees with `s` at every other index. -/
def View (i j k l : Nat) (o s : List Nat) (a b c d : Nat) : Prop :=
  o.length = s.length ∧ o.getD i 0 = a ∧ o.getD j 0 = b ∧ o.getD k 0 = c ∧ o.getD l 0 = d ∧
    ∀ m, m ≠ i → m ≠ j → m ≠ k → m ≠ l → o.getD m 0 = s.getD m 0

/-- The indices `i`, `j`, `k`, `l` are four different words of a 16-word state. -/
def Line (i j k l : Nat) : Prop :=
  i < 16 ∧ j < 16 ∧ k < 16 ∧ l < 16 ∧ i ≠ j ∧ i ≠ k ∧ i ≠ l ∧ j ≠ k ∧ j ≠ l ∧ k ≠ l

/-! ## The loop form of the block function -/

namespace Spec

/-- Left rotation of a 32-bit word by `n` bits. -/
def rotl32 (x n : Nat) : Nat := ((x <<< n) ||| (x >>> (32 - n))) % 2 ^ 32

/-- The quarter round on four 32-bit words:
`a += b; d ^= a; d <<<= 16; c += d; b ^= c; b <<<= 12; a += b; d ^= a; d <<<= 8; c += d;
b ^= c; b <<<= 7`. -/
def QR (a b c d : Nat) : Nat × Nat × Nat × Nat :=
  let a := (a + b) % 2 ^ 32
  let d := rotl32 (d ^^^ a) 16
  let c := (c + d) % 2 ^ 32
  let b := rotl32 (b ^^^ c) 12
  let a := (a + b) % 2 ^ 32
  let d := rotl32 (d ^^^ a) 8
  let c := (c + d) % 2 ^ 32
  let b := rotl32 (b ^^^ c) 7
  (a, b, c, d)

/-- The quarter round applied to the words `i`, `j`, `k`, `l` of a state. -/
def quarter (s : List Nat) (i j k l : Nat) : List Nat :=
  let q := QR (s.getD i 0) (s.getD j 0) (s.getD k 0) (s.getD l 0)
  (((s.set i q.1).set j q.2.1).set k q.2.2.1).set l q.2.2.2

/-- The columns and then the diagonals of the 4 x 4 state. -/
def lines : List (Nat × Nat × Nat × Nat) :=
  [(0, 4, 8, 12), (1, 5, 9, 13), (2, 6, 10, 14), (3, 7, 11, 15),
   (0, 5, 10, 15), (1, 6, 11, 12), (2, 7, 8, 13), (3, 4, 9, 14)]

/-- The double round `DR`: the quarter round on the four columns, then on the four
diagonals. -/
def DR (s : List Nat) : List Nat :=
  lines.foldl (fun s t => quarter s t.1 t.2.1 t.2.2.1 t.2.2.2) s

/-- The block function in loop form: `out = in + DR^10(in)`, word by word modulo `2 ^ 32`. -/
def block (inp : List Nat) : List Nat :=
  (List.range 16).map fun i => ((Nat.iterate DR 10 inp).getD i 0 + inp.getD i 0) % 2 ^ 32

end Spec

end ChaCha20

namespace Sha3

/-! ## Lemmas on bytes and lanes -/

theorem getD_set {α : Type} (l : List α) (i j : Nat) (a d : α) :
    (l.set i a).getD j d = if i = j ∧ i < l.length then a else l.getD j d := by
  simp only [List.getD_eq_getElem?_getD, List.getElem?_set]
  by_cases h : i = j
  · subst h
    by_cases h2 : i < l.length
    · simp [h2]
    · simp [h2, List.getElem?_eq_none (Nat.le_of_not_lt h2)]
  · simp [h]

theorem xor_cat (a b A B : Nat) (ha : a < 256) (hb : b < 256) :
    (a + 256 * A) ^^^ (b + 256 * B) = (a ^^^ b) + 256 * (A ^^^ B) := by
  have hab : a ^^^ b < 2 ^ 8 := Nat.xor_lt_two_pow (n := 8) ha hb
  apply Nat.eq_of_testBit_eq
  intro i
  have e1 : a + 256 * A = 2 ^ 8 * A + a := by omega
  have e2 : b + 256 * B = 2 ^ 8 * B + b := by omega
  have e3 : (a ^^^ b) + 256 * (A ^^^ B) = 2 ^ 8 * (A ^^^ B) + (a ^^^ b) := by omega
  rw [e1, e2, e3, Nat.testBit_xor, Nat.testBit_mul_pow_two_add _ ha,
    Nat.testBit_mul_pow_two_add _ hb, Nat.testBit_mul_pow_two_add _ hab]
  by_cases h : i < 8 <;> simp [h, Nat.testBit_xor]

theorem or_step (u b : Nat) (hb : b < 256) :
    ((u <<< 8) % 2 ^ 64) ||| b = 256 * (u % 2 ^ 56) + b := by
  have e : (u <<< 8) % 2 ^ 64 = 2 ^ 8 * (u % 2 ^ 56) := by
    rw [Nat.shiftLeft_eq]; omega
  rw [e, ← Nat.mul_add_lt_is_or (i := 8) hb]

/-- The little-endian value of eight bytes. -/
theorem load64_eq (s : List Nat) (off : Nat) (hb : ∀ j, s.getD j 0 < 256) :
    load64 s off = s.getD off 0 + 256 * (s.getD (off + 1) 0 + 256 * (s.getD (off + 2) 0
      + 256 * (s.getD (off + 3) 0 + 256 * (s.getD (off + 4) 0 + 256 * (s.getD (off + 5) 0
      + 256 * (s.getD (off + 6) 0 + 256 * s.getD (off + 7) 0)))))) := by
  have h0 := hb off
  have h1 := hb (off + 1)
  have h2 := hb (off + 2)
  have h3 := hb (off + 3)
  have h4 := hb (off + 4)
  have h5 := hb (off + 5)
  have h6 := hb (off + 6)
  have h7 := hb (off + 7)
  simp only [load64, forLoop, Nat.sub_zero, Nat.sub_self, Nat.add_zero,
    show 7 - 1 = 6 by rfl, show 7 - 2 = 5 by rfl, show 7 - 3 = 4 by rfl, show 7 - 4 = 3 by rfl,
    show 7 - 5 = 2 by rfl, show 7 - 6 = 1 by rfl]
  rw [or_step _ _ h7, or_step _ _ h6, or_step _ _ h5, or_step _ _ h4, or_step _ _ h3,
    or_step _ _ h2, or_step _ _ h1, or_step _ _ h0]
  omega

theorem xor64_loop (s : List Nat) (off u n : Nat) :
    (forLoop n (fun i (p : List Nat × Nat) =>
        (p.1.set (off + i) (p.1.getD (off + i) 0 ^^^ (p.2 % 256)), p.2 >>> 8)) (s, u)).2
        = u >>> (8 * n) ∧
    (forLoop n (fun i (p : List Nat × Nat) =>
        (p.1.set (off + i) (p.1.getD (off + i) 0 ^^^ (p.2 % 256)), p.2 >>> 8)) (s, u)).1.length
        = s.length ∧
    ∀ j, (forLoop n (fun i (p : List Nat × Nat) =>
        (p.1.set (off + i) (p.1.getD (off + i) 0 ^^^ (p.2 % 256)), p.2 >>> 8)) (s, u)).1.getD j 0
        = if off ≤ j ∧ j < off + n ∧ j < s.length
          then s.getD j 0 ^^^ ((u >>> (8 * (j - off))) % 256) else s.getD j 0 := by
  induction n with
  | zero =>
    refine ⟨by simp [forLoop], by simp [forLoop], fun j => ?_⟩
    have e : ¬ (off ≤ j ∧ j < off + 0 ∧ j < s.length) := by omega
    simp only [forLoop, if_neg e]
  | succ n ih =>
    obtain ⟨ih2, ihl, ihg⟩ := ih
    refine ⟨?_, ?_, ?_⟩
    · simp only [forLoop, ih2, Nat.shiftRight_add, Nat.mul_add, Nat.mul_one]
    · simp only [forLoop, List.length_set, ihl]
    · intro j
      simp only [forLoop, getD_set, ihl, ih2, ihg]
      by_cases h1 : off + n = j
      · subst h1
        by_cases h2 : off + n < s.length
        · simp [h2]
        · simp [h2]
      · have e : (off ≤ j ∧ j < off + (n + 1) ∧ j < s.length)
            ↔ (off ≤ j ∧ j < off + n ∧ j < s.length) := by
          constructor
          · rintro ⟨a, b, c⟩; exact ⟨a, by omega, c⟩
          · rintro ⟨a, b, c⟩; exact ⟨a, by omega, c⟩
        simp [h1, e]

theorem xor64_length (s : List Nat) (off u : Nat) : (xor64 s off u).length = s.length :=
  (xor64_loop s off u 8).2.1

theorem xor64_getD (s : List Nat) (off u j : Nat) :
    (xor64 s off u).getD j 0 = if off ≤ j ∧ j < off + 8 ∧ j < s.length
      then s.getD j 0 ^^^ ((u >>> (8 * (j - off))) % 256) else s.getD j 0 :=
  (xor64_loop s off u 8).2.2 j

theorem store64_loop (s : List Nat) (off u n : Nat) :
    (forLoop n (fun i (p : List Nat × Nat) =>
        (p.1.set (off + i) (p.2 % 256), p.2 >>> 8)) (s, u)).2 = u >>> (8 * n) ∧
    (forLoop n (fun i (p : List Nat × Nat) =>
        (p.1.set (off + i) (p.2 % 256), p.2 >>> 8)) (s, u)).1.length = s.length ∧
    ∀ j, (forLoop n (fun i (p : List Nat × Nat) =>
        (p.1.set (off + i) (p.2 % 256), p.2 >>> 8)) (s, u)).1.getD j 0
        = if off ≤ j ∧ j < off + n ∧ j < s.length
          then (u >>> (8 * (j - off))) % 256 else s.getD j 0 := by
  induction n with
  | zero =>
    refine ⟨by simp [forLoop], by simp [forLoop], fun j => ?_⟩
    have e : ¬ (off ≤ j ∧ j < off + 0 ∧ j < s.length) := by omega
    simp only [forLoop, if_neg e]
  | succ n ih =>
    obtain ⟨ih2, ihl, ihg⟩ := ih
    refine ⟨?_, ?_, ?_⟩
    · simp only [forLoop, ih2, Nat.shiftRight_add, Nat.mul_add, Nat.mul_one]
    · simp only [forLoop, List.length_set, ihl]
    · intro j
      simp only [forLoop, getD_set, ihl, ih2, ihg]
      by_cases h1 : off + n = j
      · subst h1
        by_cases h2 : off + n < s.length
        · simp [h2]
        · simp [h2]
      · have e : (off ≤ j ∧ j < off + (n + 1) ∧ j < s.length)
            ↔ (off ≤ j ∧ j < off + n ∧ j < s.length) := by
          constructor
          · rintro ⟨a, b, c⟩; exact ⟨a, by omega, c⟩
          · rintro ⟨a, b, c⟩; exact ⟨a, by omega, c⟩
        simp [h1, e]

theorem store64_length (s : List Nat) (off u : Nat) : (store64 s off u).length = s.length :=
  (store64_loop s off u 8).2.1

theorem store64_getD (s : List Nat) (off u j : Nat) :
    (store64 s off u).getD j 0 = if off ≤ j ∧ j < off + 8 ∧ j < s.length
      then (u >>> (8 * (j - off))) % 256 else s.getD j 0 :=
  (store64_loop s off u 8).2.2 j

theorem valid_xor64 (s : List Nat) (off u : Nat) (h : ValidState s) :
    ValidState (xor64 s off u) := by
  refine ⟨by rw [xor64_length]; exact h.1, fun j => ?_⟩
  rw [xor64_getD]
  split
  · exact Nat.xor_lt_two_pow (n := 8) (h.2 j) (Nat.mod_lt _ (by decide))
  · exact h.2 j

theorem valid_store64 (s : List Nat) (off u : Nat) (h : ValidState s) :
    ValidState (store64 s off u) := by
  refine ⟨by rw [store64_length]; exact h.1, fun j => ?_⟩
  rw [store64_getD]
  split
  · exact Nat.mod_lt _ (by decide)
  · exact h.2 j

theorem toLanes_length (s : List Nat) : (toLanes s).length = 25 := by
  simp [toLanes]

theorem toLanes_getD (s : List Nat) (i : Nat) (h : i < 25) :
    (toLanes s).getD i 0 = load64 s (8 * i) := by
  simp [toLanes, List.getD_eq_getElem?_getD, List.getElem?_map, List.getElem?_range h]

theorem rL_toLanes (s : List Nat) (x y : Nat) (h : x + 5 * y < 25) :
    Lanes.rL (toLanes s) x y = rL s x y := by
  rw [Lanes.rL, toLanes_getD s _ h, rL]

theorem u64_bytes (u : Nat) :
    u % 2 ^ 64 = (u >>> (8 * 0)) % 256 + 256 * ((u >>> (8 * 1)) % 256
      + 256 * ((u >>> (8 * 2)) % 256 + 256 * ((u >>> (8 * 3)) % 256
      + 256 * ((u >>> (8 * 4)) % 256 + 256 * ((u >>> (8 * 5)) % 256
      + 256 * ((u >>> (8 * 6)) % 256 + 256 * ((u >>> (8 * 7)) % 256))))))) := by
  simp only [Nat.shiftRight_eq_div_pow]
  norm_num
  omega

theorem load64_xor64_same (s : List Nat) (off u : Nat) (h : ∀ j, s.getD j 0 < 256)
    (hl : off + 8 ≤ s.length) :
    load64 (xor64 s off u) off = load64 s off ^^^ (u % 2 ^ 64) := by
  have hv : ∀ j, (xor64 s off u).getD j 0 < 256 := by
    intro j
    rw [xor64_getD]
    split
    · exact Nat.xor_lt_two_pow (n := 8) (h j) (Nat.mod_lt _ (by decide))
    · exact h j
  have hg : ∀ m, m < 8 → (xor64 s off u).getD (off + m) 0
      = s.getD (off + m) 0 ^^^ ((u >>> (8 * m)) % 256) := by
    intro m hm
    rw [xor64_getD, if_pos (by omega), Nat.add_sub_cancel_left]
  have hm : ∀ m, (u >>> (8 * m)) % 256 < 256 := fun m => Nat.mod_lt _ (by decide)
  rw [load64_eq _ _ hv, load64_eq _ _ h, u64_bytes u]
  have g0 := hg 0 (by decide)
  rw [Nat.add_zero] at g0
  rw [g0, hg 1 (by decide), hg 2 (by decide), hg 3 (by decide), hg 4 (by decide),
    hg 5 (by decide), hg 6 (by decide), hg 7 (by decide)]
  rw [xor_cat _ _ _ _ (h _) (hm _), xor_cat _ _ _ _ (h _) (hm _), xor_cat _ _ _ _ (h _) (hm _),
    xor_cat _ _ _ _ (h _) (hm _), xor_cat _ _ _ _ (h _) (hm _), xor_cat _ _ _ _ (h _) (hm _),
    xor_cat _ _ _ _ (h _) (hm _)]

theorem load64_xor64_disj (s : List Nat) (off off' u : Nat)
    (hd : off' + 8 ≤ off ∨ off + 8 ≤ off') :
    load64 (xor64 s off u) off' = load64 s off' := by
  have hg : ∀ m, m < 8 → (xor64 s off u).getD (off' + m) 0 = s.getD (off' + m) 0 := by
    intro m hm
    rw [xor64_getD, if_neg (by omega)]
  have g0 := hg 0 (by decide)
  rw [Nat.add_zero] at g0
  simp only [load64, forLoop, Nat.sub_zero, Nat.sub_self, Nat.add_zero,
    show 7 - 1 = 6 by rfl, show 7 - 2 = 5 by rfl, show 7 - 3 = 4 by rfl, show 7 - 4 = 3 by rfl,
    show 7 - 5 = 2 by rfl, show 7 - 6 = 1 by rfl]
  rw [g0, hg 1 (by decide), hg 2 (by decide), hg 3 (by decide), hg 4 (by decide),
    hg 5 (by decide), hg 6 (by decide), hg 7 (by decide)]

theorem load64_store64_same (s : List Nat) (off u : Nat) (h : ∀ j, s.getD j 0 < 256)
    (hl : off + 8 ≤ s.length) :
    load64 (store64 s off u) off = u % 2 ^ 64 := by
  have hv : ∀ j, (store64 s off u).getD j 0 < 256 := by
    intro j
    rw [store64_getD]
    split
    · exact Nat.mod_lt _ (by decide)
    · exact h j
  have hg : ∀ m, m < 8 → (store64 s off u).getD (off + m) 0 = (u >>> (8 * m)) % 256 := by
    intro m hm
    rw [store64_getD, if_pos (by omega), Nat.add_sub_cancel_left]
  rw [load64_eq _ _ hv, u64_bytes u]
  have g0 := hg 0 (by decide)
  rw [Nat.add_zero] at g0
  rw [g0, hg 1 (by decide), hg 2 (by decide), hg 3 (by decide), hg 4 (by decide),
    hg 5 (by decide), hg 6 (by decide), hg 7 (by decide)]

theorem load64_store64_disj (s : List Nat) (off off' u : Nat)
    (hd : off' + 8 ≤ off ∨ off + 8 ≤ off') :
    load64 (store64 s off u) off' = load64 s off' := by
  have hg : ∀ m, m < 8 → (store64 s off u).getD (off' + m) 0 = s.getD (off' + m) 0 := by
    intro m hm
    rw [store64_getD, if_neg (by omega)]
  have g0 := hg 0 (by decide)
  rw [Nat.add_zero] at g0
  simp only [load64, forLoop, Nat.sub_zero, Nat.sub_self, Nat.add_zero,
    show 7 - 1 = 6 by rfl, show 7 - 2 = 5 by rfl, show 7 - 3 = 4 by rfl, show 7 - 4 = 3 by rfl,
    show 7 - 5 = 2 by rfl, show 7 - 6 = 1 by rfl]
  rw [g0, hg 1 (by decide), hg 2 (by decide), hg 3 (by decide), hg 4 (by decide),
    hg 5 (by decide), hg 6 (by decide), hg 7 (by decide)]

theorem ext_getD (A B : List Nat) (hl : A.length = B.length)
    (h : ∀ i, i < A.length → A.getD i 0 = B.getD i 0) : A = B := by
  apply List.ext_getElem hl
  intro i h1 h2
  have := h i h1
  simpa [List.getD_eq_getElem?_getD, List.getElem?_eq_getElem h1, List.getElem?_eq_getElem h2]
    using this

theorem valid_XL (s : List Nat) (x y l : Nat) (h : ValidState s) : ValidState (XL s x y l) :=
  valid_xor64 s _ l h

theorem valid_wL (s : List Nat) (x y l : Nat) (h : ValidState s) : ValidState (wL s x y l) :=
  valid_store64 s _ l h

theorem toLanes_XL (s : List Nat) (x y l : Nat) (h : ValidState s) (hk : x + 5 * y < 25) :
    toLanes (XL s x y l) = Lanes.XL (toLanes s) x y l := by
  apply ext_getD
  · simp [Lanes.XL, toLanes_length]
  · intro i hi
    rw [toLanes_length] at hi
    rw [Lanes.XL, getD_set, toLanes_length, toLanes_getD _ _ hi, toLanes_getD _ _ hk, XL]
    by_cases e : x + 5 * y = i
    · subst e
      rw [if_pos ⟨rfl, hk⟩]
      exact load64_xor64_same s _ l h.2 (by rw [h.1]; omega)
    · rw [if_neg (fun c => e c.1), toLanes_getD _ _ hi]
      exact load64_xor64_disj s _ _ l (by omega)

theorem toLanes_wL (s : List Nat) (x y l : Nat) (h : ValidState s) (hk : x + 5 * y < 25) :
    toLanes (wL s x y l) = Lanes.wL (toLanes s) x y l := by
  apply ext_getD
  · simp [Lanes.wL, toLanes_length]
  · intro i hi
    rw [toLanes_length] at hi
    rw [Lanes.wL, getD_set, toLanes_length, toLanes_getD _ _ hi, wL]
    by_cases e : x + 5 * y = i
    · subst e
      rw [if_pos ⟨rfl, hk⟩]
      exact load64_store64_same s _ l h.2 (by rw [h.1]; omega)
    · rw [if_neg (fun c => e c.1), toLanes_getD _ _ hi]
      exact load64_store64_disj s _ _ l (by omega)

theorem le64_byte (b0 b1 b2 b3 b4 b5 b6 b7 r : Nat) (h0 : b0 < 256) (h1 : b1 < 256)
    (h2 : b2 < 256) (h3 : b3 < 256) (h4 : b4 < 256) (h5 : b5 < 256) (h6 : b6 < 256)
    (h7 : b7 < 256) (hr : r < 8) :
    ((b0 + 256 * (b1 + 256 * (b2 + 256 * (b3 + 256 * (b4 + 256 * (b5 + 256 * (b6 + 256 * b7)))))))
      >>> (8 * r)) % 256 = [b0, b1, b2, b3, b4, b5, b6, b7].getD r 0 := by
  rw [Nat.shiftRight_eq_div_pow]
  interval_cases r <;> simp only [Nat.reducePow, Nat.reduceMul, List.getD_cons_zero,
    List.getD_cons_succ] <;> omega

theorem ofLanes_toLanes (s : List Nat) (h : ValidState s) : ofLanes (toLanes s) = s := by
  apply ext_getD
  · simp [ofLanes, h.1]
  · intro j hj
    have hj' : j < 200 := by simpa [ofLanes] using hj
    have hq : j / 8 < 25 := by omega
    have e1 : (ofLanes (toLanes s)).getD j 0
        = ((toLanes s).getD (j / 8) 0 >>> (8 * (j % 8))) % 256 := by
      simp [ofLanes, List.getD_eq_getElem?_getD, List.getElem?_map, List.getElem?_range hj']
    have hm : j % 8 < 8 := Nat.mod_lt _ (by decide)
    rw [e1, toLanes_getD _ _ hq, load64_eq _ _ h.2,
      le64_byte _ _ _ _ _ _ _ _ _ (h.2 _) (h.2 _) (h.2 _) (h.2 _) (h.2 _) (h.2 _) (h.2 _)
        (h.2 _) hm]
    have hj8 : j = 8 * (j / 8) + j % 8 := by omega
    generalize j % 8 = r at hm hj8 ⊢
    generalize j / 8 = q at hj8 ⊢
    subst hj8
    interval_cases r <;> rfl

theorem forLoop_sim {σ τ : Type} (abs : σ → τ) (inv : σ → Prop) (f : Nat → σ → σ)
    (g : Nat → τ → τ) (n : Nat)
    (h : ∀ i, i < n → ∀ st, inv st → inv (f i st) ∧ abs (f i st) = g i (abs st))
    (st : σ) (h0 : inv st) :
    inv (forLoop n f st) ∧ abs (forLoop n f st) = forLoop n g (abs st) := by
  induction n with
  | zero => exact ⟨h0, rfl⟩
  | succ n ih =>
    have ih' := ih (fun i hi => h i (Nat.lt_succ_of_lt hi))
    have hs := h n (Nat.lt_succ_self n) _ ih'.1
    exact ⟨hs.1, by simp only [forLoop]; rw [hs.2, ih'.2]⟩

theorem theta_sim (s : List Nat) (h : ValidState s) :
    ValidState (theta s) ∧ toLanes (theta s) = Lanes.theta (toLanes s) := by
  have hC : ((List.range 5).map fun x =>
        Lanes.rL (toLanes s) x 0 ^^^ Lanes.rL (toLanes s) x 1 ^^^ Lanes.rL (toLanes s) x 2
          ^^^ Lanes.rL (toLanes s) x 3 ^^^ Lanes.rL (toLanes s) x 4)
      = (List.range 5).map fun x =>
        rL s x 0 ^^^ rL s x 1 ^^^ rL s x 2 ^^^ rL s x 3 ^^^ rL s x 4 := by
    apply List.map_congr_left
    intro x hx
    have hx5 : x < 5 := List.mem_range.mp hx
    rw [rL_toLanes _ _ _ (by omega), rL_toLanes _ _ _ (by omega), rL_toLanes _ _ _ (by omega),
      rL_toLanes _ _ _ (by omega), rL_toLanes _ _ _ (by omega)]
  unfold theta Lanes.theta
  simp only [hC]
  apply forLoop_sim toLanes ValidState
  · intro x hx st hst
    apply forLoop_sim toLanes ValidState
    · intro y hy st' hst'
      exact ⟨valid_XL _ _ _ _ hst', toLanes_XL _ _ _ _ hst' (by omega)⟩
    · exact hst
  · exact h

theorem chi_sim (s : List Nat) (h : ValidState s) :
    ValidState (chi s) ∧ toLanes (chi s) = Lanes.chi (toLanes s) := by
  unfold chi Lanes.chi
  apply forLoop_sim toLanes ValidState
  · intro y hy st hst
    have hC : ((List.range 5).map fun x => Lanes.rL (toLanes st) x y)
        = (List.range 5).map fun x => rL st x y := by
      apply List.map_congr_left
      intro x hx
      have hx5 : x < 5 := List.mem_range.mp hx
      rw [rL_toLanes _ _ _ (by omega)]
    simp only [hC]
    apply forLoop_sim toLanes ValidState
    · intro x hx st' hst'
      exact ⟨valid_wL _ _ _ _ hst', toLanes_wL _ _ _ _ hst' (by omega)⟩
    · exact hst
  · exact h

theorem rhoPi_sim (s : List Nat) (h : ValidState s) :
    ValidState (rhoPi s) ∧ toLanes (rhoPi s) = Lanes.rhoPi (toLanes s) := by
  have key := forLoop_sim (fun st : RhoPi => ({ st with s := toLanes st.s } : RhoPi))
    (fun st => ValidState st.s ∧ st.x < 5 ∧ st.y < 5) rhoPiStep Lanes.rhoPiStep 24
    (by
      intro j _ st hst
      obtain ⟨hv, hx, hy⟩ := hst
      have hY : (2 * st.x + 3 * st.y) % 5 < 5 := Nat.mod_lt _ (by decide)
      refine ⟨⟨valid_wL _ _ _ _ hv, hy, hY⟩, ?_⟩
      simp only [rhoPiStep, Lanes.rhoPiStep]
      rw [toLanes_wL _ _ _ _ hv (by omega), rL_toLanes _ _ _ (by omega)])
    { s := s, x := 1, y := 0, r := 0, D := rL s 1 0 } ⟨h, Nat.lt_of_sub_eq_succ rfl, Nat.lt_of_sub_eq_succ rfl⟩
  refine ⟨key.1.1, ?_⟩
  have e := congrArg RhoPi.s key.2
  simp only at e
  unfold rhoPi Lanes.rhoPi
  rw [e, rL_toLanes _ _ _ (by decide)]

theorem iota_sim (s : List Nat) (R : Nat) (h : ValidState s) :
    ValidState (iota (s, R)).1 ∧
      ((toLanes (iota (s, R)).1, (iota (s, R)).2) = Lanes.iota (toLanes s, R)) :=
  forLoop_sim (fun q : List Nat × Nat => (toLanes q.1, q.2))
    (fun q => ValidState q.1)
    (fun j (p : List Nat × Nat) =>
      ((if (LFSR86540 p.2).2 ≠ 0 then XL p.1 0 0 (1 <<< ((1 <<< j) - 1)) else p.1),
        (LFSR86540 p.2).1))
    (fun j (p : List Nat × Nat) =>
      ((if (LFSR86540 p.2).2 ≠ 0 then Lanes.XL p.1 0 0 (1 <<< ((1 <<< j) - 1)) else p.1),
        (LFSR86540 p.2).1)) 7
    (by
      intro j _ st hst
      by_cases c : (LFSR86540 st.2).2 ≠ 0
      · simp only [if_pos c]
        exact ⟨valid_XL _ _ _ _ hst, by rw [toLanes_XL _ _ _ _ hst (by decide)]⟩
      · simp only [if_neg c]
        exact ⟨hst, trivial⟩)
    (s, R) h

theorem round_sim (p : List Nat × Nat) (h : ValidState p.1) :
    ValidState (round p).1 ∧ ((toLanes (round p).1, (round p).2)
      = Lanes.round (toLanes p.1, p.2)) := by
  have h1 := theta_sim p.1 h
  have h2 := rhoPi_sim _ h1.1
  have h3 := chi_sim _ h2.1
  have h4 := iota_sim _ p.2 h3.1
  refine ⟨h4.1, ?_⟩
  unfold round Lanes.round
  rw [h4.2]
  simp only [h3.2, h2.2, h1.2]

theorem KeccakF1600_sim (s : List Nat) (h : ValidState s) :
    ValidState (KeccakF1600 s) ∧ toLanes (KeccakF1600 s) = Lanes.KeccakF1600 (toLanes s) := by
  have key := forLoop_sim (fun q : List Nat × Nat => (toLanes q.1, q.2))
    (fun q => ValidState q.1) (fun _ p => round p) (fun _ p => Lanes.round p) 24
    (fun _ _ st hst => round_sim st hst) (s, 0x01) h
  exact ⟨key.1, congrArg Prod.fst key.2⟩

/-- The permutation, computed on the lanes of the state. -/
theorem KeccakF1600_eq_lanes (s : List Nat) (h : ValidState s) :
    KeccakF1600 s = ofLanes (Lanes.KeccakF1600 (toLanes s)) := by
  have k := KeccakF1600_sim s h
  rw [← k.2, ofLanes_toLanes _ k.1]

theorem forceNat_eq {α : Type} (n : Nat) (k : Nat → α) : Eval.forceNat n k = k n := by
  cases n <;> rfl

theorem forceList_eq {α : Type} (l : List Nat) (k : List Nat → α) : Eval.forceList l k = k l := by
  induction l generalizing k with
  | nil => rfl
  | cons x xs ih => simp only [Eval.forceList, forceNat_eq, ih]

theorem length25 (A : List Nat) (h : A.length = 25) :
    ∃ a0 a1 a2 a3 a4 a5 a6 a7 a8 a9 a10 a11 a12 a13 a14 a15 a16 a17 a18 a19 a20 a21 a22 a23 a24,
      A = [a0, a1, a2, a3, a4, a5, a6, a7, a8, a9, a10, a11, a12, a13, a14, a15, a16, a17, a18, a19, a20, a21, a22, a23, a24] := by
  match A, h with
  | [a0, a1, a2, a3, a4, a5, a6, a7, a8, a9, a10, a11, a12, a13, a14, a15, a16, a17, a18, a19, a20, a21, a22, a23, a24], _ => exact ⟨a0, a1, a2, a3, a4, a5, a6, a7, a8, a9, a10, a11, a12, a13, a14, a15, a16, a17, a18, a19, a20, a21, a22, a23, a24, rfl⟩

theorem range5 : List.range 5 = [0, 1, 2, 3, 4] := by decide

theorem theta_eval (A : List Nat) (h : A.length = 25) : Lanes.theta A = Eval.theta A := by
  obtain ⟨a0, a1, a2, a3, a4, a5, a6, a7, a8, a9, a10, a11, a12, a13, a14, a15, a16, a17, a18, a19, a20, a21, a22, a23, a24, rfl⟩ := length25 A h
  simp only [Lanes.theta, Eval.theta, Lanes.XL, Lanes.rL, forLoop, range5, List.map,
    List.getD_cons_zero, List.getD_cons_succ, List.set_cons_zero, List.set_cons_succ,
    Nat.reduceAdd, Nat.reduceMul, Nat.reduceMod]

theorem rhoPiStep_mk (j : Nat) (s : List Nat) (x y r D : Nat) :
    Lanes.rhoPiStep j { s := s, x := x, y := y, r := r, D := D }
      = { s := s.set (y + 5 * ((2 * x + 3 * y) % 5)) (ROL D ((r + (j + 1)) % 64) % 2 ^ 64),
          x := y, y := (2 * x + 3 * y) % 5, r := r + (j + 1),
          D := s.getD (y + 5 * ((2 * x + 3 * y) % 5)) 0 } := by
  simp only [Lanes.rhoPiStep, Lanes.wL, Lanes.rL]

theorem rhoPi_eval (A : List Nat) (h : A.length = 25) : Lanes.rhoPi A = Eval.rhoPi A := by
  obtain ⟨a0, a1, a2, a3, a4, a5, a6, a7, a8, a9, a10, a11, a12, a13, a14, a15, a16, a17, a18, a19, a20, a21, a22, a23, a24, rfl⟩ := length25 A h
  simp only [Lanes.rhoPi, Eval.rhoPi, forLoop, Lanes.rL, rhoPiStep_mk,
    List.getD_cons_zero, List.getD_cons_succ, List.set_cons_zero, List.set_cons_succ,
    Nat.reduceAdd, Nat.reduceMul, Nat.reduceMod]

theorem chi_eval (A : List Nat) (h : A.length = 25) : Lanes.chi A = Eval.chi A := by
  obtain ⟨a0, a1, a2, a3, a4, a5, a6, a7, a8, a9, a10, a11, a12, a13, a14, a15, a16, a17, a18, a19, a20, a21, a22, a23, a24, rfl⟩ := length25 A h
  simp only [Lanes.chi, Eval.chi, Lanes.wL, Lanes.rL, forLoop, range5, List.map,
    List.getD_cons_zero, List.getD_cons_succ, List.set_cons_zero, List.set_cons_succ,
    Nat.reduceAdd, Nat.reduceMul, Nat.reduceMod]

theorem theta_length (A : List Nat) (h : A.length = 25) : (Eval.theta A).length = 25 := by
  obtain ⟨a0, a1, a2, a3, a4, a5, a6, a7, a8, a9, a10, a11, a12, a13, a14, a15, a16, a17, a18, a19, a20, a21, a22, a23, a24, rfl⟩ := length25 A h
  rfl

theorem rhoPi_length (A : List Nat) (h : A.length = 25) : (Eval.rhoPi A).length = 25 := by
  obtain ⟨a0, a1, a2, a3, a4, a5, a6, a7, a8, a9, a10, a11, a12, a13, a14, a15, a16, a17, a18, a19, a20, a21, a22, a23, a24, rfl⟩ := length25 A h
  rfl

theorem chi_length (A : List Nat) (h : A.length = 25) : (Eval.chi A).length = 25 := by
  obtain ⟨a0, a1, a2, a3, a4, a5, a6, a7, a8, a9, a10, a11, a12, a13, a14, a15, a16, a17, a18, a19, a20, a21, a22, a23, a24, rfl⟩ := length25 A h
  rfl

theorem iota_length (n : Nat) (p : List Nat × Nat) :
    (forLoop n (fun j (p : List Nat × Nat) =>
      ((if (LFSR86540 p.2).2 ≠ 0 then Lanes.XL p.1 0 0 (1 <<< ((1 <<< j) - 1)) else p.1),
        (LFSR86540 p.2).1)) p).1.length = p.1.length := by
  induction n with
  | zero => rfl
  | succ n ih =>
    simp only [forLoop]
    split
    · rw [Lanes.XL, List.length_set, ih]
    · exact ih

theorem round_eval (p : List Nat × Nat) (h : p.1.length = 25) :
    Lanes.round p = Eval.round p ∧ (Eval.round p).1.length = 25 := by
  have e : Eval.round p = Lanes.iota (Eval.chi (Eval.rhoPi (Eval.theta p.1)), p.2) := by
    simp only [Eval.round, forceList_eq, forceNat_eq]
  have h1 := theta_length _ h
  have h2 := rhoPi_length _ h1
  have h3 := chi_length _ h2
  constructor
  · rw [e, Lanes.round, theta_eval _ h, rhoPi_eval _ h1, chi_eval _ h2]
  · rw [e]
    exact (iota_length 7 _).trans h3

theorem rounds_eval (n : Nat) (p : List Nat × Nat) (h : p.1.length = 25) :
    forLoop n (fun _ p => Lanes.round p) p = Eval.rounds n p := by
  have e : ∀ n p, Eval.rounds (n + 1) p = Eval.rounds n (Eval.round p) := by
    intro n p
    simp only [Eval.rounds, forceList_eq, forceNat_eq]
  have comm : ∀ n (p : List Nat × Nat), p.1.length = 25 →
      Eval.rounds n (Eval.round p) = Eval.round (Eval.rounds n p) ∧
        (Eval.rounds n p).1.length = 25 := by
    intro n
    induction n with
    | zero => intro p hp; exact ⟨rfl, hp⟩
    | succ n ih =>
      intro p hp
      have hr := (round_eval p hp).2
      rw [e, e]
      exact ⟨(ih _ hr).1, (ih _ hr).2⟩
  induction n with
  | zero => rfl
  | succ n ih =>
    have c := comm n p h
    rw [e, c.1, ← (round_eval _ c.2).1, ← ih]
    rfl

theorem KeccakF1600_eval (A : List Nat) (h : A.length = 25) :
    Lanes.KeccakF1600 A = Eval.KeccakF1600 A := by
  rw [Lanes.KeccakF1600, Eval.KeccakF1600, rounds_eval 24 (A, 0x01) h]

/-- The permutation of a state, computed by the evaluator. -/
theorem KeccakF1600_eq_eval (s : List Nat) (h : ValidState s) :
    KeccakF1600 s = ofLanes (Eval.KeccakF1600 (toLanes s)) := by
  rw [KeccakF1600_eq_lanes s h, KeccakF1600_eval _ (toLanes_length s)]

theorem forLoop_preserve {σ : Type} (P : σ → Prop) (f : Nat → σ → σ) (n : Nat)
    (h : ∀ i st, P st → P (f i st)) (st : σ) (h0 : P st) : P (forLoop n f st) := by
  induction n with
  | zero => exact h0
  | succ n ih => exact h _ _ ih

theorem XL_length (s : List Nat) (x y l : Nat) : (XL s x y l).length = s.length :=
  xor64_length s _ l

theorem wL_length (s : List Nat) (x y l : Nat) : (wL s x y l).length = s.length :=
  store64_length s _ l

theorem theta_length' (s : List Nat) : (theta s).length = s.length := by
  unfold theta
  dsimp only
  apply forLoop_preserve (fun st : List Nat => st.length = s.length)
  · intro x st hst
    apply forLoop_preserve (fun st : List Nat => st.length = s.length)
    · intro y st' hst'
      rw [XL_length]; exact hst'
    · exact hst
  · rfl

theorem rhoPi_length' (s : List Nat) : (rhoPi s).length = s.length := by
  unfold rhoPi
  apply forLoop_preserve (fun st : RhoPi => st.s.length = s.length)
  · intro j st hst
    simp only [rhoPiStep, wL_length]; exact hst
  · rfl

theorem chi_length' (s : List Nat) : (chi s).length = s.length := by
  unfold chi
  apply forLoop_preserve (fun st : List Nat => st.length = s.length)
  · intro y st hst
    apply forLoop_preserve (fun st : List Nat => st.length = s.length)
    · intro x st' hst'
      rw [wL_length]; exact hst'
    · exact hst
  · rfl

theorem iota_length' (s : List Nat) (R : Nat) : (iota (s, R)).1.length = s.length := by
  unfold iota
  apply forLoop_preserve (fun st : List Nat × Nat => st.1.length = s.length)
  · intro j st hst
    dsimp only
    split
    · rw [XL_length]; exact hst
    · exact hst
  · rfl

theorem round_length (p : List Nat × Nat) : (round p).1.length = p.1.length := by
  unfold round
  rw [iota_length', chi_length', rhoPi_length', theta_length']

theorem KeccakF1600_length (s : List Nat) : (KeccakF1600 s).length = s.length := by
  unfold KeccakF1600
  apply forLoop_preserve (fun st : List Nat × Nat => st.1.length = s.length)
  · intro j st hst
    rw [round_length]; exact hst
  · rfl

theorem getD_replicate_zero (n j : Nat) : (List.replicate n 0).getD j 0 = 0 := by
  simp only [List.getD_eq_getElem?_getD, List.getElem?_replicate]
  split <;> rfl

theorem getD_take (l : List Nat) (b j : Nat) :
    (l.take b).getD j 0 = if j < b then l.getD j 0 else 0 := by
  simp only [List.getD_eq_getElem?_getD, List.getElem?_take]
  split <;> rfl

theorem getD_of_le (l : List Nat) (j : Nat) (h : l.length ≤ j) : l.getD j 0 = 0 := by
  simp [List.getD_eq_getElem?_getD, List.getElem?_eq_none h]

theorem init_state :
    forLoop 200 (fun i (s : List Nat) => s.set i 0) (List.replicate 200 0)
      = List.replicate 200 0 := by
  apply forLoop_preserve (fun st : List Nat => st = List.replicate 200 0)
  · intro i st hst
    subst hst
    apply ext_getD
    · rw [List.length_set]
    · intro j _
      rw [getD_set, getD_replicate_zero]
      split <;> rfl
  · rfl

theorem xorIn_spec (s inp : List Nat) (b : Nat) :
    (xorIn s inp b).length = s.length ∧
    ∀ j, (xorIn s inp b).getD j 0
      = if j < b ∧ j < s.length then s.getD j 0 ^^^ inp.getD j 0 else s.getD j 0 := by
  induction b with
  | zero =>
    refine ⟨rfl, fun j => ?_⟩
    rw [if_neg (by omega)]
    rfl
  | succ b ih =>
    obtain ⟨ihl, ihg⟩ := ih
    refine ⟨?_, fun j => ?_⟩
    · simp only [xorIn, forLoop, List.length_set]
      exact ihl
    · have e : xorIn s inp (b + 1)
          = (xorIn s inp b).set b ((xorIn s inp b).getD b 0 ^^^ inp.getD b 0) := rfl
      rw [e, getD_set, ihl, ihg, ihg]
      by_cases h1 : b = j
      · subst h1
        by_cases h2 : b < s.length
        · rw [if_pos ⟨rfl, h2⟩, if_neg (by omega), if_pos ⟨by omega, h2⟩]
        · rw [if_neg (fun c => h2 c.2), if_neg (fun c => h2 c.2), if_neg (fun c => h2 c.2)]
      · rw [if_neg (fun c => h1 c.1)]
        by_cases h3 : j < b ∧ j < s.length
        · rw [if_pos h3, if_pos ⟨by omega, h3.2⟩]
        · rw [if_neg h3, if_neg (by omega)]

theorem xorBlock_length (S B : List Nat) : (Spec.xorBlock S B).length = S.length := by
  simp [Spec.xorBlock]

theorem xorBlock_getD (S B : List Nat) (j : Nat) (hj : j < S.length) :
    (Spec.xorBlock S B).getD j 0
      = if j < B.length then S.getD j 0 ^^^ B.getD j 0 else S.getD j 0 := by
  simp [Spec.xorBlock, List.getD_eq_getElem?_getD, List.getElem?_map, List.getElem?_range hj]

theorem xorIn_eq_xorBlock (s inp : List Nat) (b : Nat) (hb : b ≤ inp.length) :
    xorIn s inp b = Spec.xorBlock s (inp.take b) := by
  apply ext_getD
  · rw [(xorIn_spec s inp b).1, xorBlock_length]
  · intro j hj
    rw [(xorIn_spec s inp b).1] at hj
    rw [(xorIn_spec s inp b).2, xorBlock_getD _ _ _ hj, List.length_take, getD_take,
      Nat.min_eq_left hb]
    by_cases h : j < b
    · rw [if_pos ⟨h, hj⟩, if_pos h, if_pos h]
    · rw [if_neg (fun c => h c.1), if_neg h]

theorem copy_out (s : List Nat) (b : Nat) (hb : b ≤ s.length) (out : List Nat) :
    forLoop b (fun i out => out ++ [s.getD i 0]) out = out ++ s.take b := by
  induction b with
  | zero => simp [forLoop]
  | succ b ih =>
    have hlt : b < s.length := hb
    simp only [forLoop]
    rw [ih (Nat.le_of_lt hlt), List.append_assoc, List.take_succ]
    simp [List.getD_eq_getElem?_getD, List.getElem?_eq_getElem hlt]

theorem stream_length (R : Nat) (hR2 : R ≤ 200) (n : Nat) (S : List Nat) (hS : S.length = 200) :
    (Spec.stream R S n).length = R * n := by
  induction n generalizing S with
  | zero => rfl
  | succ n ih =>
    rw [Spec.stream, List.length_append, List.length_take, ih _ ((KeccakF1600_length S).trans hS),
      hS, Nat.min_eq_left hR2, Nat.mul_succ, Nat.add_comm]

theorem squeeze_zero (R fuel : Nat) (s out : List Nat) : squeeze R fuel s 0 out = some out := by
  cases fuel <;> simp [squeeze]

theorem squeeze_spec (R : Nat) (hR : 1 ≤ R) (hR2 : R ≤ 200) (fuel : Nat) :
    ∀ (s : List Nat) (outLen : Nat) (out : List Nat), outLen ≤ fuel → s.length = 200 →
      squeeze R fuel s outLen out
        = some (out ++ (Spec.stream R s (outLen / R + 1)).take outLen) := by
  induction fuel with
  | zero =>
    intro s outLen out hf _
    have h0 : outLen = 0 := Nat.le_zero.mp hf
    subst h0
    simp [squeeze]
  | succ fuel ih =>
    intro s outLen out hf hs
    by_cases h0 : outLen = 0
    · subst h0
      simp [squeeze]
    · have hpos : outLen > 0 := Nat.pos_of_ne_zero h0
      have hF : (KeccakF1600 s).length = 200 := (KeccakF1600_length s).trans hs
      by_cases hlt : outLen ≤ R
      · -- the last block
        have hb : (if outLen < R then outLen else R) = outLen := by
          split
          · rfl
          · omega
        have hdiv : Spec.stream R s (outLen / R + 1)
            = s.take R ++ Spec.stream R (KeccakF1600 s) (outLen / R) := rfl
        have htake : (Spec.stream R s (outLen / R + 1)).take outLen = s.take outLen := by
          rw [hdiv, List.take_append_of_le_length (by rw [List.length_take, hs]; omega),
            List.take_take, Nat.min_eq_left hlt]
        rw [htake]
        simp only [squeeze, if_pos hpos, hb, Nat.sub_self, Nat.lt_irrefl, if_false,
          gt_iff_lt]
        rw [squeeze_zero, copy_out _ _ (by omega)]
      · -- more blocks follow
        have hgt : R < outLen := Nat.lt_of_not_le hlt
        have hb : (if outLen < R then outLen else R) = R := by
          split
          · omega
          · rfl
        have hrem : outLen - R > 0 := by omega
        have hdivs : outLen / R = (outLen - R) / R + 1 := by
          have := Nat.sub_add_cancel (Nat.le_of_lt hgt)
          conv => lhs; rw [← this]
          exact Nat.add_div_right _ hR
        have hstream : (Spec.stream R s (outLen / R + 1)).take outLen
            = s.take R ++ (Spec.stream R (KeccakF1600 s) ((outLen - R) / R + 1)).take
                (outLen - R) := by
          rw [hdivs]
          show (s.take R ++ Spec.stream R (KeccakF1600 s) ((outLen - R) / R + 1)).take outLen = _
          have hl : (s.take R).length = R := by rw [List.length_take, hs]; omega
          rw [List.take_append_eq_append_take, hl, List.take_of_length_le (by omega)]
        rw [hstream]
        simp only [squeeze, if_pos hpos, hb, if_pos hrem, gt_iff_lt]
        rw [ih _ _ _ (by omega) hF, copy_out _ _ (by omega), List.append_assoc]

theorem and_128_of_lt (sfx : Nat) (h : sfx < 128) : sfx &&& 0x80 = 0 := by
  apply Nat.eq_of_testBit_eq
  intro i
  rw [Nat.testBit_and, Nat.zero_testBit]
  by_cases hi : i = 7
  · subst hi
    have : sfx.testBit 7 = false := Nat.testBit_lt_two_pow (by omega)
    rw [this]; rfl
  · have : Nat.testBit 0x80 i = false := by
      have e : (0x80 : Nat) = 2 ^ 7 := rfl
      rw [e, Nat.testBit_two_pow]
      simp; omega
    rw [this]; simp

theorem decU32_eq (R : Nat) (h1 : 1 ≤ R) (h2 : R ≤ 200) : decU32 R = R - 1 := by
  unfold decU32; omega

theorem div_mul_bound (R n : Nat) (hR : 1 ≤ R) : n + 1 ≤ R * (n / R + 1) := by
  have h1 := Nat.div_add_mod n R
  have h2 := Nat.mod_lt n (show R > 0 from hR)
  rw [Nat.mul_add, Nat.mul_one]
  omega

theorem raw_length (R : Nat) (M : List Nat) (sfx : Nat) (hR : 1 ≤ R) :
    (M ++ [sfx] ++ List.replicate (R * (M.length / R + 1) - (M.length + 1)) 0).length
      = R * (M.length / R + 1) := by
  have := div_mul_bound R M.length hR
  simp only [List.length_append, List.length_replicate, List.length_singleton]
  omega

theorem padded_length (R : Nat) (M : List Nat) (sfx : Nat) (hR : 1 ≤ R) :
    (Spec.padded R M sfx).length = R * (M.length / R + 1) := by
  unfold Spec.padded
  simp only [List.length_set]
  exact raw_length R M sfx hR

theorem padded_split (R : Nat) (M : List Nat) (sfx : Nat) (hR : 1 ≤ R) (hM : R ≤ M.length) :
    Spec.padded R M sfx = M.take R ++ Spec.padded R (M.drop R) sfx := by
  have hdiv : M.length / R = (M.length - R) / R + 1 := by
    have := Nat.sub_add_cancel hM
    conv => lhs; rw [← this]
    exact Nat.add_div_right _ hR
  have hcount : R * (M.length / R + 1) - (M.length + 1)
      = R * ((M.drop R).length / R + 1) - ((M.drop R).length + 1) := by
    rw [List.length_drop, hdiv]
    have : R * ((M.length - R) / R + 1 + 1) = R * ((M.length - R) / R + 1) + R := by
      rw [Nat.mul_add, Nat.mul_one]
    have hb := div_mul_bound R (M.length - R) hR
    omega
  have hraw0 : ∀ n, M ++ [sfx] ++ List.replicate n 0
      = M.take R ++ (M.drop R ++ [sfx] ++ List.replicate n 0) := by
    intro n
    conv => lhs; rw [← List.take_append_drop R M]
    simp only [List.append_assoc]
  have hraw : M ++ [sfx] ++ List.replicate (R * (M.length / R + 1) - (M.length + 1)) 0
      = M.take R ++ (M.drop R ++ [sfx]
          ++ List.replicate (R * ((M.drop R).length / R + 1) - ((M.drop R).length + 1)) 0) := by
    rw [hcount]
    exact hraw0 _
  have hl1 : (M.take R).length = R := by rw [List.length_take]; omega
  have hl2 := raw_length R (M.drop R) sfx hR
  have hpos : 0 < R * ((M.drop R).length / R + 1) := by
    have := div_mul_bound R (M.drop R).length hR
    omega
  unfold Spec.padded
  simp only []
  rw [hraw]
  generalize hX : M.drop R ++ [sfx]
      ++ List.replicate (R * ((M.drop R).length / R + 1) - ((M.drop R).length + 1)) 0 = X
  rw [hX] at hl2
  have hlen : (M.take R ++ X).length - 1 = (M.take R).length + (X.length - 1) := by
    rw [List.length_append]; omega
  rw [hlen, List.set_append_right _ _ (by omega), Nat.add_sub_cancel_left]
  congr 2
  rw [List.getD_eq_getElem?_getD, List.getD_eq_getElem?_getD,
    List.getElem?_append_right (by omega), Nat.add_sub_cancel_left]

theorem blocks_single (R : Nat) (B : List Nat) (hR : 1 ≤ R) (hB : B.length = R) :
    Spec.blocks R B = [B] := by
  unfold Spec.blocks
  rw [hB, Nat.div_self hR]
  simp [List.range_succ, ← hB]

theorem blocks_append (R : Nat) (A P : List Nat) (hR : 1 ≤ R) (hA : A.length = R) :
    Spec.blocks R (A ++ P) = A :: Spec.blocks R P := by
  unfold Spec.blocks
  have hl : (A ++ P).length / R = P.length / R + 1 := by
    rw [List.length_append, hA, Nat.add_comm]
    exact Nat.add_div_right _ hR
  rw [hl, List.range_succ_eq_map, List.map_cons, List.map_map]
  congr 1
  · simp [← hA]
  · apply List.map_congr_left
    intro i _
    simp only [Function.comp]
    congr 1
    rw [Nat.mul_succ, Nat.add_comm, ← List.drop_drop]
    congr 1
    rw [← hA, List.drop_left]

theorem raw_getD (M : List Nat) (sfx n j : Nat) :
    (M ++ [sfx] ++ List.replicate n 0).getD j 0
      = if j < M.length then M.getD j 0 else if j = M.length then sfx else 0 := by
  simp only [List.getD_eq_getElem?_getD, List.append_assoc]
  by_cases h1 : j < M.length
  · rw [if_pos h1, List.getElem?_append_left h1]
  · rw [if_neg h1, List.getElem?_append_right (Nat.le_of_not_lt h1)]
    by_cases h2 : j = M.length
    · subst h2
      simp
    · rw [if_neg h2]
      have h3 : j - M.length = (j - M.length - 1) + 1 := by omega
      rw [h3, List.singleton_append, List.getElem?_cons_succ, List.getElem?_replicate]
      split <;> rfl

theorem padded_getD_short (R : Nat) (M : List Nat) (sfx j : Nat) (hR : 1 ≤ R)
    (hM : M.length < R) :
    (Spec.padded R M sfx).getD j 0
      = if j = R - 1
        then (if j < M.length then M.getD j 0 else if j = M.length then sfx else 0) ^^^ 0x80
        else (if j < M.length then M.getD j 0 else if j = M.length then sfx else 0) := by
  have hl := raw_length R M sfx hR
  have hd : M.length / R = 0 := Nat.div_eq_of_lt hM
  unfold Spec.padded
  simp only []
  rw [getD_set, hl, hd, raw_getD, raw_getD]
  simp only [Nat.zero_add, Nat.mul_one]
  split_ifs <;> first | rfl | (exfalso; omega)

theorem final_block (R : Nat) (M s : List Nat) (sfx : Nat) (hR : 1 ≤ R) (hR2 : R ≤ 200)
    (hM : M.length < R) (hs : s.length = 200) :
    ((xorIn s M M.length).set M.length ((xorIn s M M.length).getD M.length 0 ^^^ sfx)).set
        (R - 1)
        (((xorIn s M M.length).set M.length
          ((xorIn s M M.length).getD M.length 0 ^^^ sfx)).getD (R - 1) 0 ^^^ 0x80)
      = Spec.xorBlock s (Spec.padded R M sfx) := by
  have hx := xorIn_spec s M M.length
  have hpl : (Spec.padded R M sfx).length = R := by
    rw [padded_length R M sfx hR, Nat.div_eq_of_lt hM]; omega
  apply ext_getD
  · simp only [List.length_set, hx.1, xorBlock_length]
  · intro j hj
    simp only [List.length_set, hx.1] at hj
    rw [xorBlock_getD _ _ _ hj, hpl, padded_getD_short R M sfx j hR hM]
    simp only [getD_set, List.length_set, hx.1, hx.2]
    split_ifs with h1 h2 h3 h4 h5 h6 h7 <;>
      first
        | rfl
        | (exfalso; omega)
        | (simp only [Nat.xor_zero, Nat.zero_xor, Nat.xor_assoc]; done)
        | (have e : j = M.length := by omega
           subst e; simp only [Nat.xor_zero, Nat.zero_xor, Nat.xor_assoc])
        | (have e : j = R - 1 := by omega
           subst e; simp only [Nat.xor_zero, Nat.zero_xor, Nat.xor_assoc])

theorem absorb_nil (R fuel : Nat) (s : List Nat) (b : Nat) :
    absorb R fuel s [] b = some (s, b) := by
  cases fuel <;> simp [absorb]

/-- A message shorter than a block is XORed into the state; `b` is its length. -/
theorem absorb_short (R fuel : Nat) (s M : List Nat) (hM : M.length < R)
    (hf : M.length ≤ fuel) :
    absorb R fuel s M 0 = some (xorIn s M M.length, M.length) := by
  by_cases h0 : M.length = 0
  · have hnil : M = [] := List.length_eq_zero.mp h0
    subst hnil
    rw [absorb_nil]
    rfl
  · have hpos : M.length > 0 := Nat.pos_of_ne_zero h0
    obtain ⟨fuel', rfl⟩ : ∃ f, fuel = f + 1 := ⟨fuel - 1, by omega⟩
    have hne : ¬ M.length = R := by omega
    simp only [absorb, if_pos hpos, if_pos hM, if_neg hne, List.drop_length, absorb_nil]

/-- A full block is XORed into the state, the state is permuted, and the loop continues. -/
theorem absorb_full (R fuel : Nat) (s M : List Nat) (hM : R ≤ M.length)
    (hpos : 0 < M.length) :
    absorb R (fuel + 1) s M 0 = absorb R fuel (KeccakF1600 (xorIn s M R)) (M.drop R) 0 := by
  have hlt : ¬ M.length < R := by omega
  simp only [absorb, gt_iff_lt, if_pos hpos, if_neg hlt, if_true]

theorem pad_eq (R sfx : Nat) (s : List Nat) (b : Nat) (hR : 1 ≤ R) (hR2 : R ≤ 200)
    (hs : sfx < 128) :
    pad R sfx s b = KeccakF1600 ((s.set b (s.getD b 0 ^^^ sfx)).set (R - 1)
      ((s.set b (s.getD b 0 ^^^ sfx)).getD (R - 1) 0 ^^^ 0x80)) := by
  unfold pad
  simp only [and_128_of_lt sfx hs, decU32_eq R hR hR2, ne_eq, not_true_eq_false, false_and,
    if_false]

theorem absorb_pad (R sfx : Nat) (hR : 1 ≤ R) (hR2 : R ≤ 200) (hs : sfx < 128) (k : Nat) :
    ∀ (M s : List Nat) (fuel : Nat), M.length / R = k → M.length ≤ fuel → s.length = 200 →
      ∃ s' b, absorb R fuel s M 0 = some (s', b) ∧ s'.length = 200 ∧
        pad R sfx s' b = Spec.absorbBlocks s (Spec.blocks R (Spec.padded R M sfx)) := by
  induction k with
  | zero =>
    intro M s fuel hk hf hsl
    have hM : M.length < R := by
      rcases Nat.lt_or_ge M.length R with h | h
      · exact h
      · have := Nat.div_pos h hR
        omega
    refine ⟨_, _, absorb_short R fuel s M hM hf, (xorIn_spec s M M.length).1.trans hsl, ?_⟩
    have hpl : (Spec.padded R M sfx).length = R := by
      rw [padded_length R M sfx hR, Nat.div_eq_of_lt hM]; omega
    rw [pad_eq R sfx _ _ hR hR2 hs, final_block R M s sfx hR hR2 hM hsl,
      blocks_single R _ hR hpl]
    unfold Spec.absorbBlocks
    rw [List.foldl_cons, List.foldl_nil]
  | succ k ih =>
    intro M s fuel hk hf hsl
    have hM : R ≤ M.length := by
      rcases Nat.lt_or_ge M.length R with h | h
      · rw [Nat.div_eq_of_lt h] at hk
        omega
      · exact h
    have hpos : 0 < M.length := by omega
    obtain ⟨fuel', rfl⟩ : ∃ f, fuel = f + 1 := ⟨fuel - 1, by omega⟩
    have hk' : (M.drop R).length / R = k := by
      rw [List.length_drop]
      have := Nat.sub_add_cancel hM
      have e : M.length / R = (M.length - R) / R + 1 := by
        conv => lhs; rw [← this]
        exact Nat.add_div_right _ hR
      omega
    have hf' : (M.drop R).length ≤ fuel' := by
      rw [List.length_drop]; omega
    have hF : (KeccakF1600 (xorIn s M R)).length = 200 := by
      rw [KeccakF1600_length, (xorIn_spec s M R).1]; exact hsl
    obtain ⟨s', b, h1, hl', h2⟩ := ih (M.drop R) (KeccakF1600 (xorIn s M R)) fuel' hk' hf' hF
    refine ⟨s', b, ?_, hl', ?_⟩
    · rw [absorb_full R fuel' s M hM hpos]; exact h1
    · rw [h2, padded_split R M sfx hR hM,
        blocks_append R _ _ hR (by rw [List.length_take]; omega), xorIn_eq_xorBlock s M R hM]
      unfold Spec.absorbBlocks
      rw [List.foldl_cons]

/-- The routine computes the reference sponge. -/
theorem Keccak_eq_sponge (r c : Nat) (M : List Nat) (sfx L : Nat) (hR : 1 ≤ r / 8)
    (hR2 : r / 8 ≤ 200) (hs : sfx < 128) :
    Keccak r c M sfx L = some (Spec.sponge (r / 8) M sfx L) := by
  obtain ⟨s', b, h1, hl', h2⟩ := absorb_pad (r / 8) sfx hR hR2 hs (M.length / (r / 8)) M
    (List.replicate 200 0) M.length rfl (Nat.le_refl _) (List.length_replicate _ _)
  have hl : (pad (r / 8) sfx s' b).length = 200 := by
    rw [pad_eq _ _ _ _ hR hR2 hs, KeccakF1600_length, List.length_set, List.length_set]
    exact hl'
  unfold Keccak
  simp only [init_state, h1]
  rw [squeeze_spec (r / 8) hR hR2 L _ L [] (Nat.le_refl _) hl, h2]
  unfold Spec.sponge
  rw [List.nil_append]

theorem valid_of_all (s : List Nat) (hl : s.length = 200) (hb : s.all (fun b => decide (b < 256)) = true) :
    ValidState s := by
  refine ⟨hl, fun j => ?_⟩
  rw [List.getD_eq_getElem?_getD]
  by_cases h : j < s.length
  · rw [List.getElem?_eq_getElem h]
    have := List.all_eq_true.mp hb _ (List.getElem_mem h)
    simpa using this
  · rw [List.getElem?_eq_none (Nat.le_of_not_lt h)]
    decide

/-- A message shorter than a block and at most one block of output: one permutation. -/
theorem sponge_short (R : Nat) (M : List Nat) (sfx L : Nat) (hR : 1 ≤ R) (hR2 : R ≤ 200)
    (hM : M.length < R) (hL : L ≤ R) :
    Spec.sponge R M sfx L
      = (KeccakF1600 (Spec.xorBlock (List.replicate 200 0) (Spec.padded R M sfx))).take L := by
  have hpl : (Spec.padded R M sfx).length = R := by
    rw [padded_length R M sfx hR, Nat.div_eq_of_lt hM]; omega
  unfold Spec.sponge
  rw [blocks_single R _ hR hpl]
  unfold Spec.absorbBlocks
  rw [List.foldl_cons, List.foldl_nil]
  generalize hS : KeccakF1600 (Spec.xorBlock (List.replicate 200 0) (Spec.padded R M sfx)) = S
  have hSl : S.length = 200 := by
    rw [← hS, KeccakF1600_length, xorBlock_length, List.length_replicate]
  have hdiv : Spec.stream R S (L / R + 1)
      = S.take R ++ Spec.stream R (KeccakF1600 S) (L / R) := rfl
  rw [hdiv, List.take_append_of_le_length (by rw [List.length_take, hSl]; omega),
    List.take_take, Nat.min_eq_left hL]

theorem nibbles (b : Nat) (hb : b < 256) : (b >>> 4) &&& 0xF = b / 16 ∧ b &&& 0xF = b % 16 := by
  have h1 : (b >>> 4) &&& (2 ^ 4 - 1) = (b >>> 4) % 2 ^ 4 := Nat.and_pow_two_sub_one_eq_mod _ 4
  have h2 : b &&& (2 ^ 4 - 1) = b % 2 ^ 4 := Nat.and_pow_two_sub_one_eq_mod _ 4
  have h3 : b >>> 4 = b / 16 := Nat.shiftRight_eq_div_pow b 4
  constructor
  · have : (b >>> 4) &&& 0xF = (b >>> 4) % 16 := h1
    rw [this, h3]; omega
  · exact h2

/-- The nibble the hex character at position `k` encodes. -/
theorem to_hex_loop (hash : List Nat) (hex : List Char) (n : Nat) :
    (forLoop n (fun i (hex : List Char) =>
        (hex.set (i * 2) (hex_chars.getD ((hash.getD i 0 >>> 4) &&& 0xF) '\x00')).set (i * 2 + 1)
          (hex_chars.getD (hash.getD i 0 &&& 0xF) '\x00')) hex).length = hex.length ∧
    ∀ k, (forLoop n (fun i (hex : List Char) =>
        (hex.set (i * 2) (hex_chars.getD ((hash.getD i 0 >>> 4) &&& 0xF) '\x00')).set (i * 2 + 1)
          (hex_chars.getD (hash.getD i 0 &&& 0xF) '\x00')) hex).getD k '\x00'
      = if k < 2 * n ∧ k < hex.length
        then hex_chars.getD (if k % 2 = 0 then (hash.getD (k / 2) 0 >>> 4) &&& 0xF
          else hash.getD (k / 2) 0 &&& 0xF) '\x00'
        else hex.getD k '\x00' := by
  induction n with
  | zero =>
    refine ⟨rfl, fun k => ?_⟩
    rw [if_neg (by omega)]
    rfl
  | succ n ih =>
    obtain ⟨ihl, ihg⟩ := ih
    refine ⟨?_, fun k => ?_⟩
    · simp only [forLoop, List.length_set]
      exact ihl
    · have e : forLoop (n + 1) (fun i (hex : List Char) =>
          (hex.set (i * 2) (hex_chars.getD ((hash.getD i 0 >>> 4) &&& 0xF) '\x00')).set
            (i * 2 + 1) (hex_chars.getD (hash.getD i 0 &&& 0xF) '\x00')) hex
          = ((forLoop n (fun i (hex : List Char) =>
          (hex.set (i * 2) (hex_chars.getD ((hash.getD i 0 >>> 4) &&& 0xF) '\x00')).set
            (i * 2 + 1) (hex_chars.getD (hash.getD i 0 &&& 0xF) '\x00')) hex).set (n * 2)
              (hex_chars.getD ((hash.getD n 0 >>> 4) &&& 0xF) '\x00')).set (n * 2 + 1)
              (hex_chars.getD (hash.getD n 0 &&& 0xF) '\x00') := rfl
      rw [e, getD_set, getD_set, List.length_set, ihl, ihg]
      by_cases h1 : n * 2 + 1 = k
      · subst h1
        have e1 : ¬ (n * 2 + 1) % 2 = 0 := by omega
        have e2 : (n * 2 + 1) / 2 = n := by omega
        by_cases h2 : n * 2 + 1 < hex.length
        · rw [if_pos (show n * 2 + 1 = n * 2 + 1 ∧ n * 2 + 1 < hex.length from ⟨rfl, h2⟩),
            if_pos (show n * 2 + 1 < 2 * (n + 1) ∧ n * 2 + 1 < hex.length from ⟨by omega, h2⟩),
            if_neg e1, e2]
        · rw [if_neg (show ¬ (n * 2 + 1 = n * 2 + 1 ∧ n * 2 + 1 < hex.length) from
              fun c => h2 c.2),
            if_neg (show ¬ (n * 2 = n * 2 + 1 ∧ n * 2 < hex.length) from fun c => by omega),
            if_neg (show ¬ (n * 2 + 1 < 2 * n ∧ n * 2 + 1 < hex.length) from fun c => by omega),
            if_neg (show ¬ (n * 2 + 1 < 2 * (n + 1) ∧ n * 2 + 1 < hex.length) from
              fun c => h2 c.2)]
      · rw [if_neg (show ¬ (n * 2 + 1 = k ∧ n * 2 + 1 < hex.length) from fun c => h1 c.1)]
        by_cases h3 : n * 2 = k
        · subst h3
          have e1 : (n * 2) % 2 = 0 := by omega
          have e2 : (n * 2) / 2 = n := by omega
          by_cases h2 : n * 2 < hex.length
          · rw [if_pos (show n * 2 = n * 2 ∧ n * 2 < hex.length from ⟨rfl, h2⟩),
              if_pos (show n * 2 < 2 * (n + 1) ∧ n * 2 < hex.length from ⟨by omega, h2⟩),
              if_pos e1, e2]
          · rw [if_neg (show ¬ (n * 2 = n * 2 ∧ n * 2 < hex.length) from fun c => h2 c.2),
              if_neg (show ¬ (n * 2 < 2 * n ∧ n * 2 < hex.length) from fun c => h2 c.2),
              if_neg (show ¬ (n * 2 < 2 * (n + 1) ∧ n * 2 < hex.length) from fun c => h2 c.2)]
        · rw [if_neg (show ¬ (n * 2 = k ∧ n * 2 < hex.length) from fun c => h3 c.1)]
          by_cases h4 : k < 2 * n ∧ k < hex.length
          · rw [if_pos h4,
              if_pos (show k < 2 * (n + 1) ∧ k < hex.length from ⟨by omega, h4.2⟩)]
          · rw [if_neg h4,
              if_neg (show ¬ (k < 2 * (n + 1) ∧ k < hex.length) from fun c => h4 ⟨by omega, c.2⟩)]

theorem to_hex_length (hash : List Nat) (hex : List Char) :
    (sha3_256_to_hex hash hex).length = hex.length :=
  (to_hex_loop hash hex 32).1

theorem to_hex_getD (hash : List Nat) (hex : List Char) (k : Nat) (hk : k < 64)
    (hh : 64 ≤ hex.length) (hb : ∀ j, hash.getD j 0 < 256) :
    (sha3_256_to_hex hash hex).getD k '\x00'
      = hex_chars.getD (if k % 2 = 0 then hash.getD (k / 2) 0 / 16
          else hash.getD (k / 2) 0 % 16) '\x00' := by
  have h := (to_hex_loop hash hex 32).2 k
  rw [if_pos ⟨by omega, by omega⟩, (nibbles _ (hb (k / 2))).1, (nibbles _ (hb (k / 2))).2] at h
  exact h

theorem to_hex_getD_ge (hash : List Nat) (hex : List Char) (k : Nat) (hk : 64 ≤ k) :
    (sha3_256_to_hex hash hex).getD k '\x00' = hex.getD k '\x00' := by
  have h := (to_hex_loop hash hex 32).2 k
  rw [if_neg (by omega)] at h
  exact h

theorem bytes_getD (h : List Nat) (hb : ∀ b ∈ h, b < 256) (j : Nat) : h.getD j 0 < 256 := by
  rw [List.getD_eq_getElem?_getD]
  by_cases c : j < h.length
  · rw [List.getElem?_eq_getElem c]
    exact hb _ (List.getElem_mem c)
  · rw [List.getElem?_eq_none (Nat.le_of_not_lt c)]
    decide

theorem hexEncode_length (h : List Nat) : (Spec.hexEncode h).length = 2 * h.length := by
  induction h with
  | nil => rfl
  | cons b bs ih => simp only [Spec.hexEncode, List.length_cons, ih]; omega

theorem hexEncode_getD (h : List Nat) (k : Nat) (hk : k < 2 * h.length) :
    (Spec.hexEncode h).getD k '\x00'
      = hex_chars.getD (if k % 2 = 0 then h.getD (k / 2) 0 / 16 else h.getD (k / 2) 0 % 16)
          '\x00' := by
  induction h generalizing k with
  | nil => simp at hk
  | cons b bs ih =>
    rcases k with _ | _ | k
    · rfl
    · rfl
    · have e1 : (k + 1 + 1) % 2 = k % 2 := by omega
      have e2 : (k + 1 + 1) / 2 = k / 2 + 1 := by omega
      have hk' : k < 2 * bs.length := by simp only [List.length_cons] at hk; omega
      rw [Spec.hexEncode, List.getD_cons_succ, List.getD_cons_succ, ih k hk', e1, e2,
        List.getD_cons_succ]

theorem ext_getD_char (A B : List Char) (hl : A.length = B.length)
    (h : ∀ i, i < A.length → A.getD i '\x00' = B.getD i '\x00') : A = B := by
  apply List.ext_getElem hl
  intro i h1 h2
  have := h i h1
  simpa [List.getD_eq_getElem?_getD, List.getElem?_eq_getElem h1, List.getElem?_eq_getElem h2]
    using this

/-- The buffer after the call: the 64 hex digits of the 32 digest bytes, the rest unchanged. -/
theorem to_hex_eq (h : List Nat) (hex : List Char) (hl : h.length = 32)
    (hb : ∀ b ∈ h, b < 256) (hh : 64 ≤ hex.length) :
    sha3_256_to_hex h hex = Spec.hexEncode h ++ hex.drop 64 := by
  have hel : (Spec.hexEncode h).length = 64 := by rw [hexEncode_length, hl]
  apply ext_getD_char
  · rw [to_hex_length, List.length_append, hel, List.length_drop]; omega
  · intro k hk
    simp only [List.getD_eq_getElem?_getD] at *
    by_cases c : k < 64
    · rw [List.getElem?_append_left (by omega)]
      have h1 := to_hex_getD h hex k c hh (bytes_getD h hb)
      have h2 := hexEncode_getD h k (by omega)
      simp only [List.getD_eq_getElem?_getD] at h1 h2
      rw [h1, h2]
    · rw [List.getElem?_append_right (by omega), hel, List.getElem?_drop]
      have h1 := to_hex_getD_ge h hex k (by omega)
      simp only [List.getD_eq_getElem?_getD] at h1
      have e : 64 + (k - 64) = k := by omega
      rw [h1, e]

theorem hexVal_digit (n : Nat) (hn : n < 16) : Spec.hexVal (hex_chars.getD n '\x00') = n := by
  interval_cases n <;> decide!

theorem digit_mem (n : Nat) (hn : n < 16) : hex_chars.getD n '\x00' ∈ hex_chars := by
  interval_cases n <;> decide

theorem hexDecode_encode (h : List Nat) (hb : ∀ b ∈ h, b < 256) :
    Spec.hexDecode (Spec.hexEncode h) = h := by
  induction h with
  | nil => rfl
  | cons b bs ih =>
    have hb0 : b < 256 := hb b (List.mem_cons_self _ _)
    rw [Spec.hexEncode, Spec.hexDecode, ih (fun x hx => hb x (List.mem_cons_of_mem _ hx)),
      hexVal_digit _ (by omega), hexVal_digit _ (by omega)]
    congr 1
    omega

theorem absorbBlocks_length (Bs : List (List Nat)) (S : List Nat) (hS : S.length = 200) :
    (Spec.absorbBlocks S Bs).length = 200 := by
  induction Bs generalizing S with
  | nil => exact hS
  | cons B Bs ih =>
    unfold Spec.absorbBlocks
    rw [List.foldl_cons]
    exact ih _ (by rw [KeccakF1600_length, xorBlock_length]; exact hS)

theorem stream_prefix (R : Nat) (m : Nat) :
    ∀ (n : Nat) (S : List Nat), m ≤ n → ∃ T, Spec.stream R S n = Spec.stream R S m ++ T := by
  induction m with
  | zero => intro n S _; exact ⟨Spec.stream R S n, rfl⟩
  | succ m ih =>
    intro n S hmn
    obtain ⟨n', rfl⟩ : ∃ k, n = k + 1 := ⟨n - 1, by omega⟩
    obtain ⟨T, hT⟩ := ih n' (KeccakF1600 S) (by omega)
    refine ⟨T, ?_⟩
    rw [Spec.stream, Spec.stream, hT, List.append_assoc]

/-- The squeezed stream is prefix-stable. -/
theorem sponge_prefix (R : Nat) (M : List Nat) (sfx L1 L2 : Nat) (hR : 1 ≤ R) (hR2 : R ≤ 200)
    (hL : L1 ≤ L2) : (Spec.sponge R M sfx L2).take L1 = Spec.sponge R M sfx L1 := by
  unfold Spec.sponge
  generalize hS : Spec.absorbBlocks (List.replicate 200 0) (Spec.blocks R (Spec.padded R M sfx))
    = S
  have hSl : S.length = 200 := by
    rw [← hS]; exact absorbBlocks_length _ _ (List.length_replicate _ _)
  have hdiv : L1 / R + 1 ≤ L2 / R + 1 := Nat.succ_le_succ (Nat.div_le_div_right hL)
  obtain ⟨T, hT⟩ := stream_prefix R (L1 / R + 1) (L2 / R + 1) S hdiv
  have hlen : L1 ≤ (Spec.stream R S (L1 / R + 1)).length := by
    rw [stream_length R hR2 _ S hSl]
    have := div_mul_bound R L1 hR
    omega
  rw [List.take_take, Nat.min_eq_left hL, hT, List.take_append_of_le_length hlen]

theorem sponge_length (R : Nat) (M : List Nat) (sfx L : Nat) (hR : 1 ≤ R) (hR2 : R ≤ 200) :
    (Spec.sponge R M sfx L).length = L := by
  unfold Spec.sponge
  rw [List.length_take, stream_length R hR2 _ _
    (absorbBlocks_length _ _ (List.length_replicate _ _))]
  have := div_mul_bound R L hR
  omega

theorem pad_noPrePermute (R sfx : Nat) (s : List Nat) (b : Nat) (hs : sfx < 128) :
    pad R sfx s b = padNoPrePermute R sfx s b := by
  unfold pad padNoPrePermute
  simp only [and_128_of_lt sfx hs, ne_eq, not_true_eq_false, false_and, if_false]

theorem Keccak_noPrePermute (r c : Nat) (M : List Nat) (sfx L : Nat) (hs : sfx < 128) :
    Keccak r c M sfx L = KeccakNoPrePermute r c M sfx L := by
  unfold Keccak KeccakNoPrePermute
  simp only [pad_noPrePermute _ _ _ _ hs]

/-! ## The claims -/

/-- Claim C1: `FIPS202_SHA3_256` applied to the empty message writes exactly the 32 bytes
`a7ffc6f8bf1ed76651c14756a061d662f580ff4de43b49fa82d80a4b80f8434a`. -/
theorem C1_sha3_256_empty :
    FIPS202_SHA3_256 [] = some
      [0xa7, 0xff, 0xc6, 0xf8, 0xbf, 0x1e, 0xd7, 0x66, 0x51, 0xc1, 0x47, 0x56, 0xa0, 0x61, 0xd6,
       0x62, 0xf5, 0x80, 0xff, 0x4d, 0xe4, 0x3b, 0x49, 0xfa, 0x82, 0xd8, 0x0a, 0x4b, 0x80, 0xf8,
       0x43, 0x4a] := by
  have hv : ValidState (Spec.xorBlock (List.replicate 200 0) (Spec.padded (1088 / 8) [] 0x06)) :=
    valid_of_all _ (by decide!) (by decide!)
  rw [FIPS202_SHA3_256, Keccak_eq_sponge 1088 512 [] 0x06 32 (by decide) (by decide) (by decide),
    sponge_short _ _ _ _ (by decide) (by decide) (by decide) (by decide),
    KeccakF1600_eq_eval _ hv]
  decide!

/-- The SHA3-256 digest of the three bytes `abc`. -/
theorem sha3_256_abc :
    FIPS202_SHA3_256 [0x61, 0x62, 0x63] = some
      [0x3a, 0x98, 0x5d, 0xa7, 0x4f, 0xe2, 0x25, 0xb2, 0x04, 0x5c, 0x17, 0x2d, 0x6b, 0xd3, 0x90,
       0xbd, 0x85, 0x5f, 0x08, 0x6e, 0x3e, 0x9d, 0x52, 0x5b, 0x46, 0xbf, 0xe2, 0x45, 0x11, 0x43,
       0x15, 0x32] := by
  have hv : ValidState
      (Spec.xorBlock (List.replicate 200 0) (Spec.padded (1088 / 8) [0x61, 0x62, 0x63] 0x06)) :=
    valid_of_all _ (by decide!) (by decide!)
  rw [FIPS202_SHA3_256,
    Keccak_eq_sponge 1088 512 [0x61, 0x62, 0x63] 0x06 32 (by decide) (by decide) (by decide),
    sponge_short _ _ _ _ (by decide) (by decide) (by decide) (by decide),
    KeccakF1600_eq_eval _ hv]
  decide!

/-- Claim C2: `sha3_256_easy_hash_hex` applied to the 3-byte message `abc` writes the 64
characters `3a985da74fe225b2045c172d6bd390bd855f086e3e9d525b46bfe24511431532` to `hex[0..63]`
and nothing else. -/
theorem C2_sha3_256_abc_hex (hex : List Char) (hh : 64 ≤ hex.length) :
    sha3_256_easy_hash_hex [0x61, 0x62, 0x63] hex
      = some ("3a985da74fe225b2045c172d6bd390bd855f086e3e9d525b46bfe24511431532".toList
          ++ hex.drop 64) := by
  have he : Spec.hexEncode
      [0x3a, 0x98, 0x5d, 0xa7, 0x4f, 0xe2, 0x25, 0xb2, 0x04, 0x5c, 0x17, 0x2d, 0x6b, 0xd3, 0x90,
       0xbd, 0x85, 0x5f, 0x08, 0x6e, 0x3e, 0x9d, 0x52, 0x5b, 0x46, 0xbf, 0xe2, 0x45, 0x11, 0x43,
       0x15, 0x32]
      = "3a985da74fe225b2045c172d6bd390bd855f086e3e9d525b46bfe24511431532".toList := by
    decide!
  unfold sha3_256_easy_hash_hex sha3_256_easy_hash
  rw [sha3_256_abc]
  simp only []
  rw [to_hex_eq _ hex (by decide) (by decide) hh, he]

/-- A 64-character buffer for `C2_sha3_256_abc_hex`. -/
theorem C2_sha3_256_abc_hex_witness :
    64 ≤ (List.replicate 64 'x').length ∧
    sha3_256_easy_hash_hex [0x61, 0x62, 0x63] (List.replicate 64 'x')
      = some ("3a985da74fe225b2045c172d6bd390bd855f086e3e9d525b46bfe24511431532".toList
          ++ (List.replicate 64 'x').drop 64) :=
  ⟨by decide, C2_sha3_256_abc_hex _ (by decide)⟩

/-- Claim C3: for every rate with `1 ≤ r / 8 ≤ 200`, every suffix byte with its high bit
clear, every message and every output length, `Keccak` returns the output of the reference
sponge `Spec.sponge` (pad, absorb block by block, squeeze block by block). -/
theorem C3_Keccak_refines_sponge (r c : Nat) (M : List Nat) (sfx L : Nat) (hR : 1 ≤ r / 8)
    (hR2 : r / 8 ≤ 200) (hs : sfx < 128) :
    Keccak r c M sfx L = some (Spec.sponge (r / 8) M sfx L) :=
  Keccak_eq_sponge r c M sfx L hR hR2 hs

/-- The SHA3-256 parameters on a three-byte message satisfy the hypotheses of
`C3_Keccak_refines_sponge`. -/
theorem C3_Keccak_refines_sponge_witness :
    (1 ≤ 1088 / 8 ∧ 1088 / 8 ≤ 200 ∧ 0x06 < 128) ∧
    Keccak 1088 512 [0x61, 0x62, 0x63] 0x06 32
      = some (Spec.sponge (1088 / 8) [0x61, 0x62, 0x63] 0x06 32) :=
  ⟨by decide, C3_Keccak_refines_sponge 1088 512 _ 0x06 32 (by decide) (by decide) (by decide)⟩

/-- Claim C4: for every message and all output lengths `L1 < L2`, both SHAKE functions
return, and the first `L1` bytes of the `L2`-byte output are the `L1`-byte output. -/
theorem C4_shake_prefix_stable (M : List Nat) (L1 L2 : Nat) (h : L1 < L2) :
    (∃ o1 o2, FIPS202_SHAKE128 M L1 = some o1 ∧ FIPS202_SHAKE128 M L2 = some o2 ∧
      o2.take L1 = o1) ∧
    (∃ o1 o2, FIPS202_SHAKE256 M L1 = some o1 ∧ FIPS202_SHAKE256 M L2 = some o2 ∧
      o2.take L1 = o1) :=
  ⟨⟨_, _, Keccak_eq_sponge 1344 256 M 0x1F L1 (by decide) (by decide) (by decide),
      Keccak_eq_sponge 1344 256 M 0x1F L2 (by decide) (by decide) (by decide),
      sponge_prefix _ M 0x1F L1 L2 (by decide) (by decide) (Nat.le_of_lt h)⟩,
    ⟨_, _, Keccak_eq_sponge 1088 512 M 0x1F L1 (by decide) (by decide) (by decide),
      Keccak_eq_sponge 1088 512 M 0x1F L2 (by decide) (by decide) (by decide),
      sponge_prefix _ M 0x1F L1 L2 (by decide) (by decide) (Nat.le_of_lt h)⟩⟩

/-- Output lengths on both sides of the first block boundary of SHAKE128. -/
theorem C4_shake_prefix_stable_witness :
    (167 < 169) ∧
    (∃ o1 o2, FIPS202_SHAKE128 [0x61] 167 = some o1 ∧ FIPS202_SHAKE128 [0x61] 169 = some o2 ∧
      o2.take 167 = o1) ∧
    (∃ o1 o2, FIPS202_SHAKE256 [0x61] 167 = some o1 ∧ FIPS202_SHAKE256 [0x61] 169 = some o2 ∧
      o2.take 167 = o1) :=
  ⟨by decide, C4_shake_prefix_stable [0x61] 167 169 (by decide)⟩

/-- Claim C6, refuted as stated: there is no message, block-aligned or not, and no output
length for which `FIPS202_SHAKE128` or `FIPS202_SHAKE256` differs from the same routine with the
conditional pre-permute of the pad step deleted. -/
theorem C6_no_shake_input_triggers_pre_permute :
    ¬ ∃ (M : List Nat) (L : Nat),
      (M.length % 168 = 0 ∧ FIPS202_SHAKE128 M L ≠ FIPS202_SHAKE128_NoPrePermute M L) ∨
      (M.length % 136 = 0 ∧ FIPS202_SHAKE256 M L ≠ FIPS202_SHAKE256_NoPrePermute M L) := by
  rintro ⟨M, L, h | h⟩
  · exact h.2 (Keccak_noPrePermute 1344 256 M 0x1F L (by decide))
  · exact h.2 (Keccak_noPrePermute 1088 512 M 0x1F L (by decide))

/-- Claim C6, amended: the SHAKE suffix `0x1F` has its high bit clear, so for every message
and every output length `FIPS202_SHAKE128` and `FIPS202_SHAKE256` are equal to the same routine
with the conditional pre-permute deleted. -/
theorem C6_shake_pre_permute_is_dead (M : List Nat) (L : Nat) :
    FIPS202_SHAKE128 M L = FIPS202_SHAKE128_NoPrePermute M L ∧
    FIPS202_SHAKE256 M L = FIPS202_SHAKE256_NoPrePermute M L :=
  ⟨Keccak_noPrePermute 1344 256 M 0x1F L (by decide),
    Keccak_noPrePermute 1088 512 M 0x1F L (by decide)⟩

/-- Claim C7: the six facade functions call `Keccak` with the rate, capacity, suffix and
output length of the table; each rate satisfies `r + c = 1600`, is a multiple of 8 and gives a
block size `R = r / 8` with `1 ≤ R ≤ 200`; the four digest lengths are at most `R`. -/
theorem C7_facade_parameters :
    (∀ M L, FIPS202_SHAKE128 M L = Keccak 1344 256 M 0x1F L) ∧
    (∀ M L, FIPS202_SHAKE256 M L = Keccak 1088 512 M 0x1F L) ∧
    (∀ M, FIPS202_SHA3_224 M = Keccak 1152 448 M 0x06 28) ∧
    (∀ M, FIPS202_SHA3_256 M = Keccak 1088 512 M 0x06 32) ∧
    (∀ M, FIPS202_SHA3_384 M = Keccak 832 768 M 0x06 48) ∧
    (∀ M, FIPS202_SHA3_512 M = Keccak 576 1024 M 0x06 64) ∧
    facadeArgs = [(1344, 256, 0x1F), (1088, 512, 0x1F), (1152, 448, 0x06), (1088, 512, 0x06),
      (832, 768, 0x06), (576, 1024, 0x06)] ∧
    (∀ a ∈ facadeArgs, a.1 + a.2.1 = 1600 ∧ a.1 % 8 = 0 ∧ 1 ≤ a.1 / 8 ∧ a.1 / 8 ≤ 200) ∧
    28 ≤ 1152 / 8 ∧ 32 ≤ 1088 / 8 ∧ 48 ≤ 832 / 8 ∧ 64 ≤ 576 / 8 :=
  ⟨fun _ _ => rfl, fun _ _ => rfl, fun _ => rfl, fun _ => rfl, fun _ => rfl, fun _ => rfl, rfl,
    by decide, by decide, by decide, by decide, by decide⟩

/-- Claim C8, refuted as stated: it is not the case that the block size `R = r / 8` of every
facade variant divides the 200-byte state size. -/
theorem C8_block_size_does_not_divide_200 :
    ¬ ∀ a ∈ facadeArgs, 200 % (a.1 / 8) = 0 := by
  decide

/-- Claim C8, amended: for every facade variant the block size `R = r / 8` is a whole number
of 8-byte lanes and fits in the 200-byte state (`1 ≤ R < 200`); it does not divide 200. -/
theorem C8_block_size_fits_state (a : Nat × Nat × Nat) (h : a ∈ facadeArgs) :
    (a.1 / 8) % 8 = 0 ∧ 1 ≤ a.1 / 8 ∧ a.1 / 8 < 200 ∧ 200 % (a.1 / 8) ≠ 0 := by
  revert a
  decide

/-- The SHAKE128 call for `C8_block_size_fits_state`. -/
theorem C8_block_size_fits_state_witness :
    (1344, 256, 0x1F) ∈ facadeArgs ∧
    ((1344 / 8) % 8 = 0 ∧ 1 ≤ 1344 / 8 ∧ 1344 / 8 < 200 ∧ 200 % (1344 / 8) ≠ 0) :=
  ⟨by decide, C8_block_size_fits_state (1344, 256, 0x1F) (by decide)⟩

/-- Claim C9: for every 32-byte digest `h`, `sha3_256_to_hex` writes exactly the 64 characters
`hex[0..63]`, each one of `0123456789abcdef`, with `hex[2i]` the digit of the high nibble and
`hex[2i+1]` the digit of the low nibble of `h[i]`; decoding the character pairs gives `h`. -/
theorem C9_to_hex (h : List Nat) (hex : List Char) (hl : h.length = 32)
    (hb : ∀ b ∈ h, b < 256) (hh : 64 ≤ hex.length) :
    (sha3_256_to_hex h hex).length = hex.length ∧
    (sha3_256_to_hex h hex).drop 64 = hex.drop 64 ∧
    (∀ k, k < 64 → (sha3_256_to_hex h hex).getD k '\x00' ∈ hex_chars) ∧
    (∀ i, i < 32 →
      (sha3_256_to_hex h hex).getD (2 * i) '\x00' = hex_chars.getD (h.getD i 0 / 16) '\x00' ∧
      (sha3_256_to_hex h hex).getD (2 * i + 1) '\x00'
        = hex_chars.getD (h.getD i 0 % 16) '\x00') ∧
    Spec.hexDecode ((sha3_256_to_hex h hex).take 64) = h := by
  have hel : (Spec.hexEncode h).length = 64 := by rw [hexEncode_length, hl]
  have hbd := bytes_getD h hb
  refine ⟨to_hex_length h hex, ?_, ?_, ?_, ?_⟩
  · rw [to_hex_eq h hex hl hb hh, ← hel, List.drop_left]
  · intro k hk
    rw [to_hex_getD h hex k hk hh hbd]
    apply digit_mem
    have := hbd (k / 2)
    split <;> omega
  · intro i hi
    have e1 : (2 * i) % 2 = 0 := by omega
    have e2 : (2 * i) / 2 = i := by omega
    have e3 : ¬ (2 * i + 1) % 2 = 0 := by omega
    have e4 : (2 * i + 1) / 2 = i := by omega
    rw [to_hex_getD h hex (2 * i) (by omega) hh hbd,
      to_hex_getD h hex (2 * i + 1) (by omega) hh hbd, if_pos e1, if_neg e3, e2, e4]
    exact ⟨rfl, rfl⟩
  · rw [to_hex_eq h hex hl hb hh, ← hel, List.take_left, hexDecode_encode h hb]

/-- A digest and a 64-character buffer for `C9_to_hex`. -/
theorem C9_to_hex_witness :
    ((List.replicate 32 0xa7).length = 32 ∧ (∀ b ∈ List.replicate 32 0xa7, b < 256) ∧
      64 ≤ (List.replicate 64 'x').length) ∧
    Spec.hexDecode ((sha3_256_to_hex (List.replicate 32 0xa7) (List.replicate 64 'x')).take 64)
      = List.replicate 32 0xa7 :=
  ⟨by decide,
    (C9_to_hex (List.replicate 32 0xa7) (List.replicate 64 'x') (by decide) (by decide)
      (by decide)).2.2.2.2⟩

/-! ## The instrumented semantics computes the same values -/

theorem forLoopT_fst {σ : Type} (n : Nat) (body : Nat → σ → σ × List Traced.Access) (st : σ) :
    (Traced.forLoopT n body st).1 = forLoop n (fun i s => (body i s).1) st := by
  induction n with
  | zero => rfl
  | succ n ih =>
    show (body n (Traced.forLoopT n body st).1).1 = (body n (forLoop n _ st)).1
    rw [ih]

theorem forLoopT_succ {σ : Type} (n : Nat) (body : Nat → σ → σ × List Traced.Access) (st : σ) :
    Traced.forLoopT (n + 1) body st
      = ((body n (Traced.forLoopT n body st).1).1,
          (Traced.forLoopT n body st).2 ++ (body n (Traced.forLoopT n body st).1).2) := rfl

theorem load64_fst (s : List Nat) (off : Nat) : (Traced.load64 s off).1 = load64 s off :=
  forLoopT_fst _ _ _

theorem store64_fst (s : List Nat) (off u : Nat) :
    (Traced.store64 s off u).1 = store64 s off u := by
  unfold Traced.store64 store64
  dsimp only
  rw [forLoopT_fst]

theorem xor64_fst (s : List Nat) (off u : Nat) : (Traced.xor64 s off u).1 = xor64 s off u := by
  unfold Traced.xor64 xor64
  dsimp only
  rw [forLoopT_fst]

theorem rL_fst (s : List Nat) (x y : Nat) : (Traced.rL s x y).1 = rL s x y := load64_fst _ _

theorem wL_fst (s : List Nat) (x y l : Nat) : (Traced.wL s x y l).1 = wL s x y l :=
  store64_fst _ _ _

theorem XL_fst (s : List Nat) (x y l : Nat) : (Traced.XL s x y l).1 = XL s x y l :=
  xor64_fst _ _ _

theorem forLoop_append_map (f : Nat → Nat) (n : Nat) :
    forLoop n (fun x (C : List Nat) => C ++ [f x]) [] = (List.range n).map f := by
  induction n with
  | zero => rfl
  | succ n ih =>
    rw [List.range_succ, List.map_append, ← ih]
    rfl

theorem forLoop_congr {σ : Type} (n : Nat) (f g : Nat → σ → σ) (h : ∀ i s, f i s = g i s)
    (st : σ) : forLoop n f st = forLoop n g st := by
  have : f = g := funext fun i => funext fun s => h i s
  rw [this]

theorem thetaC_fst (s : List Nat) :
    (Traced.thetaC s).1 = (List.range 5).map fun x =>
      rL s x 0 ^^^ rL s x 1 ^^^ rL s x 2 ^^^ rL s x 3 ^^^ rL s x 4 := by
  unfold Traced.thetaC
  rw [forLoopT_fst, ← forLoop_append_map]
  apply forLoop_congr
  intro x C
  simp only [rL_fst]

theorem theta_fst (s : List Nat) : (Traced.theta s).1 = theta s := by
  unfold Traced.theta theta
  simp only [thetaC_fst]
  rw [forLoopT_fst]
  apply forLoop_congr
  intro x st
  rw [forLoopT_fst]
  apply forLoop_congr
  intro y st'
  rw [XL_fst]

theorem rhoPiStep_fst (j : Nat) (st : RhoPi) : (Traced.rhoPiStep j st).1 = rhoPiStep j st := by
  simp only [Traced.rhoPiStep, rhoPiStep, rL_fst, wL_fst]

theorem rhoPi_fst (s : List Nat) : (Traced.rhoPi s).1 = rhoPi s := by
  unfold Traced.rhoPi rhoPi
  simp only [rL_fst]
  rw [forLoopT_fst, forLoop_congr _ _ _ rhoPiStep_fst]

theorem chiC_fst (s : List Nat) (y : Nat) :
    (Traced.chiC s y).1 = (List.range 5).map fun x => rL s x y := by
  unfold Traced.chiC
  rw [forLoopT_fst, ← forLoop_append_map]
  apply forLoop_congr
  intro x C
  simp only [rL_fst]

theorem chi_fst (s : List Nat) : (Traced.chi s).1 = chi s := by
  unfold Traced.chi chi
  rw [forLoopT_fst]
  apply forLoop_congr
  intro y st
  simp only [chiC_fst]
  rw [forLoopT_fst]
  apply forLoop_congr
  intro x st'
  rw [wL_fst]

theorem iota_fst (p : List Nat × Nat) : (Traced.iota p).1 = iota p := by
  unfold Traced.iota iota
  rw [forLoopT_fst]
  apply forLoop_congr
  intro j q
  dsimp only
  split
  · rw [XL_fst]
  · rfl

theorem round_fst (p : List Nat × Nat) : (Traced.round p).1 = round p := by
  unfold Traced.round round
  simp only [theta_fst, rhoPi_fst, chi_fst, iota_fst]

theorem KeccakF1600_fst (s : List Nat) : (Traced.KeccakF1600 s).1 = KeccakF1600 s := by
  have h := forLoopT_fst 24 (fun _ p => Traced.round p) (s, 0x01)
  rw [forLoop_congr _ _ _ (fun _ p => round_fst p)] at h
  unfold Traced.KeccakF1600 KeccakF1600
  generalize Traced.forLoopT 24 (fun _ p => Traced.round p) (s, 0x01) = X at h ⊢
  generalize forLoop 24 (fun _ p => round p) (s, 0x01) = Y at h ⊢
  subst h
  obtain ⟨⟨a, b⟩, c⟩ := X
  rfl

theorem xorIn_fst (s inp : List Nat) (ip b : Nat) :
    (Traced.xorIn s inp ip b).1 = xorIn s inp b := by
  unfold Traced.xorIn xorIn
  rw [forLoopT_fst]

theorem absorb_fst (R : Nat) (fuel : Nat) :
    ∀ (s inp : List Nat) (ip b : Nat),
      (Traced.absorb R fuel s inp ip b).map Prod.fst = absorb R fuel s inp b := by
  induction fuel with
  | zero =>
    intro s inp ip b
    rw [Traced.absorb, absorb]
    split <;> rfl
  | succ fuel ih =>
    intro s inp ip b
    rw [Traced.absorb, absorb]
    by_cases h : inp.length > 0
    · rw [if_pos h, if_pos h]
      dsimp only
      by_cases hb : (if inp.length < R then inp.length else R) = R
      · rw [if_pos hb, if_pos hb, xorIn_fst, KeccakF1600_fst, ← ih _ _ (ip + _) 0]
        cases Traced.absorb R fuel
          (KeccakF1600 (xorIn s inp (if inp.length < R then inp.length else R)))
          (inp.drop (if inp.length < R then inp.length else R))
          (ip + (if inp.length < R then inp.length else R)) 0 with
        | none => rfl
        | some p => obtain ⟨r, log⟩ := p; rfl
      · rw [if_neg hb, if_neg hb, xorIn_fst, ← ih _ _ (ip + _) _]
        cases Traced.absorb R fuel
          (xorIn s inp (if inp.length < R then inp.length else R))
          (inp.drop (if inp.length < R then inp.length else R))
          (ip + (if inp.length < R then inp.length else R))
          (if inp.length < R then inp.length else R) with
        | none => rfl
        | some p => obtain ⟨r, log⟩ := p; rfl
    · rw [if_neg h, if_neg h]
      rfl

theorem fst_mk {α β : Type} (a : α) (b : β) : (a, b).1 = a := rfl

theorem snd_mk {α β : Type} (a : α) (b : β) : (a, b).2 = b := rfl

/-- The pad step with its intermediate values named. -/
theorem Traced_pad_unfold (R sfx : Nat) (s : List Nat) (b : Nat) (s1 s2 : List Nat)
    (f g : List Nat × List Traced.Access) (h1 : s1 = s.set b (s.getD b 0 ^^^ sfx))
    (hf : f = if sfx &&& 0x80 ≠ 0 ∧ b = decU32 R then Traced.KeccakF1600 s1 else (s1, []))
    (h2 : s2 = f.1.set (decU32 R) (f.1.getD (decU32 R) 0 ^^^ 0x80))
    (hg : g = Traced.KeccakF1600 s2) :
    Traced.pad R sfx s b
      = (g.1, [Traced.Access.state b] ++ f.2 ++ [Traced.Access.state (decU32 R)] ++ g.2) := by
  subst h1 hf h2 hg
  rfl

theorem pad_unfold (R sfx : Nat) (s : List Nat) (b : Nat) (s1 f s2 : List Nat)
    (h1 : s1 = s.set b (s.getD b 0 ^^^ sfx))
    (hf : f = if sfx &&& 0x80 ≠ 0 ∧ b = decU32 R then KeccakF1600 s1 else s1)
    (h2 : s2 = f.set (decU32 R) (f.getD (decU32 R) 0 ^^^ 0x80)) :
    pad R sfx s b = KeccakF1600 s2 := by
  subst h1 hf h2
  rfl

theorem pad_fst (R sfx : Nat) (s : List Nat) (b : Nat) :
    (Traced.pad R sfx s b).1 = pad R sfx s b := by
  rw [Traced_pad_unfold R sfx s b _ _ _ _ rfl rfl rfl rfl, pad_unfold R sfx s b _ _ _ rfl rfl rfl,
    fst_mk, KeccakF1600_fst]
  by_cases c : sfx &&& 0x80 ≠ 0 ∧ b = decU32 R
  · rw [if_pos c, if_pos c, KeccakF1600_fst]
  · rw [if_neg c, if_neg c]

theorem copyT_fst (s : List Nat) (op b : Nat) (out : List Nat) :
    (Traced.forLoopT b (fun i out =>
      (out ++ [s.getD i 0], [Traced.Access.state i, Traced.Access.output (op + i)])) out).1
      = forLoop b (fun i out => out ++ [s.getD i 0]) out := by
  rw [forLoopT_fst]

theorem squeeze_fst (R : Nat) (fuel : Nat) :
    ∀ (s : List Nat) (outLen op : Nat) (out : List Nat),
      (Traced.squeeze R fuel s outLen op out).map Prod.fst = squeeze R fuel s outLen out := by
  induction fuel with
  | zero =>
    intro s outLen op out
    rw [Traced.squeeze, squeeze]
    split <;> rfl
  | succ fuel ih =>
    intro s outLen op out
    rw [Traced.squeeze, squeeze]
    by_cases h : outLen > 0
    · rw [if_pos h, if_pos h]
      dsimp only
      by_cases hb : outLen - (if outLen < R then outLen else R) > 0
      · rw [if_pos hb, if_pos hb, copyT_fst, KeccakF1600_fst, ← ih _ _ (op + _) _]
        cases Traced.squeeze R fuel (KeccakF1600 s)
          (outLen - (if outLen < R then outLen else R))
          (op + (if outLen < R then outLen else R))
          (forLoop (if outLen < R then outLen else R) (fun i out => out ++ [s.getD i 0]) out) with
        | none => rfl
        | some p => obtain ⟨r, log⟩ := p; rfl
      · rw [if_neg hb, if_neg hb, copyT_fst, ← ih _ _ (op + _) _]
        cases Traced.squeeze R fuel s
          (outLen - (if outLen < R then outLen else R))
          (op + (if outLen < R then outLen else R))
          (forLoop (if outLen < R then outLen else R) (fun i out => out ++ [s.getD i 0]) out) with
        | none => rfl
        | some p => obtain ⟨r, log⟩ := p; rfl
    · rw [if_neg h, if_neg h]
      rfl

theorem initT_fst :
    (Traced.forLoopT 200 (fun i (s : List Nat) => (s.set i 0, [Traced.Access.state i]))
      (List.replicate 200 0)).1 = forLoop 200 (fun i s => s.set i 0) (List.replicate 200 0) := by
  rw [forLoopT_fst]

/-- The instrumented routine returns the output of `Keccak`. -/
theorem Keccak_fst (r c : Nat) (M : List Nat) (sfx L : Nat) :
    (Traced.Keccak r c M sfx L).map Prod.fst = Keccak r c M sfx L := by
  unfold Traced.Keccak Keccak
  dsimp only
  rw [initT_fst, ← absorb_fst (r / 8) M.length _ M 0 0]
  cases Traced.absorb (r / 8) M.length
    (forLoop 200 (fun i s => s.set i 0) (List.replicate 200 0)) M 0 0 with
  | none => rfl
  | some p =>
    obtain ⟨⟨s, b⟩, l1⟩ := p
    have hP := pad_fst (r / 8) sfx s b
    dsimp only [Option.map]
    generalize Traced.pad (r / 8) sfx s b = P at hP ⊢
    generalize pad (r / 8) sfx s b = Q at hP ⊢
    subst hP
    rw [← squeeze_fst (r / 8) L _ L 0 []]
    cases Traced.squeeze (r / 8) L P.1 L 0 [] with
    | none => rfl
    | some q => obtain ⟨out, l2⟩ := q; rfl

/-! ## Every recorded access is in bounds -/

theorem forLoopT_all {σ : Type} (P : Traced.Access → Prop) (inv : σ → Prop) (n : Nat)
    (body : Nat → σ → σ × List Traced.Access)
    (h : ∀ i, i < n → ∀ st, inv st → inv (body i st).1 ∧ ∀ a ∈ (body i st).2, P a)
    (st : σ) (h0 : inv st) :
    inv (Traced.forLoopT n body st).1 ∧ ∀ a ∈ (Traced.forLoopT n body st).2, P a := by
  induction n with
  | zero => exact ⟨h0, fun a ha => by cases ha⟩
  | succ n ih =>
    have ih' := ih (fun i hi => h i (Nat.lt_succ_of_lt hi))
    have hs := h n (Nat.lt_succ_self n) _ ih'.1
    rw [forLoopT_succ]
    refine ⟨hs.1, fun a ha => ?_⟩
    rcases List.mem_append.mp ha with ha | ha
    · exact ih'.2 a ha
    · exact hs.2 a ha

theorem state_inBounds (i : Nat) (h : i < 200) (a : Traced.Access)
    (ha : a ∈ [Traced.Access.state i]) : a.inBounds 0 0 := by
  rw [List.mem_singleton] at ha
  subst ha
  exact h

theorem inBounds_mono (a : Traced.Access) (n m : Nat) (h : a.inBounds 0 0) : a.inBounds n m := by
  cases a with
  | state i => exact h
  | input i => exact absurd h (Nat.not_lt_zero i)
  | output i => exact absurd h (Nat.not_lt_zero i)

theorem load64_log (s : List Nat) (off : Nat) (h : off + 8 ≤ 200) :
    ∀ a ∈ (Traced.load64 s off).2, a.inBounds 0 0 :=
  (forLoopT_all (fun a => a.inBounds 0 0) (fun _ => True) 8 _
    (fun i hi _ _ => ⟨trivial, state_inBounds _ (by omega)⟩) 0 trivial).2

theorem store64_log (s : List Nat) (off u : Nat) (h : off + 8 ≤ 200) :
    ∀ a ∈ (Traced.store64 s off u).2, a.inBounds 0 0 :=
  (forLoopT_all (fun a => a.inBounds 0 0) (fun _ => True) 8 _
    (fun i hi _ _ => ⟨trivial, state_inBounds _ (by omega)⟩) (s, u) trivial).2

theorem xor64_log (s : List Nat) (off u : Nat) (h : off + 8 ≤ 200) :
    ∀ a ∈ (Traced.xor64 s off u).2, a.inBounds 0 0 :=
  (forLoopT_all (fun a => a.inBounds 0 0) (fun _ => True) 8 _
    (fun i hi _ _ => ⟨trivial, state_inBounds _ (by omega)⟩) (s, u) trivial).2

theorem rL_log (s : List Nat) (x y : Nat) (hx : x < 5) (hy : y < 5) :
    ∀ a ∈ (Traced.rL s x y).2, a.inBounds 0 0 :=
  load64_log s _ (by omega)

theorem wL_log (s : List Nat) (x y l : Nat) (hx : x < 5) (hy : y < 5) :
    ∀ a ∈ (Traced.wL s x y l).2, a.inBounds 0 0 :=
  store64_log s _ l (by omega)

theorem XL_log (s : List Nat) (x y l : Nat) (hx : x < 5) (hy : y < 5) :
    ∀ a ∈ (Traced.XL s x y l).2, a.inBounds 0 0 :=
  xor64_log s _ l (by omega)

theorem mem_append5 {a : Traced.Access} {l0 l1 l2 l3 l4 : List Traced.Access}
    (P : Traced.Access → Prop) (h0 : ∀ a ∈ l0, P a) (h1 : ∀ a ∈ l1, P a) (h2 : ∀ a ∈ l2, P a)
    (h3 : ∀ a ∈ l3, P a) (h4 : ∀ a ∈ l4, P a) (ha : a ∈ l0 ++ l1 ++ l2 ++ l3 ++ l4) : P a := by
  simp only [List.mem_append] at ha
  rcases ha with (((ha | ha) | ha) | ha) | ha
  · exact h0 a ha
  · exact h1 a ha
  · exact h2 a ha
  · exact h3 a ha
  · exact h4 a ha

theorem thetaC_log (s : List Nat) : ∀ a ∈ (Traced.thetaC s).2, a.inBounds 0 0 :=
  (forLoopT_all (fun a => a.inBounds 0 0) (fun _ => True) 5 _
    (fun x hx _ _ => ⟨trivial, fun _ ha =>
      mem_append5 (fun a => a.inBounds 0 0) (rL_log s x 0 hx (by decide))
        (rL_log s x 1 hx (by decide)) (rL_log s x 2 hx (by decide))
        (rL_log s x 3 hx (by decide)) (rL_log s x 4 hx (by decide)) ha⟩) [] trivial).2

theorem theta_log (s : List Nat) : ∀ a ∈ (Traced.theta s).2, a.inBounds 0 0 := by
  intro a ha
  unfold Traced.theta at ha
  dsimp only at ha
  rcases List.mem_append.mp ha with ha | ha
  · exact thetaC_log s a ha
  · exact (forLoopT_all (fun a => a.inBounds 0 0) (fun _ => True) 5 _
      (fun x hx st _ => ⟨trivial,
        (forLoopT_all (fun a => a.inBounds 0 0) (fun _ => True) 5 _
          (fun y hy st' _ => ⟨trivial, XL_log st' x y _ hx hy⟩) st trivial).2⟩) s trivial).2 a ha

theorem rhoPi_log (s : List Nat) : ∀ a ∈ (Traced.rhoPi s).2, a.inBounds 0 0 := by
  intro a ha
  unfold Traced.rhoPi at ha
  dsimp only at ha
  rcases List.mem_append.mp ha with ha | ha
  · exact rL_log s 1 0 (by decide) (by decide) a ha
  · refine (forLoopT_all (fun a => a.inBounds 0 0) (fun st : RhoPi => st.x < 5 ∧ st.y < 5) 24
      Traced.rhoPiStep ?_ _ ⟨(by decide : 1 < 5), (by decide : 0 < 5)⟩).2 a ha
    intro j _ st hst
    have hY : (2 * st.x + 3 * st.y) % 5 < 5 := Nat.mod_lt _ (by decide)
    refine ⟨⟨hst.2, hY⟩, fun a ha => ?_⟩
    unfold Traced.rhoPiStep at ha
    dsimp only at ha
    rcases List.mem_append.mp ha with ha | ha
    · exact rL_log _ _ _ hst.2 hY a ha
    · exact wL_log _ _ _ _ hst.2 hY a ha

theorem chiC_log (s : List Nat) (y : Nat) (hy : y < 5) :
    ∀ a ∈ (Traced.chiC s y).2, a.inBounds 0 0 := by
  unfold Traced.chiC
  refine (forLoopT_all (fun a => a.inBounds 0 0) (fun _ => True) 5 _ ?_ _ trivial).2
  intro x hx _ _
  exact ⟨trivial, rL_log s x y hx hy⟩

theorem chi_log (s : List Nat) : ∀ a ∈ (Traced.chi s).2, a.inBounds 0 0 := by
  refine (forLoopT_all (fun a => a.inBounds 0 0) (fun _ => True) 5 _ ?_ s trivial).2
  intro y hy st _
  refine ⟨trivial, fun a ha => ?_⟩
  dsimp only at ha
  rcases List.mem_append.mp ha with ha | ha
  · exact chiC_log st y hy a ha
  · exact (forLoopT_all (fun a => a.inBounds 0 0) (fun _ => True) 5 _
      (fun x hx st' _ => ⟨trivial, wL_log st' x y _ hx hy⟩) st trivial).2 a ha

theorem iota_log (p : List Nat × Nat) : ∀ a ∈ (Traced.iota p).2, a.inBounds 0 0 := by
  refine (forLoopT_all (fun a => a.inBounds 0 0) (fun _ => True) 7 _ ?_ p trivial).2
  intro j _ st _
  refine ⟨trivial, fun a ha => ?_⟩
  dsimp only at ha
  split at ha
  · exact XL_log _ 0 0 _ (by decide) (by decide) a ha
  · cases ha

theorem round_log (p : List Nat × Nat) : ∀ a ∈ (Traced.round p).2, a.inBounds 0 0 := by
  intro a ha
  unfold Traced.round at ha
  dsimp only at ha
  simp only [List.mem_append] at ha
  rcases ha with ((ha | ha) | ha) | ha
  · exact theta_log _ a ha
  · exact rhoPi_log _ a ha
  · exact chi_log _ a ha
  · exact iota_log _ a ha

/-- Every access of the permutation is to a state byte with index below 200. -/
theorem KeccakF1600_log (s : List Nat) : ∀ a ∈ (Traced.KeccakF1600 s).2, a.inBounds 0 0 := by
  have h := (forLoopT_all (fun a => a.inBounds 0 0) (fun _ => True) 24
    (fun _ p => Traced.round p) (fun _ _ st _ => ⟨trivial, round_log st⟩) (s, 0x01) trivial).2
  unfold Traced.KeccakF1600
  generalize Traced.forLoopT 24 (fun _ p => Traced.round p) (s, 0x01) = X at h ⊢
  obtain ⟨⟨u, v⟩, w⟩ := X
  exact h

theorem inBounds_le (a : Traced.Access) (n m n' m' : Nat) (hn : n ≤ n') (hm : m ≤ m')
    (h : a.inBounds n m) : a.inBounds n' m' := by
  cases a with
  | state i => exact h
  | input i => exact Nat.lt_of_lt_of_le h hn
  | output i => exact Nat.lt_of_lt_of_le h hm

theorem outputIndices_append (l1 l2 : List Traced.Access) :
    Traced.outputIndices (l1 ++ l2) = Traced.outputIndices l1 ++ Traced.outputIndices l2 := by
  induction l1 with
  | nil => rfl
  | cons a l ih =>
    cases a with
    | state i => exact ih
    | input i => exact ih
    | output i =>
      show i :: Traced.outputIndices (l ++ l2) = i :: Traced.outputIndices l ++ _
      rw [ih]
      rfl

theorem outputIndices_nil (n : Nat) (l : List Traced.Access) (h : ∀ a ∈ l, a.inBounds n 0) :
    Traced.outputIndices l = [] := by
  induction l with
  | nil => rfl
  | cons a l ih =>
    have ha := h a (List.mem_cons_self a l)
    have hl := ih (fun b hb => h b (List.mem_cons_of_mem a hb))
    cases a with
    | state i => exact hl
    | input i => exact hl
    | output i => exact absurd ha (Nat.not_lt_zero i)

theorem xorIn_log (s inp : List Nat) (ip b inLen : Nat) (hb : b ≤ 200) (hi : ip + b ≤ inLen) :
    ∀ a ∈ (Traced.xorIn s inp ip b).2, a.inBounds inLen 0 := by
  unfold Traced.xorIn
  refine (forLoopT_all (fun a => a.inBounds inLen 0) (fun _ => True) b _ ?_ _ trivial).2
  intro i hi' _ _
  refine ⟨trivial, fun a ha => ?_⟩
  rcases List.mem_cons.mp ha with ha | ha
  · subst ha
    show i < 200
    omega
  · rw [List.mem_singleton] at ha
    subst ha
    show ip + i < inLen
    omega

theorem initT_log : ∀ a ∈ (Traced.forLoopT 200
    (fun i (s : List Nat) => (s.set i 0, [Traced.Access.state i])) (List.replicate 200 0)).2,
    a.inBounds 0 0 :=
  (forLoopT_all (fun a => a.inBounds 0 0) (fun _ => True) 200 _
    (fun _ hi _ _ => ⟨trivial, state_inBounds _ hi⟩) _ trivial).2

theorem copyT_log (s : List Nat) (op : Nat) (out : List Nat) (b : Nat) (hb : b ≤ 200) :
    (Traced.forLoopT b (fun i out =>
      (out ++ [s.getD i 0], [Traced.Access.state i, Traced.Access.output (op + i)])) out).1.length
      = out.length + b ∧
    (∀ a ∈ (Traced.forLoopT b (fun i out =>
      (out ++ [s.getD i 0], [Traced.Access.state i, Traced.Access.output (op + i)])) out).2,
      a.inBounds 0 (op + b)) ∧
    Traced.outputIndices (Traced.forLoopT b (fun i out =>
      (out ++ [s.getD i 0], [Traced.Access.state i, Traced.Access.output (op + i)])) out).2
      = List.range' op b := by
  induction b with
  | zero =>
    refine ⟨rfl, ?_, rfl⟩
    intro a ha
    cases ha
  | succ b ih =>
    obtain ⟨h1, h2, h3⟩ := ih (Nat.le_of_succ_le hb)
    rw [forLoopT_succ]
    dsimp only
    refine ⟨?_, ?_, ?_⟩
    · rw [List.length_append, h1]
      rfl
    · intro a ha
      rcases List.mem_append.mp ha with ha | ha
      · exact inBounds_le a 0 (op + b) 0 (op + (b + 1)) (Nat.le_refl 0) (by omega) (h2 a ha)
      · rcases List.mem_cons.mp ha with ha | ha
        · subst ha
          show b < 200
          omega
        · rw [List.mem_singleton] at ha
          subst ha
          show op + b < op + (b + 1)
          omega
    · rw [outputIndices_append, h3, List.range'_1_concat]
      rfl

theorem absorb_log (R inLen : Nat) (hR : 1 ≤ R) (hR2 : R ≤ 200) (fuel : Nat) :
    ∀ (s inp : List Nat) (ip b : Nat), inp.length ≤ fuel → ip + inp.length ≤ inLen → b ≤ R - 1 →
      ∃ s1 b1 log, Traced.absorb R fuel s inp ip b = some ((s1, b1), log) ∧ b1 ≤ R - 1 ∧
        ∀ a ∈ log, a.inBounds inLen 0 := by
  induction fuel with
  | zero =>
    intro s inp ip b hf _ hb
    rw [Traced.absorb, if_neg (by omega)]
    exact ⟨s, b, [], rfl, hb, fun a ha => by cases ha⟩
  | succ fuel ih =>
    intro s inp ip b hf hi hb
    rw [Traced.absorb]
    by_cases h : inp.length > 0
    · rw [if_pos h]
      dsimp only
      have hB1 : (if inp.length < R then inp.length else R) ≤ inp.length := by split <;> omega
      have hB2 : (if inp.length < R then inp.length else R) ≤ R := by split <;> omega
      have hB3 : 1 ≤ (if inp.length < R then inp.length else R) := by split <;> omega
      generalize (if inp.length < R then inp.length else R) = B at hB1 hB2 hB3 ⊢
      have hx := xorIn_log s inp ip B inLen (by omega) (by omega)
      have hd : (inp.drop B).length ≤ fuel := by rw [List.length_drop]; omega
      have hd2 : ip + B + (inp.drop B).length ≤ inLen := by rw [List.length_drop]; omega
      by_cases hb' : B = R
      · rw [if_pos hb']
        obtain ⟨s1, b1, log, e, hb1, hl⟩ :=
          ih (Traced.KeccakF1600 (Traced.xorIn s inp ip B).1).1 (inp.drop B) (ip + B) 0 hd hd2
            (Nat.zero_le _)
        rw [e]
        refine ⟨s1, b1, _, rfl, hb1, fun a ha => ?_⟩
        rcases List.mem_append.mp ha with ha | ha
        · rcases List.mem_append.mp ha with ha | ha
          · exact hx a ha
          · exact inBounds_le a 0 0 inLen 0 (Nat.zero_le _) (Nat.le_refl 0)
              (KeccakF1600_log _ a ha)
        · exact hl a ha
      · rw [if_neg hb']
        obtain ⟨s1, b1, log, e, hb1, hl⟩ :=
          ih (Traced.xorIn s inp ip B).1 (inp.drop B) (ip + B) B hd hd2 (by omega)
        rw [e]
        refine ⟨s1, b1, _, rfl, hb1, fun a ha => ?_⟩
        rcases List.mem_append.mp ha with ha | ha
        · exact hx a ha
        · exact hl a ha
    · rw [if_neg h]
      exact ⟨s, b, [], rfl, hb, fun a ha => by cases ha⟩

theorem pad_log (R sfx : Nat) (s : List Nat) (b : Nat) (hR : 1 ≤ R) (hR2 : R ≤ 200)
    (hb : b ≤ R - 1) : ∀ a ∈ (Traced.pad R sfx s b).2, a.inBounds 0 0 := by
  have hd : decU32 R = R - 1 := decU32_eq R hR hR2
  rw [Traced_pad_unfold R sfx s b _ _ _ _ rfl rfl rfl rfl, snd_mk]
  intro a ha
  simp only [List.mem_append] at ha
  rcases ha with ((ha | ha) | ha) | ha
  · exact state_inBounds b (by omega) a ha
  · by_cases c : sfx &&& 0x80 ≠ 0 ∧ b = decU32 R
    · rw [if_pos c] at ha
      exact KeccakF1600_log _ a ha
    · rw [if_neg c] at ha
      cases ha
  · exact state_inBounds (decU32 R) (by omega) a ha
  · exact KeccakF1600_log _ a ha

theorem squeeze_log (R : Nat) (hR : 1 ≤ R) (hR2 : R ≤ 200) (fuel : Nat) :
    ∀ (s : List Nat) (outLen op : Nat) (out : List Nat), outLen ≤ fuel →
      ∃ out1 log, Traced.squeeze R fuel s outLen op out = some (out1, log) ∧
        out1.length = out.length + outLen ∧ (∀ a ∈ log, a.inBounds 0 (op + outLen)) ∧
        Traced.outputIndices log = List.range' op outLen := by
  induction fuel with
  | zero =>
    intro s outLen op out hf
    have h0 : outLen = 0 := Nat.le_zero.mp hf
    subst h0
    rw [Traced.squeeze, if_neg (Nat.lt_irrefl 0)]
    exact ⟨out, [], rfl, rfl, fun a ha => absurd ha (List.not_mem_nil a), rfl⟩
  | succ fuel ih =>
    intro s outLen op out hf
    rw [Traced.squeeze]
    by_cases h : outLen > 0
    · rw [if_pos h]
      dsimp only
      have hB1 : (if outLen < R then outLen else R) ≤ outLen := by split <;> omega
      have hB2 : (if outLen < R then outLen else R) ≤ R := by split <;> omega
      have hB3 : 1 ≤ (if outLen < R then outLen else R) := by split <;> omega
      generalize (if outLen < R then outLen else R) = B at hB1 hB2 hB3 ⊢
      obtain ⟨c1, c2, c3⟩ := copyT_log s op out B (by omega)
      have hrange : List.range' op outLen = List.range' op B ++ List.range' (op + B) (outLen - B) := by
        rw [List.range'_append_1, Nat.sub_add_cancel hB1]
      by_cases hm : outLen - B > 0
      · rw [if_pos hm]
        obtain ⟨out1, log, e, h1, h2, h3⟩ := ih (Traced.KeccakF1600 s).1 (outLen - B) (op + B)
          (Traced.forLoopT B (fun i out =>
            (out ++ [s.getD i 0], [Traced.Access.state i, Traced.Access.output (op + i)])) out).1
          (by omega)
        rw [e]
        refine ⟨out1, _, rfl, ?_, ?_, ?_⟩
        · rw [h1, c1]
          omega
        · intro a ha
          rcases List.mem_append.mp ha with ha | ha
          · rcases List.mem_append.mp ha with ha | ha
            · exact inBounds_le a 0 (op + B) 0 (op + outLen) (Nat.le_refl 0) (by omega) (c2 a ha)
            · exact inBounds_le a 0 0 0 (op + outLen) (Nat.le_refl 0) (Nat.zero_le _)
                (KeccakF1600_log _ a ha)
          · exact inBounds_le a 0 (op + B + (outLen - B)) 0 (op + outLen) (Nat.le_refl 0)
              (by omega) (h2 a ha)
        · rw [outputIndices_append, outputIndices_append, c3, h3,
            outputIndices_nil 0 _ (KeccakF1600_log s), List.append_nil, hrange]
      · rw [if_neg hm]
        obtain ⟨out1, log, e, h1, h2, h3⟩ := ih s (outLen - B) (op + B)
          (Traced.forLoopT B (fun i out =>
            (out ++ [s.getD i 0], [Traced.Access.state i, Traced.Access.output (op + i)])) out).1
          (by omega)
        rw [e]
        refine ⟨out1, _, rfl, ?_, ?_, ?_⟩
        · rw [h1, c1]
          omega
        · intro a ha
          rcases List.mem_append.mp ha with ha | ha
          · exact inBounds_le a 0 (op + B) 0 (op + outLen) (Nat.le_refl 0) (by omega) (c2 a ha)
          · exact inBounds_le a 0 (op + B + (outLen - B)) 0 (op + outLen) (Nat.le_refl 0)
              (by omega) (h2 a ha)
        · rw [outputIndices_append, c3, h3, hrange]
    · rw [if_neg h]
      have h0 : outLen = 0 := by omega
      subst h0
      exact ⟨out, [], rfl, rfl, fun a ha => absurd ha (List.not_mem_nil a), rfl⟩

/-- The instrumented routine returns, and its log is in bounds and writes the output bytes
`0, ..., L - 1` in this order. -/
theorem Keccak_log (r c : Nat) (M : List Nat) (sfx L : Nat) (hR : 1 ≤ r / 8)
    (hR2 : r / 8 ≤ 200) :
    ∃ out log, Traced.Keccak r c M sfx L = some (out, log) ∧ out.length = L ∧
      (∀ a ∈ log, a.inBounds M.length L) ∧ Traced.outputIndices log = List.range L := by
  unfold Traced.Keccak
  dsimp only
  obtain ⟨s1, b1, l1, e1, hb1, hl1⟩ := absorb_log (r / 8) M.length hR hR2 M.length
    (Traced.forLoopT 200 (fun i (s : List Nat) => (s.set i 0, [Traced.Access.state i]))
      (List.replicate 200 0)).1 M 0 0 (Nat.le_refl _) (by omega) (Nat.zero_le _)
  rw [e1]
  dsimp only
  obtain ⟨out, l2, e2, h1, h2, h3⟩ := squeeze_log (r / 8) hR hR2 L
    (Traced.pad (r / 8) sfx s1 b1).1 L 0 [] (Nat.le_refl _)
  rw [e2]
  have hp := pad_log (r / 8) sfx s1 b1 hR hR2 hb1
  refine ⟨out, _, rfl, ?_, ?_, ?_⟩
  · rw [h1]
    exact Nat.zero_add L
  · intro a ha
    simp only [List.mem_append] at ha
    rcases ha with ((ha | ha) | ha) | ha
    · exact inBounds_le a 0 0 _ _ (Nat.zero_le _) (Nat.zero_le _) (initT_log a ha)
    · exact inBounds_le a _ 0 _ _ (Nat.le_refl _) (Nat.zero_le _) (hl1 a ha)
    · exact inBounds_le a 0 0 _ _ (Nat.zero_le _) (Nat.zero_le _) (hp a ha)
    · exact inBounds_le a 0 (0 + L) _ _ (Nat.zero_le _) (by omega) (h2 a ha)
  · rw [outputIndices_append, outputIndices_append, outputIndices_append, h3,
      outputIndices_nil 0 _ initT_log, outputIndices_nil M.length _ hl1,
      outputIndices_nil 0 _ hp, List.nil_append, List.nil_append, List.nil_append,
      List.range_eq_range']

/-- The instrumented routine and `Keccak` return the same output, of the requested length, and
the log of the run is in bounds and writes each output byte once. -/
theorem Keccak_traced (r c : Nat) (M : List Nat) (sfx L : Nat) (hR : 1 ≤ r / 8)
    (hR2 : r / 8 ≤ 200) :
    ∃ out log, Traced.Keccak r c M sfx L = some (out, log) ∧ Keccak r c M sfx L = some out ∧
      out.length = L ∧ (∀ a ∈ log, a.inBounds M.length L) ∧
      Traced.outputIndices log = List.range L := by
  obtain ⟨out, log, e, h1, h2, h3⟩ := Keccak_log r c M sfx L hR hR2
  have h := Keccak_fst r c M sfx L
  rw [e] at h
  exact ⟨out, log, e, h.symm, h1, h2, h3⟩

/-- C5: for every message the four digests write exactly 28, 32, 48 and 64 output bytes and the
two XOFs exactly `outLen` bytes: in the instrumented run the writes to the output are those of
the indices `0, ..., outLen - 1`, each once, and the returned buffer has that length. -/
theorem C5_output_bytes_written_once (M : List Nat) (outLen : Nat) :
    (∃ out log, Traced.FIPS202_SHA3_224 M = some (out, log) ∧ FIPS202_SHA3_224 M = some out ∧
      out.length = 28 ∧ Traced.outputIndices log = List.range 28) ∧
    (∃ out log, Traced.FIPS202_SHA3_256 M = some (out, log) ∧ FIPS202_SHA3_256 M = some out ∧
      out.length = 32 ∧ Traced.outputIndices log = List.range 32) ∧
    (∃ out log, Traced.FIPS202_SHA3_384 M = some (out, log) ∧ FIPS202_SHA3_384 M = some out ∧
      out.length = 48 ∧ Traced.outputIndices log = List.range 48) ∧
    (∃ out log, Traced.FIPS202_SHA3_512 M = some (out, log) ∧ FIPS202_SHA3_512 M = some out ∧
      out.length = 64 ∧ Traced.outputIndices log = List.range 64) ∧
    (∃ out log, Traced.FIPS202_SHAKE128 M outLen = some (out, log) ∧
      FIPS202_SHAKE128 M outLen = some out ∧
      out.length = outLen ∧ Traced.outputIndices log = List.range outLen) ∧
    (∃ out log, Traced.FIPS202_SHAKE256 M outLen = some (out, log) ∧
      FIPS202_SHAKE256 M outLen = some out ∧
      out.length = outLen ∧ Traced.outputIndices log = List.range outLen) := by
  refine ⟨?_, ?_, ?_, ?_, ?_, ?_⟩
  · unfold Traced.FIPS202_SHA3_224 FIPS202_SHA3_224
    obtain ⟨out, log, e1, e2, h1, _, h3⟩ :=
      Keccak_traced 1152 448 M 0x06 28 (by decide) (by decide)
    exact ⟨out, log, e1, e2, h1, h3⟩
  · unfold Traced.FIPS202_SHA3_256 FIPS202_SHA3_256
    obtain ⟨out, log, e1, e2, h1, _, h3⟩ :=
      Keccak_traced 1088 512 M 0x06 32 (by decide) (by decide)
    exact ⟨out, log, e1, e2, h1, h3⟩
  · unfold Traced.FIPS202_SHA3_384 FIPS202_SHA3_384
    obtain ⟨out, log, e1, e2, h1, _, h3⟩ :=
      Keccak_traced 832 768 M 0x06 48 (by decide) (by decide)
    exact ⟨out, log, e1, e2, h1, h3⟩
  · unfold Traced.FIPS202_SHA3_512 FIPS202_SHA3_512
    obtain ⟨out, log, e1, e2, h1, _, h3⟩ :=
      Keccak_traced 576 1024 M 0x06 64 (by decide) (by decide)
    exact ⟨out, log, e1, e2, h1, h3⟩
  · unfold Traced.FIPS202_SHAKE128 FIPS202_SHAKE128
    obtain ⟨out, log, e1, e2, h1, _, h3⟩ :=
      Keccak_traced 1344 256 M 0x1F outLen (by decide) (by decide)
    exact ⟨out, log, e1, e2, h1, h3⟩
  · unfold Traced.FIPS202_SHAKE256 FIPS202_SHAKE256
    obtain ⟨out, log, e1, e2, h1, _, h3⟩ :=
      Keccak_traced 1088 512 M 0x1F outLen (by decide) (by decide)
    exact ⟨out, log, e1, e2, h1, h3⟩

/-- C10: for every rate with `1 ≤ r / 8 ≤ 200`, every message, suffix and output length, the
instrumented `Keccak` returns the output of `Keccak` and every access of its run is in bounds:
state bytes below 200, message bytes below `inLen`, output bytes below `outLen`. The accesses
of `KeccakF1600` alone are state bytes below 200 for every state, and the absorb loop ends with
`b ≤ R - 1`. -/
theorem C10_accesses_in_bounds (r c : Nat) (M : List Nat) (sfx L : Nat) (hR : 1 ≤ r / 8)
    (hR2 : r / 8 ≤ 200) :
    (∃ out log, Traced.Keccak r c M sfx L = some (out, log) ∧ Keccak r c M sfx L = some out ∧
      ∀ a ∈ log, a.inBounds M.length L) ∧
    (∀ s : List Nat, (Traced.KeccakF1600 s).1 = KeccakF1600 s ∧
      ∀ a ∈ (Traced.KeccakF1600 s).2, a.inBounds 0 0) ∧
    (∀ (s0 s : List Nat) (b : Nat) (log : List Traced.Access),
      Traced.absorb (r / 8) M.length s0 M 0 0 = some ((s, b), log) → b ≤ r / 8 - 1) := by
  refine ⟨?_, fun s => ⟨KeccakF1600_fst s, KeccakF1600_log s⟩, ?_⟩
  · obtain ⟨out, log, e1, e2, _, h2, _⟩ := Keccak_traced r c M sfx L hR hR2
    exact ⟨out, log, e1, e2, h2⟩
  · intro s0 s b log e
    obtain ⟨s1, b1, l1, e1, hb1, _⟩ := absorb_log (r / 8) M.length hR hR2 M.length s0 M 0 0
      (Nat.le_refl _) (by omega) (Nat.zero_le _)
    rw [e1] at e
    injection e with e
    injection e with e _
    injection e with _ e
    rw [← e]
    exact hb1

theorem C10_accesses_in_bounds_witness :
    1 ≤ 1088 / 8 ∧ 1088 / 8 ≤ 200 ∧
    ((∃ out log, Traced.Keccak 1088 512 [0x61, 0x62, 0x63] 0x06 32 = some (out, log) ∧
        Keccak 1088 512 [0x61, 0x62, 0x63] 0x06 32 = some out ∧
        ∀ a ∈ log, a.inBounds [0x61, 0x62, 0x63].length 32) ∧
      (∀ s : List Nat, (Traced.KeccakF1600 s).1 = KeccakF1600 s ∧
        ∀ a ∈ (Traced.KeccakF1600 s).2, a.inBounds 0 0) ∧
      (∀ (s0 s : List Nat) (b : Nat) (log : List Traced.Access),
        Traced.absorb (1088 / 8) [0x61, 0x62, 0x63].length s0 [0x61, 0x62, 0x63] 0 0
          = some ((s, b), log) → b ≤ 1088 / 8 - 1)) :=
  ⟨by decide, by decide, C10_accesses_in_bounds 1088 512 [0x61, 0x62, 0x63] 0x06 32
    (by decide) (by decide)⟩

end Sha3

namespace ChaCha20

open Sha3 (getD_set ext_getD forLoop bytes_getD)

/-! ## ChaCha20: the loop of `ChaCha20_xor` -/

theorem nextBlock_fresh (c : ChaCha20_Ctx) (h0 : c.idx % 64 = 0) (hl : 12 < c.state.length)
    (hw : c.state.getD 12 0 + 1 < 2 ^ 32) :
    nextBlock c = some { state := c.state.set 12 (c.state.getD 12 0 + 1),
                         keystream := ChaCha20_block_next c.state, idx := 0 } := by
  have e : (c.state.set 12 (c.state.getD 12 0 + 1)).getD 12 0 = c.state.getD 12 0 + 1 := by
    rw [getD_set]
    exact if_pos ⟨rfl, hl⟩
  unfold nextBlock
  rw [if_pos h0]
  dsimp only
  rw [Nat.mod_eq_of_lt hw, e, if_neg (Nat.succ_ne_zero _)]

theorem nextBlock_keep (c : ChaCha20_Ctx) (h0 : c.idx % 64 ≠ 0) : nextBlock c = some c := by
  unfold nextBlock
  rw [if_neg h0]

theorem xorLoop_succ (n : Nat) (p q : ChaCha20_Ctx × List Nat) (h : xorLoop n p = some q) :
    xorLoop (n + 1) p = xorByte n q := by
  rw [xorLoop, h]

theorem xorLoop_succ_none (n : Nat) (p : ChaCha20_Ctx × List Nat) (h : xorLoop n p = none) :
    xorLoop (n + 1) p = none := by
  rw [xorLoop, h]

theorem xorByte_some (i : Nat) (p : ChaCha20_Ctx × List Nat) (c : ChaCha20_Ctx)
    (h : nextBlock p.1 = some c) :
    xorByte i p = some ({ c with idx := (c.idx + 1) % 2 ^ 32 },
      p.2.set i (p.2.getD i 0 ^^^ keystreamByte c.keystream c.idx)) := by
  unfold xorByte
  rw [h]

theorem xorByte_none (i : Nat) (p : ChaCha20_Ctx × List Nat) (h : nextBlock p.1 = none) :
    xorByte i p = none := by
  unfold xorByte
  rw [h]

theorem xorByte_length (i : Nat) (p q : ChaCha20_Ctx × List Nat) (h : xorByte i p = some q) :
    q.2.length = p.2.length := by
  cases e : nextBlock p.1 with
  | none =>
    rw [xorByte_none i p e] at h
    cases h
  | some c =>
    rw [xorByte_some i p c e] at h
    injection h with h
    rw [← h]
    exact List.length_set _ _ _

theorem xorLoop_length (n : Nat) (p : ChaCha20_Ctx × List Nat) :
    ∀ q, xorLoop n p = some q → q.2.length = p.2.length := by
  induction n with
  | zero =>
    intro q h
    injection h with h
    rw [h]
  | succ n ih =>
    intro q h
    cases e : xorLoop n p with
    | none =>
      rw [xorLoop_succ_none n p e] at h
      cases h
    | some r =>
      rw [xorLoop_succ n p r e] at h
      rw [xorByte_length n r q h, ih r e]

theorem getD_append_left (A B : List Nat) (i : Nat) (h : i < A.length) :
    (A ++ B).getD i 0 = A.getD i 0 := by
  rw [List.getD_eq_getElem?_getD, List.getD_eq_getElem?_getD, List.getElem?_append_left h]

theorem getD_append_right (A B : List Nat) (m : Nat) :
    (A ++ B).getD (A.length + m) 0 = B.getD m 0 := by
  rw [List.getD_eq_getElem?_getD, List.getD_eq_getElem?_getD,
    List.getElem?_append_right (Nat.le_add_right _ _), Nat.add_sub_cancel_left]

theorem set_append_left' (A B : List Nat) (i v : Nat) (h : i < A.length) :
    (A ++ B).set i v = A.set i v ++ B := by
  rw [List.set_append, if_pos h]

theorem set_append_right' (A B : List Nat) (m v : Nat) :
    (A ++ B).set (A.length + m) v = A ++ B.set m v := by
  rw [List.set_append, if_neg (by omega), Nat.add_sub_cancel_left]

theorem xorByte_append_left (i : Nat) (c : ChaCha20_Ctx) (A B : List Nat) (h : i < A.length) :
    xorByte i (c, A ++ B) = (xorByte i (c, A)).map (fun q => (q.1, q.2 ++ B)) := by
  cases e : nextBlock c with
  | none =>
    rw [xorByte_none i (c, A ++ B) e, xorByte_none i (c, A) e]
    rfl
  | some d =>
    rw [xorByte_some i (c, A ++ B) d e, xorByte_some i (c, A) d e]
    show some (_, (A ++ B).set i ((A ++ B).getD i 0 ^^^ _)) = some (_, A.set i _ ++ B)
    rw [getD_append_left A B i h, set_append_left' A B i _ h]

theorem xorByte_append_right (m : Nat) (c : ChaCha20_Ctx) (A B : List Nat) :
    xorByte (A.length + m) (c, A ++ B) = (xorByte m (c, B)).map (fun q => (q.1, A ++ q.2)) := by
  cases e : nextBlock c with
  | none =>
    rw [xorByte_none _ (c, A ++ B) e, xorByte_none m (c, B) e]
    rfl
  | some d =>
    rw [xorByte_some _ (c, A ++ B) d e, xorByte_some m (c, B) d e]
    show some (_, (A ++ B).set (A.length + m) ((A ++ B).getD (A.length + m) 0 ^^^ _))
      = some (_, A ++ B.set m _)
    rw [getD_append_right A B m, set_append_right' A B m]

theorem xorLoop_append_left (c : ChaCha20_Ctx) (A B : List Nat) (n : Nat) (hn : n ≤ A.length) :
    xorLoop n (c, A ++ B) = (xorLoop n (c, A)).map (fun q => (q.1, q.2 ++ B)) := by
  induction n with
  | zero => rfl
  | succ n ih =>
    have ih' := ih (Nat.le_of_succ_le hn)
    cases e : xorLoop n (c, A) with
    | none =>
      rw [e] at ih'
      rw [xorLoop_succ_none n _ e, xorLoop_succ_none n _ ih']
      rfl
    | some q =>
      rw [e] at ih'
      have hl := xorLoop_length n (c, A) q e
      rw [xorLoop_succ n _ q e, xorLoop_succ n _ _ ih']
      exact xorByte_append_left n q.1 q.2 B (by rw [hl]; exact hn)

theorem xorLoop_append_right (c : ChaCha20_Ctx) (A B : List Nat) (q : ChaCha20_Ctx × List Nat)
    (hq : xorLoop A.length (c, A) = some q) (m : Nat) :
    xorLoop (A.length + m) (c, A ++ B)
      = (xorLoop m (q.1, B)).map (fun r => (r.1, q.2 ++ r.2)) := by
  have hl := xorLoop_length A.length (c, A) q hq
  induction m with
  | zero =>
    rw [Nat.add_zero, xorLoop_append_left c A B A.length (Nat.le_refl _), hq]
    rfl
  | succ m ih =>
    cases e : xorLoop m (q.1, B) with
    | none =>
      rw [e] at ih
      rw [← Nat.add_assoc, xorLoop_succ_none _ _ ih, xorLoop_succ_none m _ e]
      rfl
    | some r =>
      rw [e] at ih
      rw [← Nat.add_assoc, xorLoop_succ _ _ _ ih, xorLoop_succ m _ r e]
      have := xorByte_append_right m r.1 q.2 r.2
      rw [hl] at this
      exact this

/-- Two calls on `A` and then on `B` are one call on `A ++ B`. -/
theorem xor_append (c : ChaCha20_Ctx) (A B : List Nat) :
    ChaCha20_xor c (A ++ B) =
      match ChaCha20_xor c A with
      | none => none
      | some q =>
        match ChaCha20_xor q.1 B with
        | none => none
        | some r => some (r.1, q.2 ++ r.2) := by
  unfold ChaCha20_xor
  rw [List.length_append]
  cases e : xorLoop A.length (c, A) with
  | none =>
    have h := xorLoop_append_left c A B A.length (Nat.le_refl _)
    rw [e] at h
    have h2 : ∀ m, xorLoop (A.length + m) (c, A ++ B) = none := by
      intro m
      induction m with
      | zero => exact h
      | succ m ih => exact xorLoop_succ_none _ _ ih
    rw [h2]
  | some q =>
    rw [xorLoop_append_right c A B q e]
    dsimp only
    cases xorLoop B.length (q.1, B) <;> rfl

theorem set_getD_self (l : List Nat) (i : Nat) : l.set i (l.getD i 0) = l := by
  apply ext_getD
  · exact List.length_set _ _ _
  · intro j _
    rw [getD_set]
    split
    · next h => rw [h.1]
    · rfl

/-- The run of the loop from a context with `idx = 0`, as long as the block counter does not
wrap: the context and the buffer after `n` iterations. -/
theorem xorLoop_fresh (c0 : ChaCha20_Ctx) (count : Nat) (B : List Nat) (hi : c0.idx = 0)
    (hl : 12 < c0.state.length) (hc : c0.state.getD 12 0 = count) (n : Nat)
    (hn : n ≤ B.length) (h : count + (n + 63) / 64 < 2 ^ 32) :
    ∃ c b, xorLoop n (c0, B) = some (c, b) ∧
      c.state = c0.state.set 12 (count + (n + 63) / 64) ∧
      c.idx = (if n = 0 then 0 else (n - 1) % 64 + 1) ∧
      (0 < n → c.keystream = ChaCha20_block_next (c0.state.set 12 (count + (n - 1) / 64))) ∧
      b.length = B.length ∧
      ∀ i, b.getD i 0 = if i < n then
        B.getD i 0 ^^^ keystreamByte (ChaCha20_block_next (c0.state.set 12 (count + i / 64)))
          (i % 64) else B.getD i 0 := by
  induction n with
  | zero =>
    refine ⟨c0, B, rfl, ?_, hi, fun h0 => absurd h0 (Nat.lt_irrefl 0), rfl, fun i => ?_⟩
    · have e : count + (0 + 63) / 64 = c0.state.getD 12 0 := by omega
      rw [e, set_getD_self]
    · rw [if_neg (Nat.not_lt_zero i)]
  | succ n ih =>
    obtain ⟨c, b, e, hs, hidx, hks, hlen, hb⟩ := ih (Nat.le_of_succ_le hn) (by omega)
    rw [xorLoop_succ n _ _ e]
    have hbn : b.getD n 0 = B.getD n 0 := by rw [hb n, if_neg (Nat.lt_irrefl n)]
    have hget : ∀ (v : Nat) (i : Nat), (b.set n v).getD i 0 = if i = n then v else b.getD i 0 := by
      intro v i
      rw [getD_set]
      by_cases hin : i = n
      · rw [if_pos hin, if_pos ⟨hin.symm, by omega⟩]
      · rw [if_neg hin, if_neg (fun hh => hin hh.1.symm)]
    by_cases hm : n % 64 = 0
    · have hidx0 : c.idx % 64 = 0 := by
        rw [hidx]
        split <;> omega
      have h12 : c.state.getD 12 0 = count + (n + 63) / 64 := by
        rw [hs, getD_set]
        exact if_pos ⟨rfl, hl⟩
      have hnb := nextBlock_fresh c hidx0 (by rw [hs, List.length_set]; exact hl)
        (by rw [h12]; omega)
      refine ⟨_, _, xorByte_some n (c, b) _ hnb, ?_, ?_, fun _ => ?_, ?_, fun i => ?_⟩
      · dsimp only
        have a1 : count + (n + 63) / 64 + 1 = count + (n + 1 + 63) / 64 := by omega
        rw [h12, hs, List.set_set, a1]
      · dsimp only
        rw [if_neg (Nat.succ_ne_zero n)]
        omega
      · dsimp only
        have a2 : (n + 63) / 64 = (n + 1 - 1) / 64 := by omega
        rw [hs, a2]
      · dsimp only
        rw [List.length_set, hlen]
      · dsimp only
        rw [hget, hbn, hs]
        by_cases hin : i = n
        · have a3 : (n + 63) / 64 = n / 64 := by omega
          rw [if_pos hin, if_pos (by omega), hin, hm, a3]
        · rw [if_neg hin, hb i]
          by_cases hlt : i < n
          · rw [if_pos hlt, if_pos (by omega)]
          · rw [if_neg hlt, if_neg (by omega)]
    · have hn0 : n ≠ 0 := fun h0 => hm (by rw [h0])
      have hidx1 : c.idx = n % 64 := by
        rw [hidx, if_neg hn0]
        omega
      have hnb := nextBlock_keep c (by rw [hidx1]; omega)
      refine ⟨_, _, xorByte_some n (c, b) _ hnb, ?_, ?_, fun _ => ?_, ?_, fun i => ?_⟩
      · dsimp only
        have a1 : (n + 63) / 64 = (n + 1 + 63) / 64 := by omega
        rw [hs, a1]
      · dsimp only
        rw [if_neg (Nat.succ_ne_zero n), hidx1]
        omega
      · dsimp only
        have a2 : (n - 1) / 64 = (n + 1 - 1) / 64 := by omega
        rw [hks (by omega), a2]
      · dsimp only
        rw [List.length_set, hlen]
      · dsimp only
        rw [hget, hbn, hks (by omega), hidx1]
        by_cases hin : i = n
        · have a3 : (n - 1) / 64 = n / 64 := by omega
          rw [if_pos hin, if_pos (by omega), hin, a3]
        · rw [if_neg hin, hb i]
          by_cases hlt : i < n
          · rw [if_pos hlt, if_pos (by omega)]
          · rw [if_neg hlt, if_neg (by omega)]

theorem leBytes_length (ws : List Nat) : (leBytes ws).length = 4 * ws.length := by
  induction ws with
  | nil => rfl
  | cons w ws ih =>
    rw [leBytes, List.length_cons, List.length_cons, List.length_cons, List.length_cons, ih,
      List.length_cons]
    omega

/-- The byte view of the keystream words is their little-endian serialisation. -/
theorem keystreamByte_eq (ws : List Nat) (k : Nat) :
    keystreamByte ws k = (leBytes ws).getD k 0 := by
  induction ws generalizing k with
  | nil =>
    unfold keystreamByte
    rw [leBytes, List.getD_nil, List.getD_nil, Nat.zero_shiftRight]
  | cons w ws ih =>
    by_cases hk : k < 4
    · unfold keystreamByte
      rw [leBytes, Nat.shiftRight_eq_div_pow]
      interval_cases k <;> simp
    · obtain ⟨j, rfl⟩ : ∃ j, k = j + 4 := ⟨k - 4, by omega⟩
      have e := ih j
      unfold keystreamByte at e ⊢
      rw [leBytes, List.getD_cons_succ, List.getD_cons_succ, List.getD_cons_succ,
        List.getD_cons_succ, ← e]
      have h1 : (j + 4) / 4 = j / 4 + 1 := by omega
      have h2 : (j + 4) % 4 = j % 4 := by omega
      rw [h1, h2, List.getD_cons_succ]

theorem shl_byte (a k : Nat) (ha : a < 256) (hk : k ≤ 24) :
    (a <<< k) % 2 ^ 32 = a * 2 ^ k := by
  rw [Nat.shiftLeft_eq]
  apply Nat.mod_eq_of_lt
  calc a * 2 ^ k ≤ a * 2 ^ 24 := Nat.mul_le_mul_left a (Nat.pow_le_pow_right (by decide) hk)
    _ < 2 ^ 32 := by omega

/-- On bytes, `pack4` is the little-endian word. -/
theorem pack4_eq (a : List Nat) (i : Nat) (h : ∀ j, a.getD j 0 < 256) :
    pack4 a (i * 4) = leWord a i := by
  have h0 : a.getD (4 * i) 0 < 2 ^ 8 := h (4 * i)
  have h1 := h (4 * i + 1)
  have h2 := h (4 * i + 2)
  have h3 := h (4 * i + 3)
  unfold pack4 leWord
  rw [Nat.mul_comm i 4, shl_byte _ _ h0 (by decide), shl_byte _ _ h1 (by decide),
    shl_byte _ _ h2 (by decide), shl_byte _ _ h3 (by decide)]
  generalize a.getD (4 * i) 0 = b0 at h0 ⊢
  generalize a.getD (4 * i + 1) 0 = b1 at h1 ⊢
  generalize a.getD (4 * i + 2) 0 = b2 at h2 ⊢
  generalize a.getD (4 * i + 3) 0 = b3 at h3 ⊢
  have e1 : b0 * 2 ^ (0 * 8) ||| b1 * 2 ^ (1 * 8) = 2 ^ 8 * b1 + b0 := by
    rw [Nat.mul_add_lt_is_or (h0 : b0 < 2 ^ 8), Nat.lor_comm]
    norm_num
    rw [Nat.mul_comm]
  have e2 : (2 ^ 8 * b1 + b0) ||| b2 * 2 ^ (2 * 8) = 2 ^ 16 * b2 + (2 ^ 8 * b1 + b0) := by
    rw [Nat.mul_add_lt_is_or (show 2 ^ 8 * b1 + b0 < 2 ^ 16 by norm_num; omega), Nat.lor_comm]
    norm_num
    rw [Nat.mul_comm]
  have e3 : (2 ^ 16 * b2 + (2 ^ 8 * b1 + b0)) ||| b3 * 2 ^ (3 * 8)
      = 2 ^ 24 * b3 + (2 ^ 16 * b2 + (2 ^ 8 * b1 + b0)) := by
    rw [Nat.mul_add_lt_is_or (show 2 ^ 16 * b2 + (2 ^ 8 * b1 + b0) < 2 ^ 24 by norm_num; omega),
      Nat.lor_comm]
    norm_num
    rw [Nat.mul_comm]
  rw [e1, e2, e3]
  omega

/-- The call on a context initialised by `ChaCha20_init`, as long as the block counter does not
wrap. -/
theorem xor_init (ctx0 : ChaCha20_Ctx) (key nonce : List Nat) (count : Nat) (B : List Nat)
    (h : count + (B.length + 63) / 64 < 2 ^ 32) :
    ∃ ctx1 B1, ChaCha20_xor (ChaCha20_init ctx0 key nonce count) B = some (ctx1, B1) ∧
      B1.length = B.length ∧
      (∀ i, i < B.length → B1.getD i 0 = B.getD i 0 ^^^
        (leBytes (ChaCha20_block_next
          ((ChaCha20_init ctx0 key nonce count).state.set 12 (count + i / 64)))).getD
            (i % 64) 0) ∧
      ctx1.state
        = (ChaCha20_init ctx0 key nonce count).state.set 12 (count + (B.length + 63) / 64) := by
  obtain ⟨c, b, e, hs, _, _, hlen, hb⟩ :=
    xorLoop_fresh (ChaCha20_init ctx0 key nonce count) count B rfl (by decide : 12 < 16) rfl
      B.length
      (Nat.le_refl _) h
  refine ⟨c, b, e, hlen, fun i hi => ?_, hs⟩
  rw [hb i, if_pos hi, keystreamByte_eq]

/-- The state words set by `ChaCha20_init` do not depend on the context passed in. -/
theorem init_state_indep (ctx0 ctx1 : ChaCha20_Ctx) (key nonce : List Nat) (count : Nat) :
    (ChaCha20_init ctx0 key nonce count).state = (ChaCha20_init ctx1 key nonce count).state :=
  rfl

/-- C11: for a context initialised by `ChaCha20_init` and a buffer `B` with
`count + ceil(|B| / 64) < 2 ^ 32`, `ChaCha20_xor` returns the buffer with every byte `B[i]`
replaced by `B[i] XOR K[i]`, where `K[i]` is byte `i mod 64` of the little-endian serialisation
of the words `ChaCha20_block_next` produces from the initial state with word 12 set to
`count + floor(i / 64)`; the block counter is advanced by one per block. -/
theorem C11_xor_is_keystream_xor (ctx0 : ChaCha20_Ctx) (key nonce : List Nat) (count : Nat)
    (B : List Nat) (h : count + (B.length + 63) / 64 < 2 ^ 32) :
    ∃ ctx1 B1, ChaCha20_xor (ChaCha20_init ctx0 key nonce count) B = some (ctx1, B1) ∧
      B1.length = B.length ∧
      (∀ i, i < B.length → B1.getD i 0 = B.getD i 0 ^^^
        (leBytes (ChaCha20_block_next
          ((ChaCha20_init ctx0 key nonce count).state.set 12 (count + i / 64)))).getD
            (i % 64) 0) ∧
      ctx1.state
        = (ChaCha20_init ctx0 key nonce count).state.set 12 (count + (B.length + 63) / 64) :=
  xor_init ctx0 key nonce count B h

theorem C11_xor_is_keystream_xor_witness :
    1 + ([0x4c, 0x61, 0x64].length + 63) / 64 < 2 ^ 32 ∧
    ∃ ctx1 B1, ChaCha20_xor (ChaCha20_init ⟨[], [], 0⟩ (List.range 32)
        [0, 0, 0, 0, 0, 0, 0, 0x4a, 0, 0, 0, 0] 1) [0x4c, 0x61, 0x64] = some (ctx1, B1) ∧
      B1.length = [0x4c, 0x61, 0x64].length ∧
      (∀ i, i < [0x4c, 0x61, 0x64].length → B1.getD i 0 = [0x4c, 0x61, 0x64].getD i 0 ^^^
        (leBytes (ChaCha20_block_next
          ((ChaCha20_init ⟨[], [], 0⟩ (List.range 32)
            [0, 0, 0, 0, 0, 0, 0, 0x4a, 0, 0, 0, 0] 1).state.set 12 (1 + i / 64)))).getD
            (i % 64) 0) ∧
      ctx1.state
        = (ChaCha20_init ⟨[], [], 0⟩ (List.range 32)
            [0, 0, 0, 0, 0, 0, 0, 0x4a, 0, 0, 0, 0] 1).state.set 12
              (1 + ([0x4c, 0x61, 0x64].length + 63) / 64) :=
  ⟨by decide, C11_xor_is_keystream_xor ⟨[], [], 0⟩ (List.range 32)
    [0, 0, 0, 0, 0, 0, 0, 0x4a, 0, 0, 0, 0] 1 [0x4c, 0x61, 0x64] (by decide)⟩

/-- C12: encryption and decryption are the same operation: with
`count + ceil(|B| / 64) < 2 ^ 32`, `ChaCha20_xor` on `B` with a context initialised by
`ChaCha20_init(key, nonce, count)`, followed by `ChaCha20_xor` on the result with a second
context initialised with the same key, nonce and count, gives back `B`. -/
theorem C12_xor_twice_is_identity (ctx0 ctx0' : ChaCha20_Ctx) (key nonce : List Nat)
    (count : Nat) (B : List Nat) (h : count + (B.length + 63) / 64 < 2 ^ 32) :
    ∃ ctx1 B1, ChaCha20_xor (ChaCha20_init ctx0 key nonce count) B = some (ctx1, B1) ∧
      ∃ ctx2, ChaCha20_xor (ChaCha20_init ctx0' key nonce count) B1 = some (ctx2, B) := by
  obtain ⟨ctx1, B1, e1, hl1, hb1, _⟩ := xor_init ctx0 key nonce count B h
  obtain ⟨ctx2, B2, e2, hl2, hb2, _⟩ := xor_init ctx0' key nonce count B1 (by rw [hl1]; exact h)
  have hB : B2 = B := by
    apply ext_getD
    · rw [hl2, hl1]
    · intro i hi
      rw [hl2] at hi
      rw [hb2 i hi, hb1 i (by rw [← hl1]; exact hi),
        init_state_indep ctx0' ctx0 key nonce count, Nat.xor_assoc, Nat.xor_self,
        Nat.xor_zero]
  rw [hB] at e2
  exact ⟨ctx1, B1, e1, ctx2, e2⟩

theorem C12_xor_twice_is_identity_witness :
    7 + ((List.replicate 100 0x55).length + 63) / 64 < 2 ^ 32 ∧
    ∃ ctx1 B1, ChaCha20_xor (ChaCha20_init ⟨[], [], 0⟩ (List.range 32)
        (List.replicate 12 9) 7) (List.replicate 100 0x55) = some (ctx1, B1) ∧
      ∃ ctx2, ChaCha20_xor (ChaCha20_init ⟨[1], [2], 3⟩ (List.range 32)
        (List.replicate 12 9) 7) B1 = some (ctx2, List.replicate 100 0x55) :=
  ⟨by decide, C12_xor_twice_is_identity ⟨[], [], 0⟩ ⟨[1], [2], 3⟩ (List.range 32)
    (List.replicate 12 9) 7 (List.replicate 100 0x55) (by decide)⟩

/-- C13: for every context and all buffers `A` and `B` where the length of `A` is a multiple
of 64, `ChaCha20_xor` on `A` and then on `B` with the same context yields the same output bytes
and the same final context as one call on `A ++ B`. -/
theorem C13_split_at_block_multiple (ctx : ChaCha20_Ctx) (A B : List Nat)
    (_hA : A.length % 64 = 0) :
    ChaCha20_xor ctx (A ++ B) =
      match ChaCha20_xor ctx A with
      | none => none
      | some q =>
        match ChaCha20_xor q.1 B with
        | none => none
        | some r => some (r.1, q.2 ++ r.2) :=
  xor_append ctx A B

theorem C13_split_at_block_multiple_witness :
    (List.replicate 128 0x41).length % 64 = 0 ∧
    ChaCha20_xor (ChaCha20_init ⟨[], [], 0⟩ (List.range 32) (List.replicate 12 9) 0)
        (List.replicate 128 0x41 ++ [1, 2, 3]) =
      match ChaCha20_xor (ChaCha20_init ⟨[], [], 0⟩ (List.range 32) (List.replicate 12 9) 0)
          (List.replicate 128 0x41) with
      | none => none
      | some q =>
        match ChaCha20_xor q.1 [1, 2, 3] with
        | none => none
        | some r => some (r.1, q.2 ++ r.2) :=
  ⟨by simp, C13_split_at_block_multiple
    (ChaCha20_init ⟨[], [], 0⟩ (List.range 32) (List.replicate 12 9) 0)
    (List.replicate 128 0x41) [1, 2, 3] (by simp)⟩

/-- C14: the block count can be set to 0: with `count = 0`, any key and nonce and a buffer of
at most `64 * (2 ^ 32 - 1)` bytes, the call returns (the assertion is not violated), and after
every number `n` of iterations of its loop `state[12]` is `ceil(n / 64)`, which is not 0 once a
byte has been processed, and `state[13]` is the word `ChaCha20_init` stored. -/
theorem C14_count_zero_is_safe (ctx0 : ChaCha20_Ctx) (key nonce : List Nat) (B : List Nat)
    (hB : B.length ≤ 64 * (2 ^ 32 - 1)) :
    (∃ ctx1 B1, ChaCha20_xor (ChaCha20_init ctx0 key nonce 0) B = some (ctx1, B1)) ∧
    ∀ n, n ≤ B.length → ∃ c b, xorLoop n (ChaCha20_init ctx0 key nonce 0, B) = some (c, b) ∧
      c.state.getD 12 0 = (n + 63) / 64 ∧ (0 < n → c.state.getD 12 0 ≠ 0) ∧
      c.state.getD 13 0 = (ChaCha20_init ctx0 key nonce 0).state.getD 13 0 := by
  have hB' : B.length ≤ 274877906880 := hB
  have key_fact : ∀ n, n ≤ B.length →
      ∃ c b, xorLoop n (ChaCha20_init ctx0 key nonce 0, B) = some (c, b) ∧
      c.state.getD 12 0 = (n + 63) / 64 ∧ (0 < n → c.state.getD 12 0 ≠ 0) ∧
      c.state.getD 13 0 = (ChaCha20_init ctx0 key nonce 0).state.getD 13 0 := by
    intro n hn
    have hw : 0 + (n + 63) / 64 < 2 ^ 32 := by
      have : (n + 63) / 64 < 4294967296 := by omega
      rw [Nat.zero_add]
      exact this
    obtain ⟨c, b, e, hs, _, _, _, _⟩ :=
      xorLoop_fresh (ChaCha20_init ctx0 key nonce 0) 0 B rfl (by decide : 12 < 16) rfl n hn hw
    have h12 : c.state.getD 12 0 = (n + 63) / 64 := by
      rw [hs, getD_set, if_pos ⟨rfl, (by decide : 12 < 16)⟩, Nat.zero_add]
    refine ⟨c, b, e, h12, fun h0 => ?_, ?_⟩
    · rw [h12]
      omega
    · rw [hs, getD_set, if_neg (fun hh => absurd hh.1 (by decide))]
  refine ⟨?_, key_fact⟩
  obtain ⟨c, b, e, _⟩ := key_fact B.length (Nat.le_refl _)
  exact ⟨c, b, e⟩

theorem C14_count_zero_is_safe_witness :
    (List.replicate 130 0x41).length ≤ 64 * (2 ^ 32 - 1) ∧
    ((∃ ctx1 B1, ChaCha20_xor (ChaCha20_init ⟨[], [], 0⟩ (List.range 32)
        (List.replicate 12 0xff) 0) (List.replicate 130 0x41) = some (ctx1, B1)) ∧
    ∀ n, n ≤ (List.replicate 130 0x41).length →
      ∃ c b, xorLoop n (ChaCha20_init ⟨[], [], 0⟩ (List.range 32) (List.replicate 12 0xff) 0,
          List.replicate 130 0x41) = some (c, b) ∧
      c.state.getD 12 0 = (n + 63) / 64 ∧ (0 < n → c.state.getD 12 0 ≠ 0) ∧
      c.state.getD 13 0 = (ChaCha20_init ⟨[], [], 0⟩ (List.range 32)
        (List.replicate 12 0xff) 0).state.getD 13 0) :=
  ⟨by simp, C14_count_zero_is_safe ⟨[], [], 0⟩ (List.range 32) (List.replicate 12 0xff)
    (List.replicate 130 0x41) (by simp)⟩

/-- C15: for every key and nonce (of bytes) and every count, `ChaCha20_init` sets `state[0..3]`
to `0x61707865, 0x3320646e, 0x79622d32, 0x6b206574`, `state[4 + i]` to the little-endian word
`key[4i..4i+3]` for `i = 0..7`, `state[12]` to `count`, `state[13 + i]` to the little-endian
word `nonce[4i..4i+3]` for `i = 0..2`, and `idx` to 0. -/
theorem C15_init_state (ctx : ChaCha20_Ctx) (key nonce : List Nat) (count : Nat)
    (hk : ∀ b ∈ key, b < 256) (hn : ∀ b ∈ nonce, b < 256) :
    (ChaCha20_init ctx key nonce count).state
      = [0x61707865, 0x3320646e, 0x79622d32, 0x6b206574,
         leWord key 0, leWord key 1, leWord key 2, leWord key 3,
         leWord key 4, leWord key 5, leWord key 6, leWord key 7,
         count, leWord nonce 0, leWord nonce 1, leWord nonce 2] ∧
    (ChaCha20_init ctx key nonce count).idx = 0 := by
  have hc : ∀ b ∈ CHACHA20_CONSTANT, b < 256 := by decide
  have c0 : leWord CHACHA20_CONSTANT 0 = 0x61707865 := by decide
  have c1 : leWord CHACHA20_CONSTANT 1 = 0x3320646e := by decide
  have c2 : leWord CHACHA20_CONSTANT 2 = 0x79622d32 := by decide
  have c3 : leWord CHACHA20_CONSTANT 3 = 0x6b206574 := by decide
  refine ⟨?_, rfl⟩
  unfold ChaCha20_init
  dsimp only
  rw [pack4_eq _ 0 (bytes_getD _ hc), pack4_eq _ 1 (bytes_getD _ hc),
    pack4_eq _ 2 (bytes_getD _ hc), pack4_eq _ 3 (bytes_getD _ hc),
    pack4_eq _ 0 (bytes_getD _ hk), pack4_eq _ 1 (bytes_getD _ hk),
    pack4_eq _ 2 (bytes_getD _ hk), pack4_eq _ 3 (bytes_getD _ hk),
    pack4_eq _ 4 (bytes_getD _ hk), pack4_eq _ 5 (bytes_getD _ hk),
    pack4_eq _ 6 (bytes_getD _ hk), pack4_eq _ 7 (bytes_getD _ hk),
    pack4_eq _ 0 (bytes_getD _ hn), pack4_eq _ 1 (bytes_getD _ hn),
    pack4_eq _ 2 (bytes_getD _ hn), c0, c1, c2, c3]

theorem C15_init_state_witness :
    ((∀ b ∈ List.range 32, b < 256) ∧ (∀ b ∈ [0, 0, 0, 0, 0, 0, 0, 0x4a, 0, 0, 0, 0], b < 256)) ∧
    (ChaCha20_init ⟨[], [], 5⟩ (List.range 32) [0, 0, 0, 0, 0, 0, 0, 0x4a, 0, 0, 0, 0] 1).state
      = [0x61707865, 0x3320646e, 0x79622d32, 0x6b206574,
         leWord (List.range 32) 0, leWord (List.range 32) 1, leWord (List.range 32) 2,
         leWord (List.range 32) 3, leWord (List.range 32) 4, leWord (List.range 32) 5,
         leWord (List.range 32) 6, leWord (List.range 32) 7, 1,
         leWord [0, 0, 0, 0, 0, 0, 0, 0x4a, 0, 0, 0, 0] 0,
         leWord [0, 0, 0, 0, 0, 0, 0, 0x4a, 0, 0, 0, 0] 1,
         leWord [0, 0, 0, 0, 0, 0, 0, 0x4a, 0, 0, 0, 0] 2] ∧
    (ChaCha20_init ⟨[], [], 5⟩ (List.range 32)
      [0, 0, 0, 0, 0, 0, 0, 0x4a, 0, 0, 0, 0] 1).idx = 0 :=
  ⟨⟨by decide, by decide⟩, C15_init_state ⟨[], [], 5⟩ (List.range 32)
    [0, 0, 0, 0, 0, 0, 0, 0x4a, 0, 0, 0, 0] 1 (by decide) (by decide)⟩

end ChaCha20

namespace Fibonacci

open Sha3 (getD_set forLoop)

/-! ## Fibonacci -/

theorem fib_47 : Nat.fib 47 = 2971215073 := by decide

theorem fib_lt (n : Nat) (h : n ≤ 47) : Nat.fib n < 2 ^ 32 := by
  have h1 : Nat.fib n ≤ Nat.fib 47 := Nat.fib_mono h
  rw [fib_47] at h1
  have h2 : (2971215073 : Nat) < 2 ^ 32 := by decide
  exact Nat.lt_of_le_of_lt h1 h2

theorem fib_memo_step (lf : Bool) (m : Nat) (hm : m + 3 ≤ 47) (cache : List Nat)
    (hc : CacheOk cache)
    (ih1 : ∀ c, CacheOk c → (fib_memo lf (m + 1) c).value = Nat.fib (m + 1) ∧
      CacheOk (fib_memo lf (m + 1) c).cache ∧ (fib_memo lf (m + 1) c).wrapped = false)
    (ih2 : ∀ c, CacheOk c → (fib_memo lf (m + 2) c).value = Nat.fib (m + 2) ∧
      CacheOk (fib_memo lf (m + 2) c).cache ∧ (fib_memo lf (m + 2) c).wrapped = false) :
    (fib_memo lf (m + 3) cache).value = Nat.fib (m + 3) ∧
      CacheOk (fib_memo lf (m + 3) cache).cache ∧ (fib_memo lf (m + 3) cache).wrapped = false := by
  have hsum : Nat.fib (m + 1) + Nat.fib (m + 2) = Nat.fib (m + 3) := (Nat.fib_add_two).symm
  have hlt := fib_lt (m + 3) hm
  have hset : ∀ c, CacheOk c → CacheOk (c.set (m + 3) (Nat.fib (m + 3))) := by
    intro c hc' k h3 h47
    rw [getD_set]
    split
    · next hk => exact Or.inr (by rw [hk.1])
    · exact hc' k h3 h47
  rw [fib_memo]
  by_cases hit : cache.getD (m + 3) 0 ≠ 0
  · rw [if_pos hit]
    refine ⟨?_, hc, rfl⟩
    rcases hc (m + 3) (by omega) hm with h0 | h0
    · exact absurd h0 hit
    · exact h0
  · rw [if_neg hit]
    cases lf with
    | true =>
      obtain ⟨a1, a2, a3⟩ := ih2 cache hc
      obtain ⟨b1, b2, b3⟩ := ih1 _ a2
      dsimp only
      simp only [if_true] at a1 a2 a3 b1 b2 b3 ⊢
      rw [a1, a3, b1, b3, Nat.add_comm, hsum, Nat.mod_eq_of_lt hlt]
      refine ⟨rfl, hset _ b2, ?_⟩
      simp only [Bool.or_self, Bool.false_or, decide_eq_false_iff_not, Nat.not_le]
      exact hlt
    | false =>
      obtain ⟨a1, a2, a3⟩ := ih1 cache hc
      obtain ⟨b1, b2, b3⟩ := ih2 _ a2
      dsimp only
      simp only [Bool.false_eq_true, if_false] at a1 a2 a3 b1 b2 b3 ⊢
      rw [a1, a3, b1, b3, hsum, Nat.mod_eq_of_lt hlt]
      refine ⟨rfl, hset _ b2, ?_⟩
      simp only [Bool.or_self, Bool.false_or, decide_eq_false_iff_not, Nat.not_le]
      exact hlt

theorem fib_memo_spec (lf : Bool) (n : Nat) :
    (1 ≤ n → n ≤ 47 → ∀ c, CacheOk c → (fib_memo lf n c).value = Nat.fib n ∧
      CacheOk (fib_memo lf n c).cache ∧ (fib_memo lf n c).wrapped = false) ∧
    (n + 1 ≤ 47 → ∀ c, CacheOk c → (fib_memo lf (n + 1) c).value = Nat.fib (n + 1) ∧
      CacheOk (fib_memo lf (n + 1) c).cache ∧ (fib_memo lf (n + 1) c).wrapped = false) := by
  induction n with
  | zero =>
    refine ⟨fun h => absurd h (by decide), fun _ c hc => ⟨rfl, hc, rfl⟩⟩
  | succ n ih =>
    refine ⟨fun _ h => ih.2 h, fun h c hc => ?_⟩
    match n, ih with
    | 0, _ => exact ⟨rfl, hc, rfl⟩
    | m + 1, ih =>
      exact fib_memo_step lf m h c hc (ih.1 (by omega) (by omega)) (ih.2 (by omega))

theorem clear_getD (n : Nat) (cache : List Nat) (k : Nat) (hk : k < n) :
    (forLoop n (fun i cache => cache.set i 0) cache).getD k 0 = 0 := by
  induction n with
  | zero => exact absurd hk (Nat.not_lt_zero k)
  | succ n ih =>
    rw [forLoop, getD_set]
    split
    · rfl
    · next hne =>
      by_cases hkn : k < n
      · exact ih hkn
      · have e : n = k := by omega
        rw [List.getD_eq_getElem?_getD, List.getElem?_eq_none, Option.getD_none]
        exact Nat.le_of_not_lt (fun hh => hne ⟨e, hh⟩) |>.trans (Nat.le_of_eq e)

theorem fib_spec (lf : Bool) (n : Nat) (cache : List Nat) (h : n ≤ 47) :
    (fib lf n cache).value = Nat.fib n ∧ (fib lf n cache).wrapped = false := by
  unfold fib
  by_cases h0 : n = 0
  · rw [if_pos h0, h0]
    exact ⟨rfl, rfl⟩
  · rw [if_neg h0, if_neg (show ¬ n > MAX_FIB_N from Nat.not_lt.mpr h)]
    dsimp only
    have hc : CacheOk (((forLoop (MAX_FIB_N + 1) (fun i cache => cache.set i 0) cache).set 1 1).set
        2 1) := by
      intro k h3 h47
      left
      rw [getD_set, if_neg (fun hh => by omega), getD_set, if_neg (fun hh => by omega)]
      exact clear_getD _ cache k (Nat.lt_succ_of_le h47)
    obtain ⟨a1, _, a3⟩ := (fib_memo_spec lf n).1 (by omega) h _ hc
    exact ⟨a1, a3⟩

theorem vectors_ok : ∀ t ∈ test_vectors, t.n ≤ 47 ∧ Nat.fib t.n = t.expected_result := by
  decide

/-- C16: for every `n ≤ 47`, whatever the cache holds before the call and in whichever order
the two recursive calls are evaluated, `fib(n)` is the `n`-th Fibonacci number, no addition
wraps around and the number is below `2 ^ 32`; for `n > 47`, `fib(n) = 0`; `fib` returns the
expected result for each of the ten test vectors (`fib(47) = 2971215073`), so `main` returns 0
for each of them. `Nat.fib` is the sequence `F(0) = 0`, `F(1) = F(2) = 1`,
`F(k + 2) = F(k) + F(k + 1)`. -/
theorem C16_fib_exact :
    (∀ (leftFirst : Bool) (cache : List Nat) (n : Nat), n ≤ 47 →
      (fib leftFirst n cache).value = Nat.fib n ∧ (fib leftFirst n cache).wrapped = false ∧
        Nat.fib n < 2 ^ 32) ∧
    (∀ (leftFirst : Bool) (cache : List Nat) (n : Nat), 47 < n →
      (fib leftFirst n cache).value = 0) ∧
    (∀ (leftFirst : Bool) (cache : List Nat), ∀ t ∈ test_vectors,
      (fib leftFirst t.n cache).value = t.expected_result) ∧
    (∀ (leftFirst : Bool) (cache : List Nat),
      (fib leftFirst 47 cache).value = 2971215073) ∧
    (∀ (leftFirst : Bool) (cache : List Nat) (i : Nat), i < 10 → main leftFirst i cache = 0) ∧
    (Nat.fib 0 = 0 ∧ Nat.fib 1 = 1 ∧ Nat.fib 2 = 1 ∧
      ∀ k, Nat.fib (k + 2) = Nat.fib k + Nat.fib (k + 1)) := by
  have hv : ∀ (leftFirst : Bool) (cache : List Nat), ∀ t ∈ test_vectors,
      (fib leftFirst t.n cache).value = t.expected_result := by
    intro lf cache t ht
    rw [(fib_spec lf t.n cache (vectors_ok t ht).1).1]
    exact (vectors_ok t ht).2
  refine ⟨fun lf cache n h => ⟨(fib_spec lf n cache h).1, (fib_spec lf n cache h).2, fib_lt n h⟩,
    ?_, hv, ?_, ?_, ⟨rfl, rfl, rfl, fun k => Nat.fib_add_two⟩⟩
  · intro lf cache n h
    unfold fib
    have h0 : n ≠ 0 := by omega
    rw [if_neg h0, if_pos (show n > MAX_FIB_N from h)]
  · intro lf cache
    rw [(fib_spec lf 47 cache (Nat.le_refl _)).1]
    exact fib_47
  · intro lf cache i hi
    have hlen : test_vectors.length = 10 := rfl
    unfold main
    rw [if_neg (by rw [hlen]; omega)]
    dsimp only
    have hm : test_vectors.getD i ⟨0, 0⟩ ∈ test_vectors := by
      rw [List.getD_eq_getElem?_getD, List.getElem?_eq_getElem (by rw [hlen]; exact hi)]
      exact List.getElem_mem _
    rw [if_pos (hv lf cache _ hm)]

end Fibonacci

namespace Sha3

/-! ## The test harness of `sha3.c` -/

theorem memcmp_eq_zero (a b : List Nat) (n : Nat) :
    0 = memcmp a b n ↔ ∀ i, i < n → a.getD i 0 = b.getD i 0 := by
  unfold memcmp
  constructor
  · intro h i hi
    by_cases c : (List.range n).all (fun i => a.getD i 0 == b.getD i 0) = true
    · have := List.all_eq_true.mp c i (List.mem_range.mpr hi)
      exact beq_iff_eq.mp this
    · rw [if_neg c] at h
      exact absurd h (by decide)
  · intro h
    have c : (List.range n).all (fun i => a.getD i 0 == b.getD i 0) = true := by
      rw [List.all_eq_true]
      intro i hi
      exact beq_iff_eq.mpr (h i (List.mem_range.mp hi))
    rw [if_pos c]

theorem main_out_of_bounds {V : Type} (message expected_hash : V → List Nat) (table : List V)
    (num idx : Nat) (h : num ≤ idx) : main message expected_hash table num idx = some 42 := by
  unfold main
  rw [if_pos h]

theorem main_in_bounds {V : Type} (message expected_hash : V → List Nat) (table : List V)
    (num idx : Nat) (t : V) (h : idx < num) (ht : table.get? idx = some t) :
    ∃ hash, FIPS202_SHA3_256 (message t) = some hash ∧ hash.length = 32 ∧
      ((∀ i, i < 32 → hash.getD i 0 = (expected_hash t).getD i 0) →
        main message expected_hash table num idx = some 0) ∧
      ((∃ i, i < 32 ∧ hash.getD i 0 ≠ (expected_hash t).getD i 0) →
        main message expected_hash table num idx = some 1) := by
  obtain ⟨hash, _, _, e, hl, _, _⟩ :=
    Keccak_traced 1088 512 (message t) 0x06 32 (by decide) (by decide)
  have e2 : sha3_256_easy_hash (message t) = some hash := by
    unfold sha3_256_easy_hash FIPS202_SHA3_256
    exact e
  have hm : main message expected_hash table num idx
      = if 0 = memcmp hash (expected_hash t) 32 then some 0 else some 1 := by
    unfold main
    rw [if_neg (Nat.not_le.mpr h), ht]
    dsimp only
    rw [e2]
  refine ⟨hash, by unfold FIPS202_SHA3_256; exact e, hl, fun c => ?_, fun c => ?_⟩
  · rw [hm, if_pos ((memcmp_eq_zero _ _ 32).mpr c)]
  · obtain ⟨i, hi, hne⟩ := c
    rw [hm, if_neg (fun hh => hne ((memcmp_eq_zero _ _ 32).mp hh i hi))]

/-- C17: for every table of test vectors (with `num_sha3_256_test_vectors` its number of
entries) and every test index, `main` returns 42 if and only if the index is at least the
number of vectors, and then its result does not depend on the table; otherwise
`FIPS202_SHA3_256` of the selected message is a 32-byte hash and `main` returns 0 if it equals
the selected expected hash in all 32 bytes and 1 if they differ in some byte. -/
theorem C17_harness_status {V : Type} (message expected_hash : V → List Nat) (table : List V)
    (num idx : Nat) (hnum : num = table.length) :
    (main message expected_hash table num idx = some 42 ↔ num ≤ idx) ∧
    (num ≤ idx → ∀ table2 : List V, main message expected_hash table2 num idx = some 42) ∧
    (idx < num → ∃ t hash, table.get? idx = some t ∧
      FIPS202_SHA3_256 (message t) = some hash ∧ hash.length = 32 ∧
      ((∀ i, i < 32 → hash.getD i 0 = (expected_hash t).getD i 0) →
        main message expected_hash table num idx = some 0) ∧
      ((∃ i, i < 32 ∧ hash.getD i 0 ≠ (expected_hash t).getD i 0) →
        main message expected_hash table num idx = some 1)) := by
  have hin : idx < num → ∃ t hash, table.get? idx = some t ∧
      FIPS202_SHA3_256 (message t) = some hash ∧ hash.length = 32 ∧
      ((∀ i, i < 32 → hash.getD i 0 = (expected_hash t).getD i 0) →
        main message expected_hash table num idx = some 0) ∧
      ((∃ i, i < 32 ∧ hash.getD i 0 ≠ (expected_hash t).getD i 0) →
        main message expected_hash table num idx = some 1) := by
    intro h
    have hl : idx < table.length := by rw [← hnum]; exact h
    have ht : table.get? idx = some (table.get ⟨idx, hl⟩) := List.get?_eq_get hl
    obtain ⟨hash, e, hlen, hm⟩ := main_in_bounds message expected_hash table num idx _ h ht
    exact ⟨_, hash, ht, e, hlen, hm⟩
  refine ⟨⟨fun h => ?_, main_out_of_bounds message expected_hash table num idx⟩,
    fun h table2 => main_out_of_bounds message expected_hash table2 num idx h, hin⟩
  by_cases c : num ≤ idx
  · exact c
  · obtain ⟨t, hash, _, _, _, h0, h1⟩ := hin (Nat.lt_of_not_le c)
    by_cases d : ∀ i, i < 32 → hash.getD i 0 = (expected_hash t).getD i 0
    · rw [h0 d] at h
      exact absurd h (by decide)
    · have d2 : ∃ i, i < 32 ∧ hash.getD i 0 ≠ (expected_hash t).getD i 0 := by
        by_contra hcon
        exact d (fun i hi => by
          by_contra hne
          exact hcon ⟨i, hi, hne⟩)
      rw [h1 d2] at h
      exact absurd h (by decide)

theorem C17_harness_status_witness :
    1 = [(([0x61, 0x62, 0x63], List.replicate 32 0) : List Nat × List Nat)].length ∧
    ((main Prod.fst Prod.snd [(([0x61, 0x62, 0x63], List.replicate 32 0) : List Nat × List Nat)]
        1 0 = some 42 ↔ 1 ≤ 0) ∧
    (1 ≤ 0 → ∀ table2 : List (List Nat × List Nat),
      main Prod.fst Prod.snd table2 1 0 = some 42) ∧
    (0 < 1 → ∃ t hash,
      [(([0x61, 0x62, 0x63], List.replicate 32 0) : List Nat × List Nat)].get? 0 = some t ∧
      FIPS202_SHA3_256 t.1 = some hash ∧ hash.length = 32 ∧
      ((∀ i, i < 32 → hash.getD i 0 = t.2.getD i 0) →
        main Prod.fst Prod.snd
          [(([0x61, 0x62, 0x63], List.replicate 32 0) : List Nat × List Nat)] 1 0 = some 0) ∧
      ((∃ i, i < 32 ∧ hash.getD i 0 ≠ t.2.getD i 0) →
        main Prod.fst Prod.snd
          [(([0x61, 0x62, 0x63], List.replicate 32 0) : List Nat × List Nat)] 1 0 = some 1))) :=
  ⟨rfl, C17_harness_status Prod.fst Prod.snd
    [(([0x61, 0x62, 0x63], List.replicate 32 0) : List Nat × List Nat)] 1 0 rfl⟩

/-! ## The steps of a round on lanes -/

theorem testBit_high (a k : Nat) (ha : a < 2 ^ 64) (hk : 64 ≤ k) : a.testBit k = false :=
  Nat.testBit_lt_two_pow (Nat.lt_of_lt_of_le ha (Nat.pow_le_pow_right (by decide) hk))

/-- On 64-bit words the macro `ROL` is the left rotation. -/
theorem ROL_eq_rotl64 (a o : Nat) (ha : a < 2 ^ 64) (ho : o < 64) :
    ROL a o = Spec.rotl64 a o := by
  apply Nat.eq_of_testBit_eq
  intro i
  unfold ROL Spec.rotl64
  rw [Nat.testBit_xor, Nat.testBit_mod_two_pow, Nat.testBit_mod_two_pow, Nat.testBit_or,
    Nat.testBit_shiftLeft, Nat.testBit_shiftRight]
  by_cases hi : i < 64
  · by_cases hoi : o ≤ i
    · rw [testBit_high a (64 - o + i) ha (by omega)]
      simp [hi, hoi]
    · simp [hi, hoi]
  · rw [testBit_high a (64 - o + i) ha (by omega)]
    simp [hi]

theorem rotl64_lt (a o : Nat) : Spec.rotl64 a o < 2 ^ 64 :=
  Nat.mod_lt _ (by decide)

theorem load64_lt (s : List Nat) (off : Nat) (hb : ∀ j, s.getD j 0 < 256) :
    load64 s off < 2 ^ 64 := by
  rw [load64_eq s off hb]
  have h0 := hb off
  have h1 := hb (off + 1)
  have h2 := hb (off + 2)
  have h3 := hb (off + 3)
  have h4 := hb (off + 4)
  have h5 := hb (off + 5)
  have h6 := hb (off + 6)
  have h7 := hb (off + 7)
  generalize s.getD off 0 = b0 at h0 ⊢
  generalize s.getD (off + 1) 0 = b1 at h1 ⊢
  generalize s.getD (off + 2) 0 = b2 at h2 ⊢
  generalize s.getD (off + 3) 0 = b3 at h3 ⊢
  generalize s.getD (off + 4) 0 = b4 at h4 ⊢
  generalize s.getD (off + 5) 0 = b5 at h5 ⊢
  generalize s.getD (off + 6) 0 = b6 at h6 ⊢
  generalize s.getD (off + 7) 0 = b7 at h7 ⊢
  have e : (2 : Nat) ^ 64 = 18446744073709551616 := by decide
  rw [e]
  omega

theorem rL_lt (s : List Nat) (x y : Nat) (h : ValidState s) : rL s x y < 2 ^ 64 :=
  load64_lt s _ h.2

theorem rL_eq_getD (s : List Nat) (x y : Nat) (hx : x < 5) (hy : y < 5) :
    rL s x y = (toLanes s).getD (x + 5 * y) 0 := by
  rw [← rL_toLanes s x y (by omega), Lanes.rL]

theorem toLanes_lt (s : List Nat) (h : ValidState s) (i : Nat) : (toLanes s).getD i 0 < 2 ^ 64 := by
  by_cases hi : i < 25
  · rw [toLanes_getD s i hi]
    exact load64_lt s _ h.2
  · rw [List.getD_eq_getElem?_getD, List.getElem?_eq_none (by rw [toLanes_length]; omega)]
    decide

theorem xor_lt64 (a b : Nat) (ha : a < 2 ^ 64) (hb : b < 2 ^ 64) : a ^^^ b < 2 ^ 64 :=
  Nat.xor_lt_two_pow ha hb

/-- The all-zero state is a state. -/
theorem valid_zero : ValidState (List.replicate 200 0) :=
  ⟨List.length_replicate 200 0, fun j => by rw [getD_replicate_zero]; decide⟩

set_option maxRecDepth 100000 in
/-- The buffer whose byte `j` is `j`, for `j = 0..199`, is a state. -/
theorem valid_range : ValidState (List.range 200) :=
  valid_of_all _ (List.length_range 200) (by decide)

theorem theta_lanes (A : List Nat) (hl : A.length = 25) (hlt : ∀ i, A.getD i 0 < 2 ^ 64)
    (x y : Nat) (hx : x < 5) (hy : y < 5) :
    (Eval.theta A).getD (x + 5 * y) 0
      = A.getD (x + 5 * y) 0
        ^^^ (A.getD ((x + 4) % 5 + 5 * 0) 0 ^^^ A.getD ((x + 4) % 5 + 5 * 1) 0
          ^^^ A.getD ((x + 4) % 5 + 5 * 2) 0 ^^^ A.getD ((x + 4) % 5 + 5 * 3) 0
          ^^^ A.getD ((x + 4) % 5 + 5 * 4) 0)
        ^^^ Spec.rotl64 (A.getD ((x + 1) % 5 + 5 * 0) 0 ^^^ A.getD ((x + 1) % 5 + 5 * 1) 0
          ^^^ A.getD ((x + 1) % 5 + 5 * 2) 0 ^^^ A.getD ((x + 1) % 5 + 5 * 3) 0
          ^^^ A.getD ((x + 1) % 5 + 5 * 4) 0) 1 := by
  obtain ⟨a0, a1, a2, a3, a4, a5, a6, a7, a8, a9, a10, a11, a12, a13, a14, a15, a16, a17, a18,
    a19, a20, a21, a22, a23, a24, rfl⟩ := length25 A hl
  have h0 : a0 < 2 ^ 64 := hlt 0
  have h1 : a1 < 2 ^ 64 := hlt 1
  have h2 : a2 < 2 ^ 64 := hlt 2
  have h3 : a3 < 2 ^ 64 := hlt 3
  have h4 : a4 < 2 ^ 64 := hlt 4
  have h5 : a5 < 2 ^ 64 := hlt 5
  have h6 : a6 < 2 ^ 64 := hlt 6
  have h7 : a7 < 2 ^ 64 := hlt 7
  have h8 : a8 < 2 ^ 64 := hlt 8
  have h9 : a9 < 2 ^ 64 := hlt 9
  have h10 : a10 < 2 ^ 64 := hlt 10
  have h11 : a11 < 2 ^ 64 := hlt 11
  have h12 : a12 < 2 ^ 64 := hlt 12
  have h13 : a13 < 2 ^ 64 := hlt 13
  have h14 : a14 < 2 ^ 64 := hlt 14
  have h15 : a15 < 2 ^ 64 := hlt 15
  have h16 : a16 < 2 ^ 64 := hlt 16
  have h17 : a17 < 2 ^ 64 := hlt 17
  have h18 : a18 < 2 ^ 64 := hlt 18
  have h19 : a19 < 2 ^ 64 := hlt 19
  have h20 : a20 < 2 ^ 64 := hlt 20
  have h21 : a21 < 2 ^ 64 := hlt 21
  have h22 : a22 < 2 ^ 64 := hlt 22
  have h23 : a23 < 2 ^ 64 := hlt 23
  have h24 : a24 < 2 ^ 64 := hlt 24
  have c0 : a0 ^^^ a5 ^^^ a10 ^^^ a15 ^^^ a20 < 2 ^ 64 :=
    xor_lt64 _ _ (xor_lt64 _ _ (xor_lt64 _ _ (xor_lt64 _ _ h0 h5) h10) h15) h20
  have c1 : a1 ^^^ a6 ^^^ a11 ^^^ a16 ^^^ a21 < 2 ^ 64 :=
    xor_lt64 _ _ (xor_lt64 _ _ (xor_lt64 _ _ (xor_lt64 _ _ h1 h6) h11) h16) h21
  have c2 : a2 ^^^ a7 ^^^ a12 ^^^ a17 ^^^ a22 < 2 ^ 64 :=
    xor_lt64 _ _ (xor_lt64 _ _ (xor_lt64 _ _ (xor_lt64 _ _ h2 h7) h12) h17) h22
  have c3 : a3 ^^^ a8 ^^^ a13 ^^^ a18 ^^^ a23 < 2 ^ 64 :=
    xor_lt64 _ _ (xor_lt64 _ _ (xor_lt64 _ _ (xor_lt64 _ _ h3 h8) h13) h18) h23
  have c4 : a4 ^^^ a9 ^^^ a14 ^^^ a19 ^^^ a24 < 2 ^ 64 :=
    xor_lt64 _ _ (xor_lt64 _ _ (xor_lt64 _ _ (xor_lt64 _ _ h4 h9) h14) h19) h24
  have r0 := ROL_eq_rotl64 _ 1 c0 (by decide)
  have r1 := ROL_eq_rotl64 _ 1 c1 (by decide)
  have r2 := ROL_eq_rotl64 _ 1 c2 (by decide)
  have r3 := ROL_eq_rotl64 _ 1 c3 (by decide)
  have r4 := ROL_eq_rotl64 _ 1 c4 (by decide)
  have d0 := Nat.mod_eq_of_lt (xor_lt64 _ _ c4 (rotl64_lt (a1 ^^^ a6 ^^^ a11 ^^^ a16 ^^^ a21) 1))
  have d1 := Nat.mod_eq_of_lt (xor_lt64 _ _ c0 (rotl64_lt (a2 ^^^ a7 ^^^ a12 ^^^ a17 ^^^ a22) 1))
  have d2 := Nat.mod_eq_of_lt (xor_lt64 _ _ c1 (rotl64_lt (a3 ^^^ a8 ^^^ a13 ^^^ a18 ^^^ a23) 1))
  have d3 := Nat.mod_eq_of_lt (xor_lt64 _ _ c2 (rotl64_lt (a4 ^^^ a9 ^^^ a14 ^^^ a19 ^^^ a24) 1))
  have d4 := Nat.mod_eq_of_lt (xor_lt64 _ _ c3 (rotl64_lt (a0 ^^^ a5 ^^^ a10 ^^^ a15 ^^^ a20) 1))
  interval_cases x <;> interval_cases y <;>
    (simp only [Eval.theta, List.getD_cons_zero, List.getD_cons_succ, Nat.reduceAdd,
      Nat.reduceMul, Nat.reduceMod, r0, r1, r2, r3, r4, d0, d1, d2, d3, d4]
     exact (Nat.xor_assoc _ _ _).symm)

/-- C20: the theta step maps the state `A` (lanes read little-endian from the byte buffer by
`rL`) to `A'` with `A'[x,y] = A[x,y] XOR C[(x+4) mod 5] XOR rotl64(C[(x+1) mod 5], 1)` for all
`x, y` in `0..4`, where `C[x] = A[x,0] XOR A[x,1] XOR A[x,2] XOR A[x,3] XOR A[x,4]` is the
column parity of the state before the step. -/
theorem C20_theta (s : List Nat) (h : ValidState s) (x y : Nat) (hx : x < 5) (hy : y < 5) :
    rL (theta s) x y
      = rL s x y ^^^ Spec.columnParity s ((x + 4) % 5)
        ^^^ Spec.rotl64 (Spec.columnParity s ((x + 1) % 5)) 1 := by
  have hA : toLanes (theta s) = Eval.theta (toLanes s) := by
    rw [(theta_sim s h).2, theta_eval _ (toLanes_length s)]
  have h4 : (x + 4) % 5 < 5 := Nat.mod_lt _ (by decide)
  have h1 : (x + 1) % 5 < 5 := Nat.mod_lt _ (by decide)
  unfold Spec.columnParity
  rw [rL_eq_getD (theta s) x y hx hy, hA, rL_eq_getD s x y hx hy,
    rL_eq_getD s _ 0 h4 (by decide), rL_eq_getD s _ 1 h4 (by decide),
    rL_eq_getD s _ 2 h4 (by decide), rL_eq_getD s _ 3 h4 (by decide),
    rL_eq_getD s _ 4 h4 (by decide), rL_eq_getD s _ 0 h1 (by decide),
    rL_eq_getD s _ 1 h1 (by decide), rL_eq_getD s _ 2 h1 (by decide),
    rL_eq_getD s _ 3 h1 (by decide), rL_eq_getD s _ 4 h1 (by decide)]
  exact theta_lanes (toLanes s) (toLanes_length s) (toLanes_lt s h) x y hx hy

theorem C20_theta_witness :
    (ValidState (List.range 200) ∧ 1 < 5 ∧ 2 < 5) ∧
    rL (theta (List.range 200)) 1 2
      = rL (List.range 200) 1 2 ^^^ Spec.columnParity (List.range 200) ((1 + 4) % 5)
        ^^^ Spec.rotl64 (Spec.columnParity (List.range 200) ((1 + 1) % 5)) 1 ∧
    rL (List.range 200) 1 2 = 0x5f5e5d5c5b5a5958 ∧
    rL (theta (List.range 200)) 1 2 = 0x161412101e1c1a18 :=
  ⟨⟨valid_range, by decide, by decide⟩,
    C20_theta (List.range 200) valid_range 1 2 (by decide) (by decide),
    by decide,
    (C20_theta (List.range 200) valid_range 1 2 (by decide) (by decide)).trans (by decide)⟩

theorem walk_lt : ∀ t, t < 25 → (Spec.walk t).1 < 5 ∧ (Spec.walk t).2 < 5 := by decide

theorem walk_nodup : ((List.range 24).map fun t => Spec.walk (t + 1)).Nodup := by decide

theorem walk_onto : ∀ x, x < 5 → ∀ y, y < 5 → (x, y) ≠ (0, 0) →
    ∃ t, t < 24 ∧ Spec.walk (t + 1) = (x, y) := by decide

theorem walk_ne : ∀ t, t < 24 → Spec.walk (t + 1) ≠ (0, 0) := by decide

theorem ROL_mod (a o : Nat) (ha : a < 2 ^ 64) (ho : o < 64) :
    ROL a o % 2 ^ 64 = Spec.rotl64 a o := by
  rw [ROL_eq_rotl64 a o ha ho]
  exact Nat.mod_eq_of_lt (rotl64_lt a o)

theorem rhoPi_lanes (A : List Nat) (hl : A.length = 25) (hlt : ∀ i, A.getD i 0 < 2 ^ 64) :
    (Eval.rhoPi A).getD 0 0 = A.getD 0 0 ∧
    ∀ t, t < 24 →
      (Eval.rhoPi A).getD ((Spec.walk (t + 1)).1 + 5 * (Spec.walk (t + 1)).2) 0
        = Spec.rotl64 (A.getD ((Spec.walk t).1 + 5 * (Spec.walk t).2) 0)
            ((t + 1) * (t + 2) / 2 % 64) := by
  obtain ⟨a0, a1, a2, a3, a4, a5, a6, a7, a8, a9, a10, a11, a12, a13, a14, a15, a16, a17, a18,
    a19, a20, a21, a22, a23, a24, rfl⟩ := length25 A hl
  have h1 : a1 < 2 ^ 64 := hlt 1
  have h2 : a2 < 2 ^ 64 := hlt 2
  have h3 : a3 < 2 ^ 64 := hlt 3
  have h4 : a4 < 2 ^ 64 := hlt 4
  have h5 : a5 < 2 ^ 64 := hlt 5
  have h6 : a6 < 2 ^ 64 := hlt 6
  have h7 : a7 < 2 ^ 64 := hlt 7
  have h8 : a8 < 2 ^ 64 := hlt 8
  have h9 : a9 < 2 ^ 64 := hlt 9
  have h10 : a10 < 2 ^ 64 := hlt 10
  have h11 : a11 < 2 ^ 64 := hlt 11
  have h12 : a12 < 2 ^ 64 := hlt 12
  have h13 : a13 < 2 ^ 64 := hlt 13
  have h14 : a14 < 2 ^ 64 := hlt 14
  have h15 : a15 < 2 ^ 64 := hlt 15
  have h16 : a16 < 2 ^ 64 := hlt 16
  have h17 : a17 < 2 ^ 64 := hlt 17
  have h18 : a18 < 2 ^ 64 := hlt 18
  have h19 : a19 < 2 ^ 64 := hlt 19
  have h20 : a20 < 2 ^ 64 := hlt 20
  have h21 : a21 < 2 ^ 64 := hlt 21
  have h22 : a22 < 2 ^ 64 := hlt 22
  have h23 : a23 < 2 ^ 64 := hlt 23
  have h24 : a24 < 2 ^ 64 := hlt 24
  refine ⟨rfl, fun t ht => ?_⟩
  interval_cases t <;>
    (simp only [Spec.walk, Eval.rhoPi, List.getD_cons_zero, List.getD_cons_succ, Nat.reduceAdd,
      Nat.reduceMul, Nat.reduceMod, Nat.reduceDiv]
     exact ROL_mod _ _ (by assumption) (by decide))

/-- C19: the rho+pi step leaves lane `(0,0)` unchanged and, along the walk
`(x_0, y_0) = (1, 0)`, `(x_{t+1}, y_{t+1}) = (y_t, (2 * x_t + 3 * y_t) mod 5)`, sets for every
`t = 0..23` the new lane at `(x_{t+1}, y_{t+1})` to the old lane at `(x_t, y_t)` rotated left by
`((t + 1)(t + 2) / 2) mod 64` bits; the 24 destinations are pairwise distinct and are exactly
the 24 lanes other than `(0,0)`, and the walk is back at `(1, 0)` at `t = 24`. -/
theorem C19_rho_pi (s : List Nat) (h : ValidState s) :
    rL (rhoPi s) 0 0 = rL s 0 0 ∧
    (∀ t, t < 24 →
      rL (rhoPi s) (Spec.walk (t + 1)).1 (Spec.walk (t + 1)).2
        = Spec.rotl64 (rL s (Spec.walk t).1 (Spec.walk t).2) ((t + 1) * (t + 2) / 2 % 64)) ∧
    ((List.range 24).map fun t => Spec.walk (t + 1)).Nodup ∧
    (∀ x, x < 5 → ∀ y, y < 5 → (x, y) ≠ (0, 0) → ∃ t, t < 24 ∧ Spec.walk (t + 1) = (x, y)) ∧
    (∀ t, t < 24 → Spec.walk (t + 1) ≠ (0, 0)) ∧
    Spec.walk 24 = (1, 0) := by
  have hA : toLanes (rhoPi s) = Eval.rhoPi (toLanes s) := by
    rw [(rhoPi_sim s h).2, rhoPi_eval _ (toLanes_length s)]
  have hL := rhoPi_lanes (toLanes s) (toLanes_length s) (toLanes_lt s h)
  refine ⟨?_, fun t ht => ?_, walk_nodup, walk_onto, walk_ne, by decide⟩
  · rw [rL_eq_getD (rhoPi s) 0 0 (by decide) (by decide), hA,
      rL_eq_getD s 0 0 (by decide) (by decide)]
    exact hL.1
  · have w1 := walk_lt (t + 1) (by omega)
    have w0 := walk_lt t (by omega)
    rw [rL_eq_getD (rhoPi s) _ _ w1.1 w1.2, hA, rL_eq_getD s _ _ w0.1 w0.2]
    exact hL.2 t ht

theorem C19_rho_pi_witness :
    ValidState (List.range 200) ∧
    (rL (rhoPi (List.range 200)) 0 0 = rL (List.range 200) 0 0 ∧
    (∀ t, t < 24 →
      rL (rhoPi (List.range 200)) (Spec.walk (t + 1)).1 (Spec.walk (t + 1)).2
        = Spec.rotl64 (rL (List.range 200) (Spec.walk t).1 (Spec.walk t).2)
            ((t + 1) * (t + 2) / 2 % 64)) ∧
    ((List.range 24).map fun t => Spec.walk (t + 1)).Nodup ∧
    (∀ x, x < 5 → ∀ y, y < 5 → (x, y) ≠ (0, 0) → ∃ t, t < 24 ∧ Spec.walk (t + 1) = (x, y)) ∧
    (∀ t, t < 24 → Spec.walk (t + 1) ≠ (0, 0)) ∧
    Spec.walk 24 = (1, 0)) ∧
    rL (List.range 200) 1 0 = 0x0f0e0d0c0b0a0908 ∧
    rL (List.range 200) 0 2 = 0x5756555453525150 ∧
    rL (rhoPi (List.range 200)) 0 2 = 0x1e1c1a1816141210 :=
  ⟨valid_range, C19_rho_pi (List.range 200) valid_range, by decide, by decide,
    ((C19_rho_pi (List.range 200) valid_range).2.1 0 (by decide)).trans (by decide)⟩

theorem forLoop_succ {σ : Type} (n : Nat) (f : Nat → σ → σ) (st : σ) :
    forLoop (n + 1) f st = f n (forLoop n f st) := rfl

theorem iota_loop_snd (n : Nat) (t : List Nat) (R : Nat) :
    (forLoop n (fun j (p : List Nat × Nat) =>
      ((if (LFSR86540 p.2).2 ≠ 0 then XL p.1 0 0 (1 <<< ((1 <<< j) - 1)) else p.1),
        (LFSR86540 p.2).1)) (t, R)).2
    = (forLoop n (fun j (p : Nat × Nat) =>
      ((if (LFSR86540 p.2).2 ≠ 0 then p.1 ^^^ (1 <<< ((1 <<< j) - 1)) else p.1),
        (LFSR86540 p.2).1)) (0, R)).2 := by
  induction n with
  | zero => rfl
  | succ n ih =>
    rw [forLoop_succ, forLoop_succ]
    dsimp only
    rw [ih]

/-- The LFSR register after a round does not depend on the state. -/
theorem round_snd (p : List Nat × Nat) : (round p).2 = (iotaConst p.2).2 :=
  iota_loop_snd 7 _ p.2

theorem round_reg (i : Nat) (s : List Nat) :
    (forLoop i (fun _ p => round p) (s, 0x01)).2
      = forLoop i (fun _ R => (iotaConst R).2) 0x01 := by
  induction i with
  | zero => rfl
  | succ i ih =>
    rw [forLoop_succ, forLoop_succ, round_snd, ih]

theorem bit_lt (j : Nat) (hj : j < 7) : (1 <<< ((1 <<< j) - 1)) % 2 ^ 64 = 1 <<< ((1 <<< j) - 1) := by
  interval_cases j <;> decide

theorem lanes_iota_loop (A : List Nat) (R : Nat) (hl : 0 < A.length) (n : Nat) (hn : n ≤ 7) :
    forLoop n (fun j (p : List Nat × Nat) =>
      ((if (LFSR86540 p.2).2 ≠ 0 then Lanes.XL p.1 0 0 (1 <<< ((1 <<< j) - 1)) else p.1),
        (LFSR86540 p.2).1)) (A, R)
    = (A.set 0 (A.getD 0 0 ^^^ (forLoop n (fun j (p : Nat × Nat) =>
        ((if (LFSR86540 p.2).2 ≠ 0 then p.1 ^^^ (1 <<< ((1 <<< j) - 1)) else p.1),
          (LFSR86540 p.2).1)) (0, R)).1),
       (forLoop n (fun j (p : Nat × Nat) =>
        ((if (LFSR86540 p.2).2 ≠ 0 then p.1 ^^^ (1 <<< ((1 <<< j) - 1)) else p.1),
          (LFSR86540 p.2).1)) (0, R)).2) := by
  induction n with
  | zero =>
    show (A, R) = (A.set 0 (A.getD 0 0 ^^^ 0), R)
    rw [Nat.xor_zero]
    congr 1
    apply ext_getD
    · rw [List.length_set]
    · intro j _
      rw [getD_set]
      split
      · next h => rw [h.1]
      · rfl
  | succ n ih =>
    rw [forLoop_succ, ih (Nat.le_of_succ_le hn), forLoop_succ]
    generalize forLoop n (fun j (p : Nat × Nat) =>
        ((if (LFSR86540 p.2).2 ≠ 0 then p.1 ^^^ (1 <<< ((1 <<< j) - 1)) else p.1),
          (LFSR86540 p.2).1)) (0, R) = q
    obtain ⟨acc, r⟩ := q
    dsimp only
    by_cases c : (LFSR86540 r).2 ≠ 0
    · rw [if_pos c, if_pos c]
      congr 1
      unfold Lanes.XL
      rw [bit_lt n (by omega)]
      show (A.set 0 (A.getD 0 0 ^^^ acc)).set 0 ((A.set 0 (A.getD 0 0 ^^^ acc)).getD 0 0 ^^^ _) = _
      rw [List.set_set, getD_set, if_pos ⟨rfl, hl⟩, Nat.xor_assoc]
    · rw [if_neg c, if_neg c]

theorem lanes_iota (A : List Nat) (R : Nat) (hl : 0 < A.length) :
    Lanes.iota (A, R) = (A.set 0 (A.getD 0 0 ^^^ (iotaConst R).1), (iotaConst R).2) :=
  lanes_iota_loop A R hl 7 (Nat.le_refl 7)

/-- The constants that the code derives from the LFSR are the listed round constants. -/
theorem iotaConst_RC : ∀ i, i < 24 →
    (iotaConst (forLoop i (fun _ R => (iotaConst R).2) 0x01)).1 = Spec.RC.getD i 0 := by
  decide

/-- C18: in round `i` of `KeccakF1600` (for `i = 0..23`; the LFSR register is 0x01 before round
0 and is stepped 7 times per round), the iota step XORs the round constant `RC[i]` into lane
`(0,0)` and changes no other lane, where `RC` is the list of the 24 constants
`0x0000000000000001, 0x0000000000008082, ..., 0x8000000080008008`. -/
theorem C18_iota_round_constants (s t : List Nat) (i : Nat) (hi : i < 24) (ht : ValidState t) :
    (forLoop (i + 1) (fun _ p => round p) (s, 0x01)
      = iota (chi (rhoPi (theta (forLoop i (fun _ p => round p) (s, 0x01)).1)),
          (forLoop i (fun _ p => round p) (s, 0x01)).2)) ∧
    ∀ x y, x < 5 → y < 5 →
      rL (iota (t, (forLoop i (fun _ p => round p) (s, 0x01)).2)).1 x y
        = if x = 0 ∧ y = 0 then rL t 0 0 ^^^ Spec.RC.getD i 0 else rL t x y := by
  refine ⟨rfl, fun x y hx hy => ?_⟩
  rw [round_reg i s]
  have hc := iotaConst_RC i hi
  generalize forLoop i (fun _ R => (iotaConst R).2) 0x01 = R at hc ⊢
  have hs := (iota_sim t R ht).2
  rw [lanes_iota (toLanes t) R (by rw [toLanes_length]; decide)] at hs
  have h1 : toLanes (iota (t, R)).1
      = (toLanes t).set 0 ((toLanes t).getD 0 0 ^^^ (iotaConst R).1) :=
    congrArg Prod.fst hs
  rw [rL_eq_getD _ x y hx hy, h1, getD_set, hc, rL_eq_getD t 0 0 (by decide) (by decide),
    rL_eq_getD t x y hx hy, toLanes_length]
  by_cases c : x = 0 ∧ y = 0
  · rw [if_pos c, if_pos ⟨by omega, by decide⟩]
  · rw [if_neg c, if_neg (fun hh => c ⟨by omega, by omega⟩)]

theorem C18_iota_round_constants_witness :
    (3 < 24 ∧ ValidState (List.replicate 200 0)) ∧
    ((forLoop (3 + 1) (fun _ p => round p) ([], 0x01)
      = iota (chi (rhoPi (theta (forLoop 3 (fun _ p => round p) ([], 0x01)).1)),
          (forLoop 3 (fun _ p => round p) ([], 0x01)).2)) ∧
    ∀ x y, x < 5 → y < 5 →
      rL (iota (List.replicate 200 0, (forLoop 3 (fun _ p => round p) ([], 0x01)).2)).1 x y
        = if x = 0 ∧ y = 0 then rL (List.replicate 200 0) 0 0 ^^^ Spec.RC.getD 3 0
          else rL (List.replicate 200 0) x y) :=
  ⟨⟨by decide, valid_zero⟩,
    C18_iota_round_constants [] (List.replicate 200 0) 3 (by decide) valid_zero⟩

theorem not64_eq (a : Nat) (ha : a < 2 ^ 64) : not64 a = Spec.compl64 a := by
  apply Nat.eq_of_testBit_eq
  intro i
  have e : not64 a = 2 ^ 64 - (a + 1) := by
    unfold not64
    omega
  have e2 : (0xFFFFFFFFFFFFFFFF : Nat) = 2 ^ 64 - 1 := by decide
  rw [e, Nat.testBit_two_pow_sub_succ ha]
  unfold Spec.compl64
  rw [e2, Nat.testBit_xor, Nat.testBit_two_pow_sub_one]
  by_cases hi : i < 64
  · simp [hi]
  · rw [testBit_high a i ha (Nat.le_of_not_lt hi)]
    simp [hi]

theorem chi_lane (a b c : Nat) (ha : a < 2 ^ 64) (hb : b < 2 ^ 64) (hc : c < 2 ^ 64) :
    (a ^^^ (not64 b &&& c)) % 2 ^ 64 = a ^^^ (Spec.compl64 b &&& c) := by
  rw [not64_eq b hb]
  exact Nat.mod_eq_of_lt (xor_lt64 _ _ ha (Nat.lt_of_le_of_lt Nat.and_le_right hc))

theorem chi_lanes (A : List Nat) (hl : A.length = 25) (hlt : ∀ i, A.getD i 0 < 2 ^ 64)
    (x y : Nat) (hx : x < 5) (hy : y < 5) :
    (Eval.chi A).getD (x + 5 * y) 0
      = A.getD (x + 5 * y) 0
        ^^^ (Spec.compl64 (A.getD ((x + 1) % 5 + 5 * y) 0) &&& A.getD ((x + 2) % 5 + 5 * y) 0) := by
  obtain ⟨a0, a1, a2, a3, a4, a5, a6, a7, a8, a9, a10, a11, a12, a13, a14, a15, a16, a17, a18,
    a19, a20, a21, a22, a23, a24, rfl⟩ := length25 A hl
  have h0 : a0 < 2 ^ 64 := hlt 0
  have h1 : a1 < 2 ^ 64 := hlt 1
  have h2 : a2 < 2 ^ 64 := hlt 2
  have h3 : a3 < 2 ^ 64 := hlt 3
  have h4 : a4 < 2 ^ 64 := hlt 4
  have h5 : a5 < 2 ^ 64 := hlt 5
  have h6 : a6 < 2 ^ 64 := hlt 6
  have h7 : a7 < 2 ^ 64 := hlt 7
  have h8 : a8 < 2 ^ 64 := hlt 8
  have h9 : a9 < 2 ^ 64 := hlt 9
  have h10 : a10 < 2 ^ 64 := hlt 10
  have h11 : a11 < 2 ^ 64 := hlt 11
  have h12 : a12 < 2 ^ 64 := hlt 12
  have h13 : a13 < 2 ^ 64 := hlt 13
  have h14 : a14 < 2 ^ 64 := hlt 14
  have h15 : a15 < 2 ^ 64 := hlt 15
  have h16 : a16 < 2 ^ 64 := hlt 16
  have h17 : a17 < 2 ^ 64 := hlt 17
  have h18 : a18 < 2 ^ 64 := hlt 18
  have h19 : a19 < 2 ^ 64 := hlt 19
  have h20 : a20 < 2 ^ 64 := hlt 20
  have h21 : a21 < 2 ^ 64 := hlt 21
  have h22 : a22 < 2 ^ 64 := hlt 22
  have h23 : a23 < 2 ^ 64 := hlt 23
  have h24 : a24 < 2 ^ 64 := hlt 24
  interval_cases x <;> interval_cases y <;>
    (simp only [Eval.chi, List.getD_cons_zero, List.getD_cons_succ, Nat.reduceAdd,
      Nat.reduceMul, Nat.reduceMod]
     exact chi_lane _ _ _ (by assumption) (by assumption) (by assumption))

/-- C21: the chi step maps the state `A` to `A'` with
`A'[x,y] = A[x,y] XOR ((NOT A[(x+1) mod 5, y]) AND A[(x+2) mod 5, y])` for all `x, y` in
`0..4`, where the three lanes on the right are the lanes of the state before the step. -/
theorem C21_chi (s : List Nat) (h : ValidState s) (x y : Nat) (hx : x < 5) (hy : y < 5) :
    rL (chi s) x y
      = rL s x y ^^^ (Spec.compl64 (rL s ((x + 1) % 5) y) &&& rL s ((x + 2) % 5) y) := by
  have hA : toLanes (chi s) = Eval.chi (toLanes s) := by
    rw [(chi_sim s h).2, chi_eval _ (toLanes_length s)]
  rw [rL_eq_getD (chi s) x y hx hy, hA, rL_eq_getD s x y hx hy,
    rL_eq_getD s _ y (Nat.mod_lt _ (by decide)) hy,
    rL_eq_getD s _ y (Nat.mod_lt _ (by decide)) hy]
  exact chi_lanes (toLanes s) (toLanes_length s) (toLanes_lt s h) x y hx hy

theorem C21_chi_witness :
    (ValidState (List.range 200) ∧ 4 < 5 ∧ 3 < 5) ∧
    rL (chi (List.range 200)) 4 3
      = rL (List.range 200) 4 3
        ^^^ (Spec.compl64 (rL (List.range 200) ((4 + 1) % 5) 3)
          &&& rL (List.range 200) ((4 + 2) % 5) 3) ∧
    rL (List.range 200) 4 3 = 0x9f9e9d9c9b9a9998 ∧
    rL (chi (List.range 200)) 4 3 = 0x1f1e1d1c1b1a1918 :=
  ⟨⟨valid_range, by decide, by decide⟩,
    C21_chi (List.range 200) valid_range 4 3 (by decide) (by decide),
    by decide,
    (C21_chi (List.range 200) valid_range 4 3 (by decide) (by decide)).trans (by decide)⟩

/-! ## Shift counts of the rotations -/

theorem checked_ROL_some (a o : Nat) (h1 : 1 ≤ o) (h2 : o ≤ 63) :
    Checked.ROL a o = some (ROL a o) := by
  unfold Checked.ROL
  rw [if_pos ⟨by omega, by omega⟩]

theorem checked_ROL_none (a o : Nat) (h : o = 0 ∨ 64 ≤ o) : Checked.ROL a o = none := by
  unfold Checked.ROL
  rw [if_neg (fun hh => by omega)]

theorem forLoopM_some {σ : Type} (inv : Nat → σ → Prop) (n : Nat)
    (body : Nat → σ → Option σ) (f : Nat → σ → σ) (st : σ) (h0 : inv 0 st)
    (hstep : ∀ i, i < n → ∀ st, inv i st → body i st = some (f i st) ∧ inv (i + 1) (f i st)) :
    Checked.forLoopM n body st = some (forLoop n f st) ∧ inv n (forLoop n f st) := by
  induction n with
  | zero => exact ⟨rfl, h0⟩
  | succ n ih =>
    obtain ⟨e, hi⟩ := ih (fun i hi => hstep i (Nat.lt_succ_of_lt hi))
    obtain ⟨e2, hi2⟩ := hstep n (Nat.lt_succ_self n) _ hi
    rw [Checked.forLoopM, e]
    exact ⟨e2, hi2⟩

theorem triangle_succ (n : Nat) : (n + 1) * (n + 2) / 2 = n * (n + 1) / 2 + (n + 1) := by
  have e : (n + 1) * (n + 2) = n * (n + 1) + 2 * (n + 1) := by ring
  rw [e, Nat.add_mul_div_left _ _ (by decide : 0 < 2)]

theorem rho_offsets : ∀ j, j < 24 →
    1 ≤ (j + 1) * (j + 2) / 2 % 64 ∧ (j + 1) * (j + 2) / 2 % 64 ≤ 63 := by
  decide

theorem checked_theta (s : List Nat) : Checked.theta s = some (theta s) := by
  unfold Checked.theta theta
  exact (forLoopM_some (fun _ _ => True) 5 _ _ s trivial (fun x _ st _ => by
    refine ⟨?_, trivial⟩
    dsimp only
    rw [checked_ROL_some _ 1 (by decide) (by decide)])).1

theorem checked_rhoPiStep (j : Nat) (st : RhoPi) (hj : j < 24) (hr : st.r = j * (j + 1) / 2) :
    Checked.rhoPiStep j st = some (rhoPiStep j st) ∧
      (rhoPiStep j st).r = (j + 1) * (j + 1 + 1) / 2 := by
  have ho := rho_offsets j hj
  have e : st.r + (j + 1) = (j + 1) * (j + 2) / 2 := by rw [triangle_succ, hr]
  unfold Checked.rhoPiStep rhoPiStep
  dsimp only
  rw [e, checked_ROL_some _ _ ho.1 ho.2]
  exact ⟨rfl, rfl⟩

theorem rhoPi_r (s : List Nat) (n : Nat) (hn : n ≤ 24) :
    Checked.forLoopM n Checked.rhoPiStep { s := s, x := 1, y := 0, r := 0, D := rL s 1 0 }
      = some (forLoop n rhoPiStep { s := s, x := 1, y := 0, r := 0, D := rL s 1 0 }) ∧
    (forLoop n rhoPiStep { s := s, x := 1, y := 0, r := 0, D := rL s 1 0 }).r
      = n * (n + 1) / 2 :=
  forLoopM_some (fun i (st : RhoPi) => st.r = i * (i + 1) / 2) n _ _ _ rfl
    (fun i hi st hst => checked_rhoPiStep i st (by omega) hst)

theorem checked_rhoPi (s : List Nat) : Checked.rhoPi s = some (rhoPi s) := by
  have h := (rhoPi_r s 24 (Nat.le_refl _)).1
  unfold Checked.rhoPi rhoPi
  generalize forLoop 24 rhoPiStep { s := s, x := 1, y := 0, r := 0, D := rL s 1 0 } = X at h ⊢
  rw [h]
  rfl

theorem checked_round (p : List Nat × Nat) : Checked.round p = some (round p) := by
  have ha := checked_theta p.1
  have hb := checked_rhoPi (theta p.1)
  unfold Checked.round round
  generalize theta p.1 = a at ha hb ⊢
  generalize rhoPi a = b at hb ⊢
  rw [ha, Option.some_bind, hb]
  rfl

/-- No rotation of the permutation has an undefined shift count. -/
theorem checked_KeccakF1600 (s : List Nat) : Checked.KeccakF1600 s = some (KeccakF1600 s) := by
  have h := (forLoopM_some (fun _ (_ : List Nat × Nat) => True) 24
    (fun _ p => Checked.round p) (fun _ p => round p) (s, 0x01) trivial
    (fun _ _ st _ => ⟨checked_round st, trivial⟩)).1
  unfold Checked.KeccakF1600 KeccakF1600
  generalize forLoop 24 (fun _ p => round p) (s, 0x01) = X at h ⊢
  rw [h]
  rfl

/-- C25: every rotation `KeccakF1600` performs has an offset `o` with `1 ≤ o ≤ 63`, so that
both shifts of `ROL` have a count below 64: the permutation with checked shift counts returns,
with the result of `KeccakF1600`; `ROL` is defined exactly for `1 ≤ o ≤ 63`; theta rotates by
1; in iteration `j` of rho/pi the variable `r` is `(j + 1)(j + 2) / 2`, and none of these 24
numbers is 0 modulo 64. -/
theorem C25_rotation_offsets :
    (∀ s : List Nat, Checked.KeccakF1600 s = some (KeccakF1600 s)) ∧
    (∀ s : List Nat, Checked.theta s = some (theta s)) ∧
    (∀ s : List Nat, Checked.rhoPi s = some (rhoPi s)) ∧
    (∀ a o : Nat, (Checked.ROL a o ≠ none ↔ 1 ≤ o ∧ o ≤ 63) ∧
      (64 - o < 64 ↔ 1 ≤ o)) ∧
    (∀ (s : List Nat) (j : Nat), j < 24 →
      (forLoop (j + 1) rhoPiStep { s := s, x := 1, y := 0, r := 0, D := rL s 1 0 }).r
        = (j + 1) * (j + 2) / 2) ∧
    (∀ j, j < 24 → 1 ≤ (j + 1) * (j + 2) / 2 % 64 ∧ (j + 1) * (j + 2) / 2 % 64 ≤ 63) := by
  refine ⟨checked_KeccakF1600, checked_theta, checked_rhoPi, fun a o => ⟨⟨fun h => ?_, fun h => ?_⟩,
    by omega⟩, fun s j hj => (rhoPi_r s (j + 1) (by omega)).2, rho_offsets⟩
  · by_cases c : 1 ≤ o ∧ o ≤ 63
    · exact c
    · exact absurd (checked_ROL_none a o (by omega)) h
  · rw [checked_ROL_some a o h.1 h.2]
    exact fun hh => Option.noConfusion hh

/-! ## The rotation macro -/

theorem high_bit (sfx : Nat) (h : sfx < 256) : sfx &&& 0x80 ≠ 0 ↔ 128 ≤ sfx := by
  constructor
  · intro hne
    by_contra hlt
    exact hne (and_128_of_lt sfx (Nat.lt_of_not_le hlt))
  · intro hge hz
    have ht : (sfx &&& 0x80).testBit 7 = true := by
      rw [Nat.testBit_and, Nat.testBit_to_div_mod, Nat.testBit_to_div_mod]
      have e : sfx / 2 ^ 7 % 2 = 1 := by
        have : (2 : Nat) ^ 7 = 128 := by decide
        rw [this]
        omega
      rw [e]
      decide
    rw [hz, Nat.zero_testBit] at ht
    exact Bool.noConfusion ht

theorem unitAt_length (k v : Nat) : (Spec.unitAt k v).length = 200 := by
  unfold Spec.unitAt
  rw [List.length_set, List.length_replicate]

theorem unitAt_getD (k v j : Nat) (hk : k < 200) :
    (Spec.unitAt k v).getD j 0 = if k = j then v else 0 := by
  unfold Spec.unitAt
  rw [getD_set, List.length_replicate, getD_replicate_zero]
  by_cases c : k = j
  · rw [if_pos c, if_pos ⟨c, hk⟩]
  · rw [if_neg c, if_neg (fun hh => c hh.1)]

/-- XORing `v@k` into a state is the assignment `s[k] ^= v`. -/
theorem xorBlock_unitAt (S : List Nat) (k v : Nat) (hS : S.length = 200) (hk : k < 200) :
    S.set k (S.getD k 0 ^^^ v) = Spec.xorBlock S (Spec.unitAt k v) := by
  apply ext_getD
  · rw [List.length_set, xorBlock_length]
  · intro j hj
    rw [List.length_set] at hj
    rw [xorBlock_getD _ _ _ hj, unitAt_length, if_pos (by omega), unitAt_getD k v j hk, getD_set]
    by_cases c : k = j
    · rw [if_pos c, if_pos ⟨c, by omega⟩, c]
    · rw [if_neg c, if_neg (fun hh => c hh.1), Nat.xor_zero]

theorem blocks_nil_of_lt (R : Nat) (M : List Nat) (h : M.length < R) : Spec.blocks R M = [] := by
  unfold Spec.blocks
  rw [Nat.div_eq_of_lt h]
  rfl

/-- The absorb loop: the state and `b` after it. -/
theorem absorb_state (R : Nat) (hR : 1 ≤ R) (k : Nat) :
    ∀ (M s : List Nat) (fuel : Nat), M.length / R = k → M.length ≤ fuel →
      absorb R fuel s M 0
        = some (Spec.xorBlock (Spec.absorbBlocks s (Spec.blocks R M)) (M.drop (R * k)),
            M.length % R) := by
  induction k with
  | zero =>
    intro M s fuel hk hf
    have hM : M.length < R := by
      rcases Nat.lt_or_ge M.length R with h | h
      · exact h
      · have := Nat.div_pos h hR
        omega
    rw [absorb_short R fuel s M hM hf, xorIn_eq_xorBlock s M M.length (Nat.le_refl _),
      List.take_length, blocks_nil_of_lt R M hM, Nat.mul_zero, List.drop_zero,
      Nat.mod_eq_of_lt hM]
    rfl
  | succ k ih =>
    intro M s fuel hk hf
    have hM : R ≤ M.length := by
      rcases Nat.lt_or_ge M.length R with h | h
      · rw [Nat.div_eq_of_lt h] at hk
        omega
      · exact h
    have hpos : 0 < M.length := by omega
    obtain ⟨fuel', rfl⟩ : ∃ f, fuel = f + 1 := ⟨fuel - 1, by omega⟩
    have e : M.length / R = (M.length - R) / R + 1 := by
      have := Nat.sub_add_cancel hM
      conv => lhs; rw [← this]
      exact Nat.add_div_right _ hR
    have hk' : (M.drop R).length / R = k := by
      rw [List.length_drop]
      omega
    have hf' : (M.drop R).length ≤ fuel' := by
      rw [List.length_drop]; omega
    have hmod : (M.drop R).length % R = M.length % R := by
      rw [List.length_drop]
      have := Nat.sub_add_cancel hM
      conv => rhs; rw [← this]
      exact (Nat.add_mod_right _ _).symm
    have hb : Spec.blocks R M = M.take R :: Spec.blocks R (M.drop R) := by
      have := blocks_append R (M.take R) (M.drop R) hR (by rw [List.length_take]; omega)
      rw [List.take_append_drop] at this
      exact this
    rw [absorb_full R fuel' s M hM hpos, ih (M.drop R) _ fuel' hk' hf', hb, hmod,
      List.drop_drop, xorIn_eq_xorBlock s M R hM]
    have e2 : R + R * k = R * (k + 1) := by ring
    unfold Spec.absorbBlocks
    rw [List.foldl_cons, e2]

theorem absorb_absorbed (R : Nat) (M : List Nat) (hR : 1 ≤ R) :
    absorb R M.length (List.replicate 200 0) M 0 = some (Spec.absorbed R M, M.length % R) := by
  rw [absorb_state R hR (M.length / R) M _ M.length rfl (Nat.le_refl _)]
  rfl

theorem absorbed_length (R : Nat) (M : List Nat) : (Spec.absorbed R M).length = 200 := by
  unfold Spec.absorbed
  rw [xorBlock_length, absorbBlocks_length _ _ (List.length_replicate _ _)]

theorem pad_two (R sfx : Nat) (S : List Nat) (hR : 1 ≤ R) (hR2 : R ≤ 200) (hS : S.length = 200)
    (hs : sfx &&& 0x80 ≠ 0) :
    pad R sfx S (R - 1)
      = KeccakF1600 (Spec.xorBlock (KeccakF1600 (Spec.xorBlock S (Spec.unitAt (R - 1) sfx)))
          (Spec.unitAt (R - 1) 0x80)) := by
  have hd := decU32_eq R hR hR2
  rw [pad_unfold R sfx S (R - 1) _ _ _ rfl rfl rfl, hd, if_pos ⟨hs, rfl⟩,
    xorBlock_unitAt S (R - 1) sfx hS (by omega),
    xorBlock_unitAt _ (R - 1) 0x80 (by rw [KeccakF1600_length, xorBlock_length]; exact hS)
      (by omega)]

theorem pad_one (R sfx : Nat) (S : List Nat) (b : Nat) (hR : 1 ≤ R) (hR2 : R ≤ 200)
    (hS : S.length = 200) (hb : b < R) (hs : ¬ (sfx &&& 0x80 ≠ 0 ∧ b = R - 1)) :
    pad R sfx S b
      = KeccakF1600 (Spec.xorBlock (Spec.xorBlock S (Spec.unitAt b sfx))
          (Spec.unitAt (R - 1) 0x80)) := by
  have hd := decU32_eq R hR hR2
  rw [pad_unfold R sfx S b _ _ _ rfl rfl rfl, hd, if_neg hs,
    xorBlock_unitAt S b sfx hS (by omega),
    xorBlock_unitAt _ (R - 1) 0x80 (by rw [xorBlock_length]; exact hS) (by omega)]

/-- C23: the padding rule of `Keccak`, for every block size `1 ≤ R ≤ 200`, every suffix byte
and every message `M`. With `S` the state after the full message blocks and the partial block
have been XORed in, `F = KeccakF1600` and `v@k` the 200-byte string that is `v` at index `k`
and 0 elsewhere: the absorb loop ends with the state `S` and `b = |M| mod R`; if the suffix has
its high bit set and `|M| mod R = R - 1`, the padded state is
`F(F(S xor sfx@(R-1)) xor 0x80@(R-1))`; in every other case it is
`F(S xor sfx@(|M| mod R) xor 0x80@(R-1))`; the output of `Keccak` is squeezed from the padded
state. -/
theorem C23_padding_rule (R : Nat) (M : List Nat) (sfx : Nat) (hR : 1 ≤ R) (hR2 : R ≤ 200)
    (hs : sfx < 256) :
    absorb R M.length (List.replicate 200 0) M 0 = some (Spec.absorbed R M, M.length % R) ∧
    (128 ≤ sfx ∧ M.length % R = R - 1 →
      pad R sfx (Spec.absorbed R M) (M.length % R)
        = KeccakF1600 (Spec.xorBlock
            (KeccakF1600 (Spec.xorBlock (Spec.absorbed R M) (Spec.unitAt (R - 1) sfx)))
            (Spec.unitAt (R - 1) 0x80))) ∧
    (¬ (128 ≤ sfx ∧ M.length % R = R - 1) →
      pad R sfx (Spec.absorbed R M) (M.length % R)
        = KeccakF1600 (Spec.xorBlock
            (Spec.xorBlock (Spec.absorbed R M) (Spec.unitAt (M.length % R) sfx))
            (Spec.unitAt (R - 1) 0x80))) ∧
    (∀ r c L : Nat, r / 8 = R →
      Keccak r c M sfx L
        = squeeze R L (pad R sfx (Spec.absorbed R M) (M.length % R)) L []) := by
  have hb : M.length % R < R := Nat.mod_lt _ hR
  have hh := high_bit sfx hs
  refine ⟨absorb_absorbed R M hR, fun h => ?_, fun h => ?_, fun r c L hr => ?_⟩
  · rw [h.2]
    exact pad_two R sfx _ hR hR2 (absorbed_length R M) (hh.mpr h.1)
  · exact pad_one R sfx _ _ hR hR2 (absorbed_length R M) hb
      (fun hc => h ⟨hh.mp hc.1, hc.2⟩)
  · subst hr
    unfold Keccak
    simp only [init_state, absorb_absorbed (r / 8) M hR]

theorem C23_padding_rule_witness :
    (1 ≤ 136 ∧ 136 ≤ 200 ∧ 0x86 < 256) ∧
    (absorb 136 (List.replicate 135 0x61).length (List.replicate 200 0) (List.replicate 135 0x61) 0
      = some (Spec.absorbed 136 (List.replicate 135 0x61),
          (List.replicate 135 0x61).length % 136) ∧
    (128 ≤ 0x86 ∧ (List.replicate 135 0x61).length % 136 = 136 - 1 →
      pad 136 0x86 (Spec.absorbed 136 (List.replicate 135 0x61))
          ((List.replicate 135 0x61).length % 136)
        = KeccakF1600 (Spec.xorBlock
            (KeccakF1600 (Spec.xorBlock (Spec.absorbed 136 (List.replicate 135 0x61))
              (Spec.unitAt (136 - 1) 0x86)))
            (Spec.unitAt (136 - 1) 0x80))) ∧
    (¬ (128 ≤ 0x86 ∧ (List.replicate 135 0x61).length % 136 = 136 - 1) →
      pad 136 0x86 (Spec.absorbed 136 (List.replicate 135 0x61))
          ((List.replicate 135 0x61).length % 136)
        = KeccakF1600 (Spec.xorBlock
            (Spec.xorBlock (Spec.absorbed 136 (List.replicate 135 0x61))
              (Spec.unitAt ((List.replicate 135 0x61).length % 136) 0x86))
            (Spec.unitAt (136 - 1) 0x80))) ∧
    (∀ r c L : Nat, r / 8 = 136 →
      Keccak r c (List.replicate 135 0x61) 0x86 L
        = squeeze 136 L (pad 136 0x86 (Spec.absorbed 136 (List.replicate 135 0x61))
            ((List.replicate 135 0x61).length % 136)) L [])) :=
  ⟨⟨by decide, by decide, by decide⟩,
    C23_padding_rule 136 (List.replicate 135 0x61) 0x86 (by decide) (by decide) (by decide)⟩

end Sha3

namespace ChaCha20

open Sha3 (getD_set ext_getD forLoop bytes_getD)

/-! ## ChaCha20: the unrolled block function -/

theorem view_self (i j k l : Nat) (s : List Nat) :
    View i j k l s s (s.getD i 0) (s.getD j 0) (s.getD k 0) (s.getD l 0) :=
  ⟨rfl, rfl, rfl, rfl, rfl, fun _ _ _ _ _ => rfl⟩

theorem view_set_i (i j k l : Nat) (o s : List Nat) (a b c d v a1 : Nat)
    (hL : Line i j k l) (hs : s.length = 16) (h : View i j k l o s a b c d) (hv : v = a1) :
    View i j k l (o.set i v) s a1 b c d := by
  obtain ⟨hi, hj, hk, hl, h1, h2, h3, h4, h5, h6⟩ := hL
  obtain ⟨e0, ea, eb, ec, ed, eo⟩ := h
  refine ⟨by rw [List.length_set, e0], ?_, ?_, ?_, ?_, fun m m1 m2 m3 m4 => ?_⟩
  · rw [getD_set, if_pos ⟨rfl, by omega⟩, hv]
  · rw [getD_set, if_neg (fun hh => h1 hh.1), eb]
  · rw [getD_set, if_neg (fun hh => h2 hh.1), ec]
  · rw [getD_set, if_neg (fun hh => h3 hh.1), ed]
  · rw [getD_set, if_neg (fun hh => m1 hh.1.symm), eo m m1 m2 m3 m4]

theorem view_set_j (i j k l : Nat) (o s : List Nat) (a b c d v b1 : Nat)
    (hL : Line i j k l) (hs : s.length = 16) (h : View i j k l o s a b c d) (hv : v = b1) :
    View i j k l (o.set j v) s a b1 c d := by
  obtain ⟨hi, hj, hk, hl, h1, h2, h3, h4, h5, h6⟩ := hL
  obtain ⟨e0, ea, eb, ec, ed, eo⟩ := h
  refine ⟨by rw [List.length_set, e0], ?_, ?_, ?_, ?_, fun m m1 m2 m3 m4 => ?_⟩
  · rw [getD_set, if_neg (fun hh => h1 hh.1.symm), ea]
  · rw [getD_set, if_pos ⟨rfl, by omega⟩, hv]
  · rw [getD_set, if_neg (fun hh => h4 hh.1), ec]
  · rw [getD_set, if_neg (fun hh => h5 hh.1), ed]
  · rw [getD_set, if_neg (fun hh => m2 hh.1.symm), eo m m1 m2 m3 m4]

theorem view_set_k (i j k l : Nat) (o s : List Nat) (a b c d v c1 : Nat)
    (hL : Line i j k l) (hs : s.length = 16) (h : View i j k l o s a b c d) (hv : v = c1) :
    View i j k l (o.set k v) s a b c1 d := by
  obtain ⟨hi, hj, hk, hl, h1, h2, h3, h4, h5, h6⟩ := hL
  obtain ⟨e0, ea, eb, ec, ed, eo⟩ := h
  refine ⟨by rw [List.length_set, e0], ?_, ?_, ?_, ?_, fun m m1 m2 m3 m4 => ?_⟩
  · rw [getD_set, if_neg (fun hh => h2 hh.1.symm), ea]
  · rw [getD_set, if_neg (fun hh => h4 hh.1.symm), eb]
  · rw [getD_set, if_pos ⟨rfl, by omega⟩, hv]
  · rw [getD_set, if_neg (fun hh => h6 hh.1), ed]
  · rw [getD_set, if_neg (fun hh => m3 hh.1.symm), eo m m1 m2 m3 m4]

theorem view_set_l (i j k l : Nat) (o s : List Nat) (a b c d v d1 : Nat)
    (hL : Line i j k l) (hs : s.length = 16) (h : View i j k l o s a b c d) (hv : v = d1) :
    View i j k l (o.set l v) s a b c d1 := by
  obtain ⟨hi, hj, hk, hl, h1, h2, h3, h4, h5, h6⟩ := hL
  obtain ⟨e0, ea, eb, ec, ed, eo⟩ := h
  refine ⟨by rw [List.length_set, e0], ?_, ?_, ?_, ?_, fun m m1 m2 m3 m4 => ?_⟩
  · rw [getD_set, if_neg (fun hh => h3 hh.1.symm), ea]
  · rw [getD_set, if_neg (fun hh => h5 hh.1.symm), eb]
  · rw [getD_set, if_neg (fun hh => h6 hh.1.symm), ec]
  · rw [getD_set, if_pos ⟨rfl, by omega⟩, hv]
  · rw [getD_set, if_neg (fun hh => m4 hh.1.symm), eo m m1 m2 m3 m4]

/-- Two lists with the same view are equal. -/
theorem view_unique (i j k l : Nat) (o1 o2 s : List Nat) (a b c d : Nat)
    (h1 : View i j k l o1 s a b c d) (h2 : View i j k l o2 s a b c d) : o1 = o2 := by
  obtain ⟨e0, ea, eb, ec, ed, eo⟩ := h1
  obtain ⟨f0, fa, fb, fc, fd, fo⟩ := h2
  apply ext_getD
  · rw [e0, f0]
  · intro m _
    by_cases m1 : m = i
    · rw [m1, ea, fa]
    · by_cases m2 : m = j
      · rw [m2, eb, fb]
      · by_cases m3 : m = k
        · rw [m3, ec, fc]
        · by_cases m4 : m = l
          · rw [m4, ed, fd]
          · rw [eo m m1 m2 m3 m4, fo m m1 m2 m3 m4]

/-- The macro `CHACHA20_QR` with its intermediate arrays named. -/
theorem QR_unfold (out : List Nat) (a b c d : Nat)
    (o1 o2 o3 o4 o5 o6 o7 o8 o9 o10 o11 o12 : List Nat)
    (h1 : o1 = out.set a ((out.getD a 0 + out.getD b 0) % 2 ^ 32))
    (h2 : o2 = o1.set d (o1.getD d 0 ^^^ o1.getD a 0))
    (h3 : o3 = o2.set d (CHACHA20_ROTL (o2.getD d 0) 16))
    (h4 : o4 = o3.set c ((o3.getD c 0 + o3.getD d 0) % 2 ^ 32))
    (h5 : o5 = o4.set b (o4.getD b 0 ^^^ o4.getD c 0))
    (h6 : o6 = o5.set b (CHACHA20_ROTL (o5.getD b 0) 12))
    (h7 : o7 = o6.set a ((o6.getD a 0 + o6.getD b 0) % 2 ^ 32))
    (h8 : o8 = o7.set d (o7.getD d 0 ^^^ o7.getD a 0))
    (h9 : o9 = o8.set d (CHACHA20_ROTL (o8.getD d 0) 8))
    (h10 : o10 = o9.set c ((o9.getD c 0 + o9.getD d 0) % 2 ^ 32))
    (h11 : o11 = o10.set b (o10.getD b 0 ^^^ o10.getD c 0))
    (h12 : o12 = o11.set b (CHACHA20_ROTL (o11.getD b 0) 7)) :
    CHACHA20_QR out a b c d = o12 := by
  subst h1 h2 h3 h4 h5 h6 h7 h8 h9 h10 h11 h12
  rfl

/-- The macro `CHACHA20_QR` on four different words of the array: the four words become the
values of `qrMacro`, the other words stay. -/
theorem QR_view (i j k l : Nat) (out s : List Nat) (a b c d : Nat) (hL : Line i j k l)
    (hs : s.length = 16) (h : View i j k l out s a b c d) :
    View i j k l (CHACHA20_QR out i j k l) s (qrMacro a b c d).1 (qrMacro a b c d).2.1
      (qrMacro a b c d).2.2.1 (qrMacro a b c d).2.2.2 := by
  obtain ⟨a1, ea1⟩ : ∃ x, x = (a + b) % 2 ^ 32 := ⟨_, rfl⟩
  obtain ⟨d1, ed1⟩ : ∃ x, x = d ^^^ a1 := ⟨_, rfl⟩
  obtain ⟨d2, ed2⟩ : ∃ x, x = CHACHA20_ROTL d1 16 := ⟨_, rfl⟩
  obtain ⟨c1, ec1⟩ : ∃ x, x = (c + d2) % 2 ^ 32 := ⟨_, rfl⟩
  obtain ⟨b1, eb1⟩ : ∃ x, x = b ^^^ c1 := ⟨_, rfl⟩
  obtain ⟨b2, eb2⟩ : ∃ x, x = CHACHA20_ROTL b1 12 := ⟨_, rfl⟩
  obtain ⟨a2, ea2⟩ : ∃ x, x = (a1 + b2) % 2 ^ 32 := ⟨_, rfl⟩
  obtain ⟨d3, ed3⟩ : ∃ x, x = d2 ^^^ a2 := ⟨_, rfl⟩
  obtain ⟨d4, ed4⟩ : ∃ x, x = CHACHA20_ROTL d3 8 := ⟨_, rfl⟩
  obtain ⟨c2, ec2⟩ : ∃ x, x = (c1 + d4) % 2 ^ 32 := ⟨_, rfl⟩
  obtain ⟨b3, eb3⟩ : ∃ x, x = b2 ^^^ c2 := ⟨_, rfl⟩
  obtain ⟨b4, eb4⟩ : ∃ x, x = CHACHA20_ROTL b3 7 := ⟨_, rfl⟩
  obtain ⟨o1, e1⟩ : ∃ o, o = out.set i ((out.getD i 0 + out.getD j 0) % 2 ^ 32) := ⟨_, rfl⟩
  have v1 : View i j k l o1 s a1 b c d := by
    rw [e1]
    exact view_set_i i j k l _ s _ _ _ _ _ _ hL hs h (by rw [h.2.1, h.2.2.1, ea1])
  obtain ⟨o2, e2⟩ : ∃ o, o = o1.set l (o1.getD l 0 ^^^ o1.getD i 0) := ⟨_, rfl⟩
  have v2 : View i j k l o2 s a1 b c d1 := by
    rw [e2]
    exact view_set_l i j k l _ s _ _ _ _ _ _ hL hs v1 (by rw [v1.2.2.2.2.1, v1.2.1, ed1])
  obtain ⟨o3, e3⟩ : ∃ o, o = o2.set l (CHACHA20_ROTL (o2.getD l 0) 16) := ⟨_, rfl⟩
  have v3 : View i j k l o3 s a1 b c d2 := by
    rw [e3]
    exact view_set_l i j k l _ s _ _ _ _ _ _ hL hs v2 (by rw [v2.2.2.2.2.1, ed2])
  obtain ⟨o4, e4⟩ : ∃ o, o = o3.set k ((o3.getD k 0 + o3.getD l 0) % 2 ^ 32) := ⟨_, rfl⟩
  have v4 : View i j k l o4 s a1 b c1 d2 := by
    rw [e4]
    exact view_set_k i j k l _ s _ _ _ _ _ _ hL hs v3 (by rw [v3.2.2.2.1, v3.2.2.2.2.1, ec1])
  obtain ⟨o5, e5⟩ : ∃ o, o = o4.set j (o4.getD j 0 ^^^ o4.getD k 0) := ⟨_, rfl⟩
  have v5 : View i j k l o5 s a1 b1 c1 d2 := by
    rw [e5]
    exact view_set_j i j k l _ s _ _ _ _ _ _ hL hs v4 (by rw [v4.2.2.1, v4.2.2.2.1, eb1])
  obtain ⟨o6, e6⟩ : ∃ o, o = o5.set j (CHACHA20_ROTL (o5.getD j 0) 12) := ⟨_, rfl⟩
  have v6 : View i j k l o6 s a1 b2 c1 d2 := by
    rw [e6]
    exact view_set_j i j k l _ s _ _ _ _ _ _ hL hs v5 (by rw [v5.2.2.1, eb2])
  obtain ⟨o7, e7⟩ : ∃ o, o = o6.set i ((o6.getD i 0 + o6.getD j 0) % 2 ^ 32) := ⟨_, rfl⟩
  have v7 : View i j k l o7 s a2 b2 c1 d2 := by
    rw [e7]
    exact view_set_i i j k l _ s _ _ _ _ _ _ hL hs v6 (by rw [v6.2.1, v6.2.2.1, ea2])
  obtain ⟨o8, e8⟩ : ∃ o, o = o7.set l (o7.getD l 0 ^^^ o7.getD i 0) := ⟨_, rfl⟩
  have v8 : View i j k l o8 s a2 b2 c1 d3 := by
    rw [e8]
    exact view_set_l i j k l _ s _ _ _ _ _ _ hL hs v7 (by rw [v7.2.2.2.2.1, v7.2.1, ed3])
  obtain ⟨o9, e9⟩ : ∃ o, o = o8.set l (CHACHA20_ROTL (o8.getD l 0) 8) := ⟨_, rfl⟩
  have v9 : View i j k l o9 s a2 b2 c1 d4 := by
    rw [e9]
    exact view_set_l i j k l _ s _ _ _ _ _ _ hL hs v8 (by rw [v8.2.2.2.2.1, ed4])
  obtain ⟨o10, e10⟩ : ∃ o, o = o9.set k ((o9.getD k 0 + o9.getD l 0) % 2 ^ 32) := ⟨_, rfl⟩
  have v10 : View i j k l o10 s a2 b2 c2 d4 := by
    rw [e10]
    exact view_set_k i j k l _ s _ _ _ _ _ _ hL hs v9 (by rw [v9.2.2.2.1, v9.2.2.2.2.1, ec2])
  obtain ⟨o11, e11⟩ : ∃ o, o = o10.set j (o10.getD j 0 ^^^ o10.getD k 0) := ⟨_, rfl⟩
  have v11 : View i j k l o11 s a2 b3 c2 d4 := by
    rw [e11]
    exact view_set_j i j k l _ s _ _ _ _ _ _ hL hs v10 (by rw [v10.2.2.1, v10.2.2.2.1, eb3])
  obtain ⟨o12, e12⟩ : ∃ o, o = o11.set j (CHACHA20_ROTL (o11.getD j 0) 7) := ⟨_, rfl⟩
  have v12 : View i j k l o12 s a2 b4 c2 d4 := by
    rw [e12]
    exact view_set_j i j k l _ s _ _ _ _ _ _ hL hs v11 (by rw [v11.2.2.1, eb4])
  rw [QR_unfold out i j k l o1 o2 o3 o4 o5 o6 o7 o8 o9 o10 o11 o12 e1 e2 e3 e4 e5 e6 e7 e8 e9
    e10 e11 e12]
  subst ea1 ed1 ed2 ec1 eb1 eb2 ea2 ed3 ed4 ec2 eb3 eb4
  exact v12

theorem rotl32_lt (x n : Nat) : Spec.rotl32 x n < 2 ^ 32 :=
  Nat.mod_lt _ (by decide)

/-- On 32-bit words the macro `CHACHA20_ROTL` is the left rotation. -/
theorem ROTL_eq (x n : Nat) (hx : x < 2 ^ 32) : CHACHA20_ROTL x n = Spec.rotl32 x n := by
  have h : x >>> (32 - n) < 2 ^ 32 := by
    rw [Nat.shiftRight_eq_div_pow]
    exact Nat.lt_of_le_of_lt (Nat.div_le_self _ _) hx
  unfold CHACHA20_ROTL Spec.rotl32
  apply Nat.eq_of_testBit_eq
  intro i
  rw [Nat.testBit_or, Nat.testBit_mod_two_pow, Nat.testBit_mod_two_pow, Nat.testBit_or]
  by_cases hi : i < 32
  · simp [hi]
  · have hz : (x >>> (32 - n)).testBit i = false :=
      Nat.testBit_lt_two_pow (Nat.lt_of_lt_of_le h
        (Nat.pow_le_pow_right (by decide) (Nat.le_of_not_lt hi)))
    rw [hz]
    simp [hi]

theorem xor_lt32 (a b : Nat) (ha : a < 2 ^ 32) (hb : b < 2 ^ 32) : a ^^^ b < 2 ^ 32 :=
  Nat.xor_lt_two_pow ha hb

theorem mod_lt32 (a : Nat) : a % 2 ^ 32 < 2 ^ 32 := Nat.mod_lt _ (by decide)

/-- On 32-bit words the macro `CHACHA20_QR` computes the quarter round. -/
theorem qrMacro_eq (a b c d : Nat) (hb : b < 2 ^ 32) (hd : d < 2 ^ 32) :
    qrMacro a b c d = Spec.QR a b c d := by
  unfold qrMacro Spec.QR
  dsimp only
  have e1 := ROTL_eq (d ^^^ (a + b) % 2 ^ 32) 16 (xor_lt32 _ _ hd (mod_lt32 _))
  rw [e1]
  have e2 := ROTL_eq (b ^^^ (c + Spec.rotl32 (d ^^^ (a + b) % 2 ^ 32) 16) % 2 ^ 32) 12
    (xor_lt32 _ _ hb (mod_lt32 _))
  rw [e2]
  have e3 := ROTL_eq (Spec.rotl32 (d ^^^ (a + b) % 2 ^ 32) 16 ^^^
    ((a + b) % 2 ^ 32 +
      Spec.rotl32 (b ^^^ (c + Spec.rotl32 (d ^^^ (a + b) % 2 ^ 32) 16) % 2 ^ 32) 12) % 2 ^ 32) 8
    (xor_lt32 _ _ (rotl32_lt _ _) (mod_lt32 _))
  rw [e3]
  have e4 := ROTL_eq (Spec.rotl32 (b ^^^ (c + Spec.rotl32 (d ^^^ (a + b) % 2 ^ 32) 16) % 2 ^ 32) 12
    ^^^ ((c + Spec.rotl32 (d ^^^ (a + b) % 2 ^ 32) 16) % 2 ^ 32 +
      Spec.rotl32 (Spec.rotl32 (d ^^^ (a + b) % 2 ^ 32) 16 ^^^
        ((a + b) % 2 ^ 32 +
          Spec.rotl32 (b ^^^ (c + Spec.rotl32 (d ^^^ (a + b) % 2 ^ 32) 16) % 2 ^ 32) 12)
            % 2 ^ 32) 8) % 2 ^ 32) 7
    (xor_lt32 _ _ (rotl32_lt _ _) (mod_lt32 _))
  rw [e4]

theorem QR_lt (a b c d : Nat) :
    (Spec.QR a b c d).1 < 2 ^ 32 ∧ (Spec.QR a b c d).2.1 < 2 ^ 32 ∧
      (Spec.QR a b c d).2.2.1 < 2 ^ 32 ∧ (Spec.QR a b c d).2.2.2 < 2 ^ 32 :=
  ⟨mod_lt32 _, rotl32_lt _ _, mod_lt32 _, rotl32_lt _ _⟩

theorem quarter_view (i j k l : Nat) (s : List Nat) (hL : Line i j k l) (hs : s.length = 16) :
    View i j k l (Spec.quarter s i j k l) s
      (Spec.QR (s.getD i 0) (s.getD j 0) (s.getD k 0) (s.getD l 0)).1
      (Spec.QR (s.getD i 0) (s.getD j 0) (s.getD k 0) (s.getD l 0)).2.1
      (Spec.QR (s.getD i 0) (s.getD j 0) (s.getD k 0) (s.getD l 0)).2.2.1
      (Spec.QR (s.getD i 0) (s.getD j 0) (s.getD k 0) (s.getD l 0)).2.2.2 := by
  unfold Spec.quarter
  dsimp only
  generalize Spec.QR (s.getD i 0) (s.getD j 0) (s.getD k 0) (s.getD l 0) = q
  exact view_set_l i j k l _ s _ _ _ _ _ _ hL hs
    (view_set_k i j k l _ s _ _ _ _ _ _ hL hs
      (view_set_j i j k l _ s _ _ _ _ _ _ hL hs
        (view_set_i i j k l _ s _ _ _ _ _ _ hL hs (view_self i j k l s) rfl) rfl) rfl) rfl

/-- One invocation of the macro is the quarter round on the four words. -/
theorem QR_list (i j k l : Nat) (s : List Nat) (hL : Line i j k l) (hs : s.length = 16)
    (hb : ∀ m, s.getD m 0 < 2 ^ 32) :
    CHACHA20_QR s i j k l = Spec.quarter s i j k l := by
  have h1 := QR_view i j k l s s _ _ _ _ hL hs (view_self i j k l s)
  rw [qrMacro_eq _ _ _ _ (hb j) (hb l)] at h1
  exact view_unique i j k l _ _ s _ _ _ _ h1 (quarter_view i j k l s hL hs)

theorem quarter_length (i j k l : Nat) (s : List Nat) :
    (Spec.quarter s i j k l).length = s.length := by
  unfold Spec.quarter
  dsimp only
  rw [List.length_set, List.length_set, List.length_set, List.length_set]

theorem quarter_lt (i j k l : Nat) (s : List Nat) (hb : ∀ m, s.getD m 0 < 2 ^ 32) :
    ∀ m, (Spec.quarter s i j k l).getD m 0 < 2 ^ 32 := by
  intro m
  have q := QR_lt (s.getD i 0) (s.getD j 0) (s.getD k 0) (s.getD l 0)
  unfold Spec.quarter
  dsimp only
  rw [getD_set]
  split
  · exact q.2.2.2
  · rw [getD_set]
    split
    · exact q.2.2.1
    · rw [getD_set]
      split
      · exact q.2.1
      · rw [getD_set]
        split
        · exact q.1
        · exact hb m

theorem line_col0 : Line 0 4 8 12 := by unfold Line; decide
theorem line_col1 : Line 1 5 9 13 := by unfold Line; decide
theorem line_col2 : Line 2 6 10 14 := by unfold Line; decide
theorem line_col3 : Line 3 7 11 15 := by unfold Line; decide
theorem line_diag0 : Line 0 5 10 15 := by unfold Line; decide
theorem line_diag1 : Line 1 6 11 12 := by unfold Line; decide
theorem line_diag2 : Line 2 7 8 13 := by unfold Line; decide
theorem line_diag3 : Line 3 4 9 14 := by unfold Line; decide

theorem DR_unfold (s : List Nat) :
    Spec.DR s = Spec.quarter (Spec.quarter (Spec.quarter (Spec.quarter (Spec.quarter
      (Spec.quarter (Spec.quarter (Spec.quarter s 0 4 8 12) 1 5 9 13) 2 6 10 14) 3 7 11 15)
      0 5 10 15) 1 6 11 12) 2 7 8 13) 3 4 9 14 := by
  simp only [Spec.DR, Spec.lines, List.foldl_cons, List.foldl_nil]

/-- The eight invocations of one round of the unrolled code are the double round. -/
theorem DR_list (s : List Nat) (hs : s.length = 16) (hb : ∀ m, s.getD m 0 < 2 ^ 32) :
    CHACHA20_QR (CHACHA20_QR (CHACHA20_QR (CHACHA20_QR (CHACHA20_QR (CHACHA20_QR (CHACHA20_QR
      (CHACHA20_QR s 0 4 8 12) 1 5 9 13) 2 6 10 14) 3 7 11 15) 0 5 10 15) 1 6 11 12) 2 7 8 13)
      3 4 9 14 = Spec.DR s ∧
    (Spec.DR s).length = 16 ∧ ∀ m, (Spec.DR s).getD m 0 < 2 ^ 32 := by
  rw [DR_unfold]
  obtain ⟨s1, e1⟩ : ∃ t, t = Spec.quarter s 0 4 8 12 := ⟨_, rfl⟩
  have l1 : s1.length = 16 := by rw [e1, quarter_length, hs]
  have b1 : ∀ m, s1.getD m 0 < 2 ^ 32 := by rw [e1]; exact quarter_lt _ _ _ _ s hb
  obtain ⟨s2, e2⟩ : ∃ t, t = Spec.quarter s1 1 5 9 13 := ⟨_, rfl⟩
  have l2 : s2.length = 16 := by rw [e2, quarter_length, l1]
  have b2 : ∀ m, s2.getD m 0 < 2 ^ 32 := by rw [e2]; exact quarter_lt _ _ _ _ s1 b1
  obtain ⟨s3, e3⟩ : ∃ t, t = Spec.quarter s2 2 6 10 14 := ⟨_, rfl⟩
  have l3 : s3.length = 16 := by rw [e3, quarter_length, l2]
  have b3 : ∀ m, s3.getD m 0 < 2 ^ 32 := by rw [e3]; exact quarter_lt _ _ _ _ s2 b2
  obtain ⟨s4, e4⟩ : ∃ t, t = Spec.quarter s3 3 7 11 15 := ⟨_, rfl⟩
  have l4 : s4.length = 16 := by rw [e4, quarter_length, l3]
  have b4 : ∀ m, s4.getD m 0 < 2 ^ 32 := by rw [e4]; exact quarter_lt _ _ _ _ s3 b3
  obtain ⟨s5, e5⟩ : ∃ t, t = Spec.quarter s4 0 5 10 15 := ⟨_, rfl⟩
  have l5 : s5.length = 16 := by rw [e5, quarter_length, l4]
  have b5 : ∀ m, s5.getD m 0 < 2 ^ 32 := by rw [e5]; exact quarter_lt _ _ _ _ s4 b4
  obtain ⟨s6, e6⟩ : ∃ t, t = Spec.quarter s5 1 6 11 12 := ⟨_, rfl⟩
  have l6 : s6.length = 16 := by rw [e6, quarter_length, l5]
  have b6 : ∀ m, s6.getD m 0 < 2 ^ 32 := by rw [e6]; exact quarter_lt _ _ _ _ s5 b5
  obtain ⟨s7, e7⟩ : ∃ t, t = Spec.quarter s6 2 7 8 13 := ⟨_, rfl⟩
  have l7 : s7.length = 16 := by rw [e7, quarter_length, l6]
  have b7 : ∀ m, s7.getD m 0 < 2 ^ 32 := by rw [e7]; exact quarter_lt _ _ _ _ s6 b6
  rw [QR_list 0 4 8 12 s line_col0 hs hb, ← e1, QR_list 1 5 9 13 s1 line_col1 l1 b1, ← e2,
    QR_list 2 6 10 14 s2 line_col2 l2 b2, ← e3, QR_list 3 7 11 15 s3 line_col3 l3 b3, ← e4,
    QR_list 0 5 10 15 s4 line_diag0 l4 b4, ← e5, QR_list 1 6 11 12 s5 line_diag1 l5 b5, ← e6,
    QR_list 2 7 8 13 s6 line_diag2 l6 b6, ← e7, QR_list 3 4 9 14 s7 line_diag3 l7 b7]
  exact ⟨rfl, by rw [quarter_length, l7], quarter_lt _ _ _ _ s7 b7⟩

theorem copy_loop (inp o : List Nat) (n : Nat) :
    (forLoop n (fun i out => out.set i (inp.getD i 0)) o).length = o.length ∧
    ∀ m, (forLoop n (fun i out => out.set i (inp.getD i 0)) o).getD m 0
      = if m < n ∧ m < o.length then inp.getD m 0 else o.getD m 0 := by
  induction n with
  | zero => exact ⟨rfl, fun m => by rw [if_neg (fun hh => Nat.not_lt_zero m hh.1)]; rfl⟩
  | succ n ih =>
    obtain ⟨il, ig⟩ := ih
    refine ⟨by rw [forLoop, List.length_set, il], fun m => ?_⟩
    rw [forLoop, getD_set, il, ig]
    by_cases c : n = m
    · subst c
      by_cases c2 : n < o.length
      · rw [if_pos ⟨rfl, c2⟩, if_pos ⟨Nat.lt_succ_self n, c2⟩]
      · rw [if_neg (fun hh => c2 hh.2), if_neg (fun hh => c2 hh.2), if_neg (fun hh => c2 hh.2)]
    · rw [if_neg (fun hh => c hh.1)]
      by_cases c3 : m < n ∧ m < o.length
      · rw [if_pos c3, if_pos ⟨by omega, c3.2⟩]
      · rw [if_neg c3, if_neg (fun hh => c3 ⟨by omega, hh.2⟩)]

theorem copy_eq (inp : List Nat) (hl : inp.length = 16) :
    forLoop 16 (fun i out => out.set i (inp.getD i 0)) (List.replicate 16 0) = inp := by
  have h := copy_loop inp (List.replicate 16 0) 16
  apply ext_getD
  · rw [h.1, List.length_replicate, hl]
  · intro m hm
    rw [h.1, List.length_replicate] at hm
    rw [h.2, List.length_replicate, if_pos ⟨hm, hm⟩]

theorem add_loop (inp o : List Nat) (n : Nat) :
    (forLoop n (fun i out => out.set i ((out.getD i 0 + inp.getD i 0) % 2 ^ 32)) o).length
      = o.length ∧
    ∀ m, (forLoop n (fun i out => out.set i ((out.getD i 0 + inp.getD i 0) % 2 ^ 32)) o).getD m 0
      = if m < n ∧ m < o.length then (o.getD m 0 + inp.getD m 0) % 2 ^ 32 else o.getD m 0 := by
  induction n with
  | zero => exact ⟨rfl, fun m => by rw [if_neg (fun hh => Nat.not_lt_zero m hh.1)]; rfl⟩
  | succ n ih =>
    obtain ⟨il, ig⟩ := ih
    refine ⟨by rw [forLoop, List.length_set, il], fun m => ?_⟩
    have hn : (forLoop n (fun i out => out.set i ((out.getD i 0 + inp.getD i 0) % 2 ^ 32))
        o).getD n 0 = o.getD n 0 := by
      rw [ig n, if_neg (fun hh => Nat.lt_irrefl n hh.1)]
    rw [forLoop, getD_set, il, hn, ig m]
    by_cases c : n = m
    · subst c
      by_cases c2 : n < o.length
      · rw [if_pos ⟨rfl, c2⟩, if_pos ⟨Nat.lt_succ_self n, c2⟩]
      · rw [if_neg (fun hh => c2 hh.2), if_neg (fun hh => c2 hh.2), if_neg (fun hh => c2 hh.2)]
    · rw [if_neg (fun hh => c hh.1)]
      by_cases c3 : m < n ∧ m < o.length
      · rw [if_pos c3, if_pos ⟨by omega, c3.2⟩]
      · rw [if_neg c3, if_neg (fun hh => c3 ⟨by omega, hh.2⟩)]

/-- The unrolled code of `ChaCha20_block_next` with the array after every round named. -/
theorem block_next_unfold (inp c0 r1 r2 r3 r4 r5 r6 r7 r8 r9 r10 : List Nat)
    (h0 : c0 = forLoop 16 (fun i out => out.set i (inp.getD i 0)) (List.replicate 16 0))
    (h1 : r1 = CHACHA20_QR (CHACHA20_QR (CHACHA20_QR (CHACHA20_QR (CHACHA20_QR (CHACHA20_QR (CHACHA20_QR
      (CHACHA20_QR c0 0 4 8 12) 1 5 9 13) 2 6 10 14) 3 7 11 15) 0 5 10 15) 1 6 11 12) 2 7 8 13)
      3 4 9 14)
    (h2 : r2 = CHACHA20_QR (CHACHA20_QR (CHACHA20_QR (CHACHA20_QR (CHACHA20_QR (CHACHA20_QR (CHACHA20_QR
      (CHACHA20_QR r1 0 4 8 12) 1 5 9 13) 2 6 10 14) 3 7 11 15) 0 5 10 15) 1 6 11 12) 2 7 8 13)
      3 4 9 14)
    (h3 : r3 = CHACHA20_QR (CHACHA20_QR (CHACHA20_QR (CHACHA20_QR (CHACHA20_QR (CHACHA20_QR (CHACHA20_QR
      (CHACHA20_QR r2 0 4 8 12) 1 5 9 13) 2 6 10 14) 3 7 11 15) 0 5 10 15) 1 6 11 12) 2 7 8 13)
      3 4 9 14)
    (h4 : r4 = CHACHA20_QR (CHACHA20_QR (CHACHA20_QR (CHACHA20_QR (CHACHA20_QR (CHACHA20_QR (CHACHA20_QR
      (CHACHA20_QR r3 0 4 8 12) 1 5 9 13) 2 6 10 14) 3 7 11 15) 0 5 10 15) 1 6 11 12) 2 7 8 13)
      3 4 9 14)
    (h5 : r5 = CHACHA20_QR (CHACHA20_QR (CHACHA20_QR (CHACHA20_QR (CHACHA20_QR (CHACHA20_QR (CHACHA20_QR
      (CHACHA20_QR r4 0 4 8 12) 1 5 9 13) 2 6 10 14) 3 7 11 15) 0 5 10 15) 1 6 11 12) 2 7 8 13)
      3 4 9 14)
    (h6 : r6 = CHACHA20_QR (CHACHA20_QR (CHACHA20_QR (CHACHA20_QR (CHACHA20_QR (CHACHA20_QR (CHACHA20_QR
      (CHACHA20_QR r5 0 4 8 12) 1 5 9 13) 2 6 10 14) 3 7 11 15) 0 5 10 15) 1 6 11 12) 2 7 8 13)
      3 4 9 14)
    (h7 : r7 = CHACHA20_QR (CHACHA20_QR (CHACHA20_QR (CHACHA20_QR (CHACHA20_QR (CHACHA20_QR (CHACHA20_QR
      (CHACHA20_QR r6 0 4 8 12) 1 5 9 13) 2 6 10 14) 3 7 11 15) 0 5 10 15) 1 6 11 12) 2 7 8 13)
      3 4 9 14)
    (h8 : r8 = CHACHA20_QR (CHACHA20_QR (CHACHA20_QR (CHACHA20_QR (CHACHA20_QR (CHACHA20_QR (CHACHA20_QR
      (CHACHA20_QR r7 0 4 8 12) 1 5 9 13) 2 6 10 14) 3 7 11 15) 0 5 10 15) 1 6 11 12) 2 7 8 13)
      3 4 9 14)
    (h9 : r9 = CHACHA20_QR (CHACHA20_QR (CHACHA20_QR (CHACHA20_QR (CHACHA20_QR (CHACHA20_QR (CHACHA20_QR
      (CHACHA20_QR r8 0 4 8 12) 1 5 9 13) 2 6 10 14) 3 7 11 15) 0 5 10 15) 1 6 11 12) 2 7 8 13)
      3 4 9 14)
    (h10 : r10 = CHACHA20_QR (CHACHA20_QR (CHACHA20_QR (CHACHA20_QR (CHACHA20_QR (CHACHA20_QR (CHACHA20_QR
      (CHACHA20_QR r9 0 4 8 12) 1 5 9 13) 2 6 10 14) 3 7 11 15) 0 5 10 15) 1 6 11 12) 2 7 8 13)
      3 4 9 14) :
    ChaCha20_block_next inp
      = forLoop 16 (fun i out => out.set i ((out.getD i 0 + inp.getD i 0) % 2 ^ 32)) r10 := by
  rw [h10, h9, h8, h7, h6, h5, h4, h3, h2, h1, h0]
  unfold ChaCha20_block_next
  dsimp only

theorem iterate_DR (s : List Nat) (n : Nat) (hs : s.length = 16)
    (hb : ∀ m, s.getD m 0 < 2 ^ 32) :
    (Nat.iterate Spec.DR n s).length = 16 ∧ ∀ m, (Nat.iterate Spec.DR n s).getD m 0 < 2 ^ 32 := by
  induction n generalizing s with
  | zero => exact ⟨hs, hb⟩
  | succ n ih =>
    have h := DR_list s hs hb
    exact ih (Spec.DR s) h.2.1 h.2.2

theorem iterate_succ_DR (s : List Nat) (n : Nat) :
    Nat.iterate Spec.DR (n + 1) s = Spec.DR (Nat.iterate Spec.DR n s) :=
  Function.iterate_succ_apply' Spec.DR n s

theorem words_getD (l : List Nat) (h : ∀ w ∈ l, w < 2 ^ 32) (m : Nat) : l.getD m 0 < 2 ^ 32 := by
  rw [List.getD_eq_getElem?_getD]
  by_cases c : m < l.length
  · rw [List.getElem?_eq_getElem c]
    exact h _ (List.getElem_mem c)
  · rw [List.getElem?_eq_none (Nat.le_of_not_lt c)]
    decide

/-- The unrolled block function is the loop form. -/
theorem block_next_eq (inp : List Nat) (hl : inp.length = 16) (hb : ∀ m, inp.getD m 0 < 2 ^ 32) :
    ChaCha20_block_next inp = Spec.block inp := by
  have i0 : Nat.iterate Spec.DR 0 inp = inp := rfl
  have d1 := DR_list _ (iterate_DR inp 0 hl hb).1 (iterate_DR inp 0 hl hb).2
  have d2 := DR_list _ (iterate_DR inp 1 hl hb).1 (iterate_DR inp 1 hl hb).2
  have d3 := DR_list _ (iterate_DR inp 2 hl hb).1 (iterate_DR inp 2 hl hb).2
  have d4 := DR_list _ (iterate_DR inp 3 hl hb).1 (iterate_DR inp 3 hl hb).2
  have d5 := DR_list _ (iterate_DR inp 4 hl hb).1 (iterate_DR inp 4 hl hb).2
  have d6 := DR_list _ (iterate_DR inp 5 hl hb).1 (iterate_DR inp 5 hl hb).2
  have d7 := DR_list _ (iterate_DR inp 6 hl hb).1 (iterate_DR inp 6 hl hb).2
  have d8 := DR_list _ (iterate_DR inp 7 hl hb).1 (iterate_DR inp 7 hl hb).2
  have d9 := DR_list _ (iterate_DR inp 8 hl hb).1 (iterate_DR inp 8 hl hb).2
  have d10 := DR_list _ (iterate_DR inp 9 hl hb).1 (iterate_DR inp 9 hl hb).2
  rw [block_next_unfold inp inp (Nat.iterate Spec.DR 1 inp) (Nat.iterate Spec.DR 2 inp)
    (Nat.iterate Spec.DR 3 inp) (Nat.iterate Spec.DR 4 inp) (Nat.iterate Spec.DR 5 inp)
    (Nat.iterate Spec.DR 6 inp) (Nat.iterate Spec.DR 7 inp) (Nat.iterate Spec.DR 8 inp)
    (Nat.iterate Spec.DR 9 inp) (Nat.iterate Spec.DR 10 inp) (copy_eq inp hl).symm
    (by rw [iterate_succ_DR]; exact d1.1.symm) (by rw [iterate_succ_DR]; exact d2.1.symm)
    (by rw [iterate_succ_DR]; exact d3.1.symm) (by rw [iterate_succ_DR]; exact d4.1.symm)
    (by rw [iterate_succ_DR]; exact d5.1.symm) (by rw [iterate_succ_DR]; exact d6.1.symm)
    (by rw [iterate_succ_DR]; exact d7.1.symm) (by rw [iterate_succ_DR]; exact d8.1.symm)
    (by rw [iterate_succ_DR]; exact d9.1.symm) (by rw [iterate_succ_DR]; exact d10.1.symm)]
  have hI := iterate_DR inp 10 hl hb
  have hA := add_loop inp (Nat.iterate Spec.DR 10 inp) 16
  apply ext_getD
  · unfold Spec.block
    rw [hA.1, hI.1, List.length_map, List.length_range]
  · intro m hm
    rw [hA.1, hI.1] at hm
    unfold Spec.block
    rw [hA.2, hI.1, if_pos ⟨hm, hm⟩, List.getD_eq_getElem?_getD (l := List.map _ _),
      List.getElem?_map, List.getElem?_range hm]
    rfl

/-- C24: for every 16-word input state the 80 unrolled quarter-round invocations of
`ChaCha20_block_next` compute the loop form of the block function:
`out = in + DR^10(in)` word by word modulo `2 ^ 32`, where the double round `DR` applies the
quarter round to the four columns and then to the four diagonals and the quarter round is
`a += b; d ^= a; d <<<= 16; c += d; b ^= c; b <<<= 12; a += b; d ^= a; d <<<= 8; c += d;
b ^= c; b <<<= 7` on 32-bit words; the array `in` is the same after the call. -/
theorem C24_block_next_is_loop (inp : List Nat) (hl : inp.length = 16)
    (hb : ∀ w ∈ inp, w < 2 ^ 32) :
    ChaCha20_block_next inp = Spec.block inp ∧ (ChaCha20_block_next inp).length = 16 ∧
      (∀ w ∈ ChaCha20_block_next inp, w < 2 ^ 32) ∧
      ∀ out : List Nat, ChaCha20_block_next_arrays inp out = (inp, Spec.block inp) := by
  have h := block_next_eq inp hl (words_getD inp hb)
  refine ⟨h, ?_, ?_, fun out => ?_⟩
  · rw [h]
    unfold Spec.block
    rw [List.length_map, List.length_range]
  · intro w hw
    rw [h] at hw
    unfold Spec.block at hw
    obtain ⟨i, _, rfl⟩ := List.mem_map.mp hw
    exact mod_lt32 _
  · unfold ChaCha20_block_next_arrays
    rw [h]

theorem C24_block_next_is_loop_witness :
    ((List.range 16).length = 16 ∧ ∀ w ∈ List.range 16, w < 2 ^ 32) ∧
    (ChaCha20_block_next (List.range 16) = Spec.block (List.range 16) ∧
      (ChaCha20_block_next (List.range 16)).length = 16 ∧
      (∀ w ∈ ChaCha20_block_next (List.range 16), w < 2 ^ 32) ∧
      ∀ out : List Nat,
        ChaCha20_block_next_arrays (List.range 16) out
          = (List.range 16, Spec.block (List.range 16))) :=
  ⟨⟨by decide, by decide⟩, C24_block_next_is_loop (List.range 16) (by decide) (by decide)⟩

/-- C26: splitting a stream works at every position: for every context and all buffers `A`
and `B` of arbitrary lengths (also the empty one), `ChaCha20_xor` on `A` and then on `B` with
the same context yields the same output bytes and the same final context as one call on
`A ++ B`; a call on the empty buffer changes nothing. -/
theorem C26_split_anywhere (ctx : ChaCha20_Ctx) (A B : List Nat) :
    (ChaCha20_xor ctx (A ++ B) =
      match ChaCha20_xor ctx A with
      | none => none
      | some q =>
        match ChaCha20_xor q.1 B with
        | none => none
        | some r => some (r.1, q.2 ++ r.2)) ∧
    ChaCha20_xor ctx [] = some (ctx, []) :=
  ⟨xor_append ctx A B, rfl⟩

/-! ## ChaCha20: the index into the keystream -/

theorem nextBlock_idx (c c1 : ChaCha20_Ctx) (hc : c.idx ≤ 64) (h : nextBlock c = some c1) :
    c1.idx < 64 ∧ (c.idx % 64 = 0 → c1.keystream = ChaCha20_block_next c.state ∧ c1.idx = 0) ∧
      (c.idx % 64 ≠ 0 → c1 = c) := by
  unfold nextBlock at h
  by_cases h0 : c.idx % 64 = 0
  · rw [if_pos h0] at h
    dsimp only at h
    split at h
    · split at h
      · injection h with h
        subst h
        refine ⟨?_, fun _ => ⟨?_, ?_⟩, fun hh => absurd h0 hh⟩
        · dsimp only
          decide
        · dsimp only
        · dsimp only
      · exact Option.noConfusion h
    · injection h with h
      subst h
      refine ⟨?_, fun _ => ⟨?_, ?_⟩, fun hh => absurd h0 hh⟩
      · dsimp only
        decide
      · dsimp only
      · dsimp only
  · rw [if_neg h0] at h
    injection h with h
    subst h
    exact ⟨by omega, fun hh => absurd hh h0, fun _ => rfl⟩

theorem xorByte_idx (i : Nat) (p q : ChaCha20_Ctx × List Nat) (hc : p.1.idx ≤ 64)
    (h : xorByte i p = some q) :
    1 ≤ q.1.idx ∧ q.1.idx ≤ 64 ∧
      ∃ c1, nextBlock p.1 = some c1 ∧ c1.idx < 64 ∧
        q.2 = p.2.set i (p.2.getD i 0 ^^^ keystreamByte c1.keystream c1.idx) := by
  cases e : nextBlock p.1 with
  | none =>
    rw [xorByte_none i p e] at h
    exact Option.noConfusion h
  | some c1 =>
    have hi := (nextBlock_idx p.1 c1 hc e).1
    rw [xorByte_some i p c1 e] at h
    injection h with h
    subst h
    have e2 : (c1.idx + 1) % 2 ^ 32 = c1.idx + 1 :=
      Nat.mod_eq_of_lt (Nat.lt_of_lt_of_le (Nat.succ_lt_succ hi) (by decide))
    refine ⟨?_, ?_, c1, rfl, hi, rfl⟩
    · show 1 ≤ (c1.idx + 1) % 2 ^ 32
      rw [e2]
      exact Nat.succ_le_succ (Nat.zero_le _)
    · show (c1.idx + 1) % 2 ^ 32 ≤ 64
      rw [e2]
      exact hi

theorem xorLoop_idx (n : Nat) (p : ChaCha20_Ctx × List Nat) (hc : p.1.idx ≤ 64) :
    ∀ q, xorLoop n p = some q → q.1.idx ≤ 64 ∧ (0 < n → 1 ≤ q.1.idx) ∧ (n = 0 → q = p) := by
  induction n with
  | zero =>
    intro q h
    injection h with h
    subst h
    exact ⟨hc, fun h0 => absurd h0 (Nat.lt_irrefl 0), fun _ => rfl⟩
  | succ n ih =>
    intro q h
    cases e : xorLoop n p with
    | none =>
      rw [xorLoop_succ_none n p e] at h
      exact Option.noConfusion h
    | some r =>
      rw [xorLoop_succ n p r e] at h
      have hb := xorByte_idx n r q (ih r e).1 h
      exact ⟨hb.2.1, fun _ => hb.1, fun h0 => absurd h0 (Nat.succ_ne_zero n)⟩

theorem xorMany_idx (Bs : List (List Nat)) :
    ∀ c r : ChaCha20_Ctx, c.idx ≤ 64 → xorMany c Bs = some r →
      r.idx ≤ 64 ∧ (1 ≤ c.idx → 1 ≤ r.idx) ∧ ((∃ B ∈ Bs, B ≠ []) → 1 ≤ r.idx) := by
  induction Bs with
  | nil =>
    intro c r hc h
    injection h with h
    subst h
    exact ⟨hc, fun h1 => h1, fun ⟨B, hB, _⟩ => absurd hB (List.not_mem_nil B)⟩
  | cons B Bs ih =>
    intro c r hc h
    rw [xorMany] at h
    cases e : ChaCha20_xor c B with
    | none =>
      rw [e] at h
      exact Option.noConfusion h
    | some q =>
      rw [e] at h
      dsimp only at h
      have hq := xorLoop_idx B.length (c, B) hc q e
      have hr := ih q.1 r hq.1 h
      refine ⟨hr.1, fun h1 => hr.2.1 ?_, fun ⟨B1, hB1, hne⟩ => ?_⟩
      · by_cases hB : B.length = 0
        · rw [hq.2.2 hB]
          exact h1
        · exact hq.2.1 (Nat.pos_of_ne_zero hB)
      · rcases List.mem_cons.mp hB1 with hh | hh
        · subst hh
          exact hr.2.1 (hq.2.1 (List.length_pos.mpr hne))
        · exact hr.2.2 ⟨B1, hh, hne⟩

/-- C27: the invariant of the context. `ChaCha20_init` sets `idx = 0`; after it and any
sequence of `ChaCha20_xor` calls `idx ≤ 64`, and `idx = 0` only if every buffer was empty;
in every iteration of the loop of `ChaCha20_xor` on such a context, the index with which the
keystream is read is in `0..63` and `idx` is in `1..64` afterwards; when the context has
`idx = 0`, the keystream block is generated before the read. -/
theorem C27_idx_invariant :
    (∀ (ctx0 : ChaCha20_Ctx) (key nonce : List Nat) (count : Nat),
      (ChaCha20_init ctx0 key nonce count).idx = 0) ∧
    (∀ (ctx0 : ChaCha20_Ctx) (key nonce : List Nat) (count : Nat) (Bs : List (List Nat))
      (c : ChaCha20_Ctx), xorMany (ChaCha20_init ctx0 key nonce count) Bs = some c →
        c.idx ≤ 64 ∧ (c.idx = 0 → ∀ B ∈ Bs, B = [])) ∧
    (∀ (i : Nat) (p q : ChaCha20_Ctx × List Nat), p.1.idx ≤ 64 → xorByte i p = some q →
      1 ≤ q.1.idx ∧ q.1.idx ≤ 64 ∧
        ∃ c1, nextBlock p.1 = some c1 ∧ c1.idx < 64 ∧
          q.2 = p.2.set i (p.2.getD i 0 ^^^ keystreamByte c1.keystream c1.idx)) ∧
    (∀ c c1 : ChaCha20_Ctx, c.idx = 0 → nextBlock c = some c1 →
      c1.keystream = ChaCha20_block_next c.state ∧ c1.idx = 0) := by
  refine ⟨fun _ _ _ _ => rfl, fun ctx0 key nonce count Bs c h => ?_, xorByte_idx,
    fun c c1 h0 h => ?_⟩
  · have hm := xorMany_idx Bs (ChaCha20_init ctx0 key nonce count) c (Nat.zero_le 64) h
    refine ⟨hm.1, fun hz B hB => ?_⟩
    by_contra hne
    have := hm.2.2 ⟨B, hB, hne⟩
    omega
  · exact (nextBlock_idx c c1 (by omega) h).2.1 (by rw [h0])

end ChaCha20
